import Mathlib

/-!
Verification of the Inglish translation pipeline.

This file gives a shallow embedding, over `List Char` strings, of the core
text algorithms of the repository:

* `utils.py`: `calculate_overlap`, `resolve_overlapping_spans`;
* `term_extractor.py`: trie matching, `extract_terms`, `guard_terms`,
  `unguard_terms`;
* `translator.py`: `BaselineTranslator.translate` with its five internal
  stages (possession pre-rule, bracket protection, word substitution,
  post-bracket rules, SOV reorder, restoration);
* `script_converter.py` (the word-map reference variant and the ITRANS
  variant): the three-pass stash/substitute/restore conversion and the
  reverse path.

Python's `sorted` is embedded as a stable insertion sort (`stableSort`),
Python strings are `List Char`, and each regular-expression operation of the
source is embedded as a dedicated scanner that mirrors the backtracking
behaviour of the concrete pattern it implements.
-/

set_option maxHeartbeats 1000000

set_option maxRecDepth 10000

namespace Inglish

/-- Strings are modelled as lists of characters. -/
abbrev Str := List Char

/-- Convert a Lean string literal to the model type. -/
def str (s : String) : Str := s.toList

/-- Stable insertion of an element into a sorted list: `x` goes before the
first element `y` with `le x y`.  Used to model Python's stable `sorted`. -/
def insertLe (le : α → α → Bool) (x : α) : List α → List α
  | [] => [x]
  | y :: ys => if le x y then x :: y :: ys else y :: insertLe le x ys

/-- Stable insertion sort, the model of Python's `sorted`: elements that
compare equal keep their original relative order. -/
def stableSort (le : α → α → Bool) : List α → List α
  | [] => []
  | x :: xs => insertLe le x (stableSort le xs)

/-- A candidate span: matched text together with half-open character
offsets, mirroring the `(text, start, end)` tuples of `utils.py`. -/
abbrev Span := Str × Nat × Nat

/-- `utils.calculate_overlap`: two half-open intervals overlap unless one
ends at or before the start of the other. -/
def calculateOverlap (s1 s2 : Nat × Nat) : Bool :=
  decide (¬ (s1.2 ≤ s2.1 ∨ s2.2 ≤ s1.1))

/-- Sort key order used by `resolve_overlapping_spans`:
`key=lambda x: (x[1], -(x[2] - x[1]))`, i.e. start ascending then length
descending (length differences taken over the integers, as in Python). -/
def spanKeyLe (a b : Span) : Bool :=
  decide (a.2.1 < b.2.1 ∨
    (a.2.1 = b.2.1 ∧ ((b.2.2 : Int) - b.2.1 ≤ (a.2.2 : Int) - a.2.1)))

/-- Final sort of the resolver output: by start ascending
(`key=lambda x: x[1]`). -/
def startLe (a b : Span) : Bool := decide (a.2.1 ≤ b.2.1)

/-- The greedy acceptance loop of `resolve_overlapping_spans`: a span is
appended to the accumulator iff it overlaps no already-accepted span. -/
def acceptSpans : List Span → List Span → List Span
  | acc, [] => acc
  | acc, s :: rest =>
    if acc.any (fun t => calculateOverlap (s.2.1, s.2.2) (t.2.1, t.2.2)) then
      acceptSpans acc rest
    else
      acceptSpans (acc ++ [s]) rest

/-- `utils.resolve_overlapping_spans`: sort by (start asc, length desc),
greedily accept non-overlapping spans, return re-sorted by start. -/
def resolveOverlappingSpans (spans : List Span) : List Span :=
  match spans with
  | [] => []
  | _ :: _ =>
    stableSort startLe (acceptSpans [] (stableSort spanKeyLe spans))

end Inglish

namespace Inglish

/-! ### Lemmas about the stable sort -/

theorem insertLe_perm (le : α → α → Bool) (x : α) :
    ∀ l : List α, (insertLe le x l).Perm (x :: l) := by
  intro l
  induction l with
  | nil => simp [insertLe]
  | cons y ys ih =>
    simp only [insertLe]
    split
    · exact List.Perm.refl _
    · exact (List.Perm.cons y ih).trans (List.Perm.swap x y ys)

theorem stableSort_perm (le : α → α → Bool) :
    ∀ l : List α, (stableSort le l).Perm l := by
  intro l
  induction l with
  | nil => exact List.Perm.refl _
  | cons x xs ih =>
    simp only [stableSort]
    exact (insertLe_perm le x (stableSort le xs)).trans (List.Perm.cons x ih)

theorem insertLe_pairwise (le : α → α → Bool)
    (htrans : ∀ a b c, le a b = true → le b c = true → le a c = true)
    (htotal : ∀ a b, (le a b || le b a) = true) (x : α) :
    ∀ l : List α, l.Pairwise (fun a b => le a b = true) →
      (insertLe le x l).Pairwise (fun a b => le a b = true) := by
  intro l
  induction l with
  | nil => intro _; simp [insertLe]
  | cons y ys ih =>
    intro h
    rw [List.pairwise_cons] at h
    simp only [insertLe]
    split
    · rename_i hxy
      rw [List.pairwise_cons]
      constructor
      · intro b hb
        rcases List.mem_cons.1 hb with hb | hb
        · exact hb ▸ hxy
        · exact htrans x y b hxy (h.1 b hb)
      · exact List.pairwise_cons.2 h
    · rename_i hxy
      rw [List.pairwise_cons]
      constructor
      · intro b hb
        have hperm := insertLe_perm le x ys
        rcases List.mem_cons.1 ((hperm.mem_iff).1 hb) with hb2 | hb2
        · rw [hb2]
          rcases (by simpa using htotal x y : le x y = true ∨ le y x = true)
            with h2 | h2
          · exact absurd h2 hxy
          · exact h2
        · exact h.1 b hb2
      · exact ih h.2

end Inglish

namespace Inglish

theorem stableSort_pairwise (le : α → α → Bool)
    (htrans : ∀ a b c, le a b = true → le b c = true → le a c = true)
    (htotal : ∀ a b, (le a b || le b a) = true) :
    ∀ l : List α, (stableSort le l).Pairwise (fun a b => le a b = true) := by
  intro l
  induction l with
  | nil => simp [stableSort]
  | cons x xs ih =>
    simp only [stableSort]
    exact insertLe_pairwise le htrans htotal x _ ih

/-! ### Lemmas about the span resolver -/

theorem calculateOverlap_comm (a b : Nat × Nat) :
    calculateOverlap a b = calculateOverlap b a := by
  simp only [calculateOverlap, decide_eq_decide]
  tauto

theorem spanKeyLe_trans (a b c : Span) (hab : spanKeyLe a b = true)
    (hbc : spanKeyLe b c = true) : spanKeyLe a c = true := by
  simp only [spanKeyLe, decide_eq_true_eq] at *
  rcases hab with h1 | ⟨h1, h1'⟩ <;> rcases hbc with h2 | ⟨h2, h2'⟩
  · exact Or.inl (h1.trans h2)
  · exact Or.inl (h2 ▸ h1)
  · exact Or.inl (h1 ▸ h2)
  · exact Or.inr ⟨h1.trans h2, le_trans h2' h1'⟩

theorem spanKeyLe_total (a b : Span) :
    (spanKeyLe a b || spanKeyLe b a) = true := by
  simp only [spanKeyLe, Bool.or_eq_true, decide_eq_true_eq]
  rcases Nat.lt_trichotomy a.2.1 b.2.1 with h | h | h
  · exact Or.inl (Or.inl h)
  · rcases le_total ((b.2.2 : Int) - b.2.1) ((a.2.2 : Int) - a.2.1) with h' | h'
    · exact Or.inl (Or.inr ⟨h, h'⟩)
    · exact Or.inr (Or.inr ⟨h.symm, h ▸ h'⟩)
  · exact Or.inr (Or.inl h)

theorem startLe_trans (a b c : Span) (hab : startLe a b = true)
    (hbc : startLe b c = true) : startLe a c = true := by
  simp only [startLe, decide_eq_true_eq] at *
  exact hab.trans hbc

theorem startLe_total (a b : Span) : (startLe a b || startLe b a) = true := by
  simp only [startLe, Bool.or_eq_true, decide_eq_true_eq]
  exact le_total _ _

/-- Membership in the greedy acceptance output comes from the accumulator
or from the input list. -/
theorem acceptSpans_subset {x : Span} :
    ∀ (l acc : List Span), x ∈ acceptSpans acc l → x ∈ acc ∨ x ∈ l := by
  intro l
  induction l with
  | nil => intro acc h; exact Or.inl h
  | cons s rest ih =>
    intro acc h
    simp only [acceptSpans] at h
    split at h
    · rcases ih acc h with h' | h'
      · exact Or.inl h'
      · exact Or.inr (List.mem_cons_of_mem _ h')
    · rcases ih (acc ++ [s]) h with h' | h'
      · rcases List.mem_append.1 h' with h'' | h''
        · exact Or.inl h''
        · simp at h''
          exact Or.inr (h'' ▸ List.mem_cons_self _ _)
      · exact Or.inr (List.mem_cons_of_mem _ h')

/-- The accumulator is contained in the greedy output. -/
theorem acceptSpans_mono {x : Span} :
    ∀ (l acc : List Span), x ∈ acc → x ∈ acceptSpans acc l := by
  intro l
  induction l with
  | nil => intro acc h; exact h
  | cons s rest ih =>
    intro acc h
    simp only [acceptSpans]
    split
    · exact ih acc h
    · exact ih (acc ++ [s]) (List.mem_append.2 (Or.inl h))

/-- Non-overlap predicate on spans used for pairwise statements. -/
def noOverlap (a b : Span) : Prop :=
  calculateOverlap (a.2.1, a.2.2) (b.2.1, b.2.2) = false

theorem noOverlap_symm {a b : Span} (h : noOverlap a b) : noOverlap b a := by
  unfold noOverlap at *
  rw [calculateOverlap_comm]
  exact h

/-- The greedy acceptance loop preserves pairwise non-overlap of the
accumulator. -/
theorem acceptSpans_pairwise :
    ∀ (l acc : List Span), acc.Pairwise noOverlap →
      (acceptSpans acc l).Pairwise noOverlap := by
  intro l
  induction l with
  | nil => intro acc h; exact h
  | cons s rest ih =>
    intro acc h
    simp only [acceptSpans]
    split
    · exact ih acc h
    · rename_i hno
      apply ih
      rw [List.pairwise_append]
      refine ⟨h, List.pairwise_singleton _ _, ?_⟩
      intro a ha b hb
      simp at hb
      subst hb
      simp only [List.any_eq_true, not_exists, not_and, Bool.not_eq_true] at hno
      have := hno a ha
      unfold noOverlap
      rw [calculateOverlap_comm]
      exact this

/-- Splitting a greedy run at an append. -/
theorem acceptSpans_append (l1 l2 : List Span) :
    ∀ acc, acceptSpans acc (l1 ++ l2) = acceptSpans (acceptSpans acc l1) l2 := by
  induction l1 with
  | nil => intro acc; rfl
  | cons s rest ih =>
    intro acc
    simp only [List.cons_append, acceptSpans]
    split
    · exact ih acc
    · exact ih (acc ++ [s])

/-- Once some accepted span overlaps `B`, the value `B` can never be
accepted later. -/
theorem acceptSpans_reject (B : Span) :
    ∀ (l acc : List Span), B ∉ acc →
      (∃ y ∈ acc, calculateOverlap (B.2.1, B.2.2) (y.2.1, y.2.2) = true) →
      B ∉ acceptSpans acc l := by
  intro l
  induction l with
  | nil => intro acc hB _; exact hB
  | cons s rest ih =>
    intro acc hB hy
    simp only [acceptSpans]
    split
    · exact ih acc hB hy
    · rename_i hno
      have hsB : s ≠ B := by
        intro h
        subst h
        obtain ⟨y, hy1, hy2⟩ := hy
        simp only [List.any_eq_true, not_exists, not_and,
          Bool.not_eq_true] at hno
        have := hno y hy1
        rw [this] at hy2
        exact Bool.false_ne_true hy2
      apply ih (acc ++ [s])
      · intro h
        rcases List.mem_append.1 h with h' | h'
        · exact hB h'
        · simp at h'
          exact hsB h'.symm
      · obtain ⟨y, hy1, hy2⟩ := hy
        exact ⟨y, List.mem_append.2 (Or.inl hy1), hy2⟩

end Inglish

namespace Inglish

/-- Pairwise start-orderedness (the spec's "sorted by start ascending"). -/
def startOrdered (l : List Span) : Prop :=
  l.Pairwise (fun a b => a.2.1 ≤ b.2.1)

/-- C5: `resolve_overlapping_spans` sorts candidates by (start ascending,
length descending), greedily accepts spans that do not overlap (open
intervals, shared boundaries allowed) any accepted span, and returns the
accepted spans sorted by start: the output is pairwise non-overlapping,
every output span is an input candidate, the output is sorted by start
ascending, and the empty input yields the empty output. -/
theorem claim_C5 (spans : List Span) :
    resolveOverlappingSpans ([] : List Span) = [] ∧
    (∀ x ∈ resolveOverlappingSpans spans, x ∈ spans) ∧
    (resolveOverlappingSpans spans).Pairwise noOverlap ∧
    startOrdered (resolveOverlappingSpans spans) := by
  refine ⟨rfl, ?_, ?_, ?_⟩
  · intro x hx
    match spans, hx with
    | s :: rest, hx =>
      simp only [resolveOverlappingSpans] at hx
      have hx' := (stableSort_perm startLe (acceptSpans []
        (stableSort spanKeyLe (s :: rest)))).mem_iff.1 hx
      rcases acceptSpans_subset _ _ hx' with h | h
      · exact absurd h (List.not_mem_nil x)
      · exact (stableSort_perm spanKeyLe (s :: rest)).mem_iff.1 h
  · match spans with
    | [] => simp [resolveOverlappingSpans]
    | s :: rest =>
      simp only [resolveOverlappingSpans]
      have hperm := stableSort_perm startLe (acceptSpans []
        (stableSort spanKeyLe (s :: rest)))
      refine (hperm.pairwise_iff (fun h => noOverlap_symm h)).2 ?_
      exact acceptSpans_pairwise _ [] (List.Pairwise.nil)
  · match spans with
    | [] => simp [resolveOverlappingSpans, startOrdered]
    | s :: rest =>
      simp only [resolveOverlappingSpans, startOrdered]
      have h := stableSort_pairwise startLe
        (fun a b c => startLe_trans a b c) startLe_total
        (acceptSpans [] (stableSort spanKeyLe (s :: rest)))
      refine h.imp ?_
      intro a b hab
      simpa [startLe] using hab

/-- Helper extracting `C.start ≤ A.start` from the sort-key order. -/
theorem spanKeyLe_start_le {C A : Span} (h : spanKeyLe C A = true) :
    C.2.1 ≤ A.2.1 := by
  simp only [spanKeyLe, decide_eq_true_eq] at h
  rcases h with h | ⟨h, _⟩
  · exact Nat.le_of_lt h
  · exact Nat.le_of_eq h

/-- Among two overlapping candidates with the same start and different
lengths, the shorter one is never in the resolver output. -/
theorem shorter_same_start_excluded (spans : List Span) (A B : Span)
    (hA : A ∈ spans) (hB : B ∈ spans)
    (hstart : A.2.1 = B.2.1)
    (hlen : B.2.2 < A.2.2)
    (hnd : B.2.1 < B.2.2) :
    B ∉ resolveOverlappingSpans spans := by
  have hAB : A ≠ B := by
    intro h
    rw [h] at hlen
    exact Nat.lt_irrefl _ hlen
  cases spans with
  | nil => cases hA
  | cons s rest =>
    simp only [resolveOverlappingSpans]
    intro hmem
    have hmem' := (stableSort_perm startLe (acceptSpans []
      (stableSort spanKeyLe (s :: rest)))).mem_iff.1 hmem
    have hAmem : A ∈ stableSort spanKeyLe (s :: rest) :=
      (stableSort_perm spanKeyLe (s :: rest)).mem_iff.2 hA
    have hpair : (stableSort spanKeyLe (s :: rest)).Pairwise
        (fun a b => spanKeyLe a b = true) :=
      stableSort_pairwise spanKeyLe
        (fun a b c => spanKeyLe_trans a b c) spanKeyLe_total (s :: rest)
    obtain ⟨u, v, huv⟩ := List.append_of_mem hAmem
    rw [huv] at hmem' hpair
    rw [List.pairwise_append] at hpair
    have hBu : B ∉ u := by
      intro hBmem
      have hle := hpair.2.2 B hBmem A (List.mem_cons_self _ _)
      simp only [spanKeyLe, decide_eq_true_eq] at hle
      rcases hle with h | ⟨_, h⟩
      · omega
      · omega
    rw [acceptSpans_append] at hmem'
    set acc0 := acceptSpans [] u with hacc0
    have hacc0u : ∀ x ∈ acc0, x ∈ u := by
      intro x hx
      rcases acceptSpans_subset u [] hx with h | h
      · cases h
      · exact h
    have hBacc0 : B ∉ acc0 := fun h => hBu (hacc0u B h)
    simp only [acceptSpans] at hmem'
    split at hmem'
    · rename_i hcond
      rw [List.any_eq_true] at hcond
      obtain ⟨C, hC, hCov⟩ := hcond
      have hCu : C ∈ u := hacc0u C hC
      have hle := hpair.2.2 C hCu A (List.mem_cons_self _ _)
      have hCsA : C.2.1 ≤ A.2.1 := spanKeyLe_start_le hle
      simp only [calculateOverlap, decide_eq_true_eq, not_or, not_le] at hCov
      refine acceptSpans_reject B v acc0 hBacc0 ⟨C, hC, ?_⟩ hmem'
      simp only [calculateOverlap, decide_eq_true_eq, not_or, not_le]
      omega
    · refine acceptSpans_reject B v (acc0 ++ [A]) ?_ ⟨A, ?_, ?_⟩ hmem'
      · intro h
        rcases List.mem_append.1 h with h' | h'
        · exact hBacc0 h'
        · simp at h'
          exact hAB h'.symm
      · exact List.mem_append.2 (Or.inr (List.mem_cons_self _ _))
      · simp only [calculateOverlap, decide_eq_true_eq, not_or, not_le]
        omega

/-- C6 counterexample: the candidates ("a",0,10) and ("b",5,20) overlap and
have different lengths (10 and 15), yet the resolver keeps the shorter,
earlier-starting span and discards the longer one: greedy resolution prefers
the earlier start, not the greater length. -/
theorem counterexample_C6 :
    calculateOverlap (0, 10) (5, 20) = true ∧
    (20 - 5 : Nat) ≠ (10 - 0 : Nat) ∧
    resolveOverlappingSpans [(str "a", 0, 10), (str "b", 5, 20)] =
      [(str "a", 0, 10)] := by
  refine ⟨by decide, by decide, ?_⟩
  decide

/-- C6 (amended): for two overlapping candidates with the same start and
different lengths, the longer one is preferred: the shorter span is never
present in the resolver output. -/
theorem claim_C6 (spans : List Span) (A B : Span)
    (hA : A ∈ spans) (hB : B ∈ spans)
    (hstart : A.2.1 = B.2.1)
    (hlen : B.2.2 < A.2.2)
    (hnd : B.2.1 < B.2.2) :
    B ∉ resolveOverlappingSpans spans :=
  shorter_same_start_excluded spans A B hA hB hstart hlen hnd

/-- C6 witness: with candidates ("x",3,9) and ("y",3,6) (same start, lengths
6 and 3, overlapping), the shorter one is excluded from the output. -/
theorem witness_C6 :
    (str "x", 3, 9) ∈ [((str "x", 3, 9) : Span), (str "y", 3, 6)] ∧
    (str "y", 3, 6) ∉
      resolveOverlappingSpans [(str "x", 3, 9), (str "y", 3, 6)] :=
  ⟨by decide, claim_C6 [(str "x", 3, 9), (str "y", 3, 6)]
    (str "x", 3, 9) (str "y", 3, 6)
    (by decide) (by decide) (by decide) (by decide) (by decide)⟩

end Inglish

namespace Inglish

/-! ### Character classes and tokenisation (`str.split`, `str.strip`,
`str.lower` as used by the extractor and translator) -/

/-- Python whitespace for `str.split()` and `\s` (ASCII range). -/
def pyIsSpace (c : Char) : Bool :=
  c == ' ' || c == '\t' || c == '\n' || c == '\r' || c == '\x0b' || c == '\x0c'

/-- `str.split()` with no argument, fuelled so that it reduces in the
kernel: split on runs of whitespace, discarding leading and trailing
whitespace.  The fuel argument only needs to be at least the string length.
-/
def pySplitGo : Nat → Str → List Str
  | 0, _ => []
  | _, [] => []
  | fuel + 1, c :: rest =>
    if pyIsSpace c then pySplitGo fuel rest
    else (c :: rest.takeWhile (fun d => !pyIsSpace d)) ::
      pySplitGo fuel (rest.dropWhile (fun d => !pyIsSpace d))

/-- `str.split()` with no argument. -/
def pySplit (s : Str) : List Str := pySplitGo s.length s

/-- `str.strip(cs)`: remove the characters of `cs` from both ends. -/
def stripChars (cs : Str) (s : Str) : Str :=
  ((s.dropWhile (fun c => cs.contains c)).reverse.dropWhile
    (fun c => cs.contains c)).reverse

/-- The punctuation set `'.,!?;:()'` stripped by the extractor. -/
def extractorPunct : Str := str ".,!?;:()"

/-- `str.lower()` (ASCII). -/
def lowerStr (s : Str) : Str := s.map Char.toLower

/-- `word.lower().strip('.,!?;:()')` as used by both the compound and the
single term scans. -/
def cleanWord (w : Str) : Str := stripChars extractorPunct (lowerStr w)

/-- `' '.join(words)`. -/
def joinSp : List Str → Str
  | [] => []
  | w :: ws =>
    match ws with
    | [] => w
    | _ :: _ => w ++ ' ' :: joinSp ws

/-! ### The compound-term trie (`TermExtractor.compound_trie`) -/

/-- A trie node: terminal marker plus children keyed by lowercase words
(the `'$'` marker of the Python dict is the Boolean field). -/
inductive Trie where
  | node : Bool → List (Str × Trie) → Trie

/-- Terminal marker (`node.get('$')`). -/
def Trie.isEnd : Trie → Bool
  | .node e _ => e

/-- Child lookup (`word in node` / `node[word]`). -/
def Trie.child : Trie → Str → Option Trie
  | .node _ cs, w => (cs.find? (fun p => p.1 == w)).map (fun p => p.2)

/-- Insert one compound term (as its word list) into the trie, mirroring
`node.setdefault(word, {})` walks followed by setting the end marker. -/
def trieInsert : List Str → Trie → Trie
  | [], .node _ cs => .node true cs
  | w :: ws, .node e cs =>
    if cs.any (fun p => p.1 == w) then
      .node e (cs.map (fun p =>
        if p.1 == w then (p.1, trieInsert ws p.2) else p))
    else
      .node e (cs ++ [(w, trieInsert ws (.node false []))])

/-- Build the compound trie of `_load_terms` from the lowercased compound
terms: each is split into words and inserted. -/
def buildTrie (compound : List Str) : Trie :=
  compound.foldl (fun t term => trieInsert (pySplit (lowerStr term)) t)
    (.node false [])

/-! ### `TermExtractor` extraction -/

/-- Walk the trie from a starting token, recording the accumulated original
words at every terminal reached (`_extract_compound_terms` inner loop). -/
def compoundWalk : Trie → List Str → List Str → List (List Str)
  | _, [], _ => []
  | t, w :: rest, acc =>
    match t.child (cleanWord w) with
    | none => []
    | some c =>
      let acc2 := acc ++ [w]
      (if c.isEnd then [acc2] else []) ++ compoundWalk c rest acc2

/-- The character offset assigned by the extractor to token `i`:
`len(' '.join(words[:i])) + (1 if that is nonempty else 0)`. -/
def wordStart (words : List Str) (i : Nat) : Nat :=
  let pre := joinSp (words.take i)
  pre.length + (if pre.length = 0 then 0 else 1)

/-- `TermExtractor._extract_compound_terms`. -/
def extractCompoundTerms (trie : Trie) (text : Str) : List Span :=
  let words := pySplit text
  (List.range words.length).flatMap (fun i =>
    (compoundWalk trie (words.drop i) []).map (fun mws =>
      let mtext := joinSp mws
      (mtext, wordStart words i, wordStart words i + mtext.length)))

/-- `TermExtractor._extract_single_terms`. -/
def extractSingleTerms (single : List Str) (text : Str) : List Span :=
  let words := pySplit text
  words.enum.filterMap (fun p =>
    if single.any (fun t => t == cleanWord p.2) then
      some (p.2, wordStart words p.1, wordStart words p.1 + p.2.length)
    else none)

/-- The glossary-derived state of one `TermExtractor` instance: the single
term set, the compound trie, the term-to-Devanagari map, and the result of
the regex pattern scan (`_extract_pattern_terms`, whose patterns are domain
configuration; the function gives its `re.finditer` matches per text). -/
structure ExtractorCfg where
  singleTerms : List Str
  trie : Trie
  devaMap : List (Str × Str)
  patternScan : Str → List Span

/-- First-match association lookup (Python dict `get`). -/
def lookupAssoc (m : List (Str × Str)) (k : Str) : Option Str :=
  (m.find? (fun p => p.1 == k)).map (fun p => p.2)

/-- An extracted term: `(term_text, devanagari, start, end)`. -/
abbrev XTerm := Str × Str × Nat × Nat

/-- `TermExtractor.extract_terms`: merge the three candidate lists, resolve
overlaps, attach the phonetic value (empty when absent). -/
def extractTerms (cfg : ExtractorCfg) (text : Str) : List XTerm :=
  let raw := extractCompoundTerms cfg.trie text
    ++ extractSingleTerms cfg.singleTerms text
    ++ cfg.patternScan text
  (resolveOverlappingSpans raw).map (fun t =>
    (t.1, (lookupAssoc cfg.devaMap (lowerStr t.1)).getD [], t.2.1, t.2.2))

/-- Sort order of `guard_terms`: by start descending
(`key=lambda t: t[2], reverse=True`), stable. -/
def termStartGe (a b : XTerm) : Bool := decide (b.2.2.1 ≤ a.2.2.1)

/-- One wrapping step of `guard_terms`:
`result[:start] + "[" + text[start:end] + "]" + result[end:]`. -/
def guardStep (text result : Str) (t : XTerm) : Str :=
  result.take t.2.2.1 ++
    '[' :: ((text.drop t.2.2.1).take (t.2.2.2 - t.2.2.1) ++
      ']' :: result.drop t.2.2.2)

/-- `TermExtractor.guard_terms(text, terms)`: no-op on an empty term list,
otherwise wrap each span `text[start:end]` in brackets, processing spans in
descending start order. -/
def guardTerms (text : Str) (terms : List XTerm) : Str :=
  match terms with
  | [] => text
  | _ :: _ =>
    (stableSort termStartGe terms).foldl (guardStep text) text

/-- Split a string at its first `']'`, returning the part before (which
contains no `']'`) and the part after. -/
def splitAtRB : Str → Option (Str × Str)
  | [] => none
  | c :: r =>
    if c = ']' then some ([], r)
    else (splitAtRB r).map (fun p => (c :: p.1, p.2))

theorem splitAtRB_noRB_sound :
    ∀ (s a b : Str), splitAtRB s = some (a, b) →
      s = a ++ ']' :: b ∧ ']' ∉ a := by
  intro s
  induction s with
  | nil => intro a b h; cases h
  | cons c r ih =>
    intro a b h
    simp only [splitAtRB] at h
    split at h
    · rename_i hc
      cases h
      subst hc
      exact ⟨rfl, List.not_mem_nil _⟩
    · rename_i hc
      cases hsp : splitAtRB r with
      | none => rw [hsp] at h; cases h
      | some p =>
        rw [hsp] at h
        simp only [Option.map_some'] at h
        cases h
        obtain ⟨h1, h2⟩ := ih p.1 p.2 hsp
        constructor
        · rw [h1]; rfl
        · intro hmem
          rcases List.mem_cons.1 hmem with h3 | h3
          · exact hc h3.symm
          · exact h2 h3

/-- `TermExtractor.unguard_terms`, i.e. `re.sub(r'\[([^\]]+)\]', r'\1', s)`,
fuelled: scan left to right; at a `'['` whose next `']'` is at distance at
least two, drop the bracket pair and keep the content, then continue after
it; otherwise copy the character. -/
def unguardGo : Nat → Str → Str
  | 0, s => s
  | _, [] => []
  | fuel + 1, c :: rest =>
    if c = '[' then
      match splitAtRB rest with
      | some p =>
        if p.1.isEmpty then c :: unguardGo fuel rest
        else p.1 ++ unguardGo fuel p.2
      | none => c :: unguardGo fuel rest
    else c :: unguardGo fuel rest

/-- `TermExtractor.unguard_terms` proper. -/
def unguardTerms (s : Str) : Str := unguardGo s.length s

end Inglish

namespace Inglish

/-! ### Tokenisation lemmas -/

theorem pySplitGo_nil : ∀ fuel, pySplitGo fuel [] = [] := by
  intro fuel
  cases fuel <;> rfl

theorem dropWhile_head_false (p : α → Bool) :
    ∀ (l : List α) (c : α) (t : List α), l.dropWhile p = c :: t →
      p c = false := by
  intro l
  induction l with
  | nil => intro c t h; cases h
  | cons a r ih =>
    intro c t h
    by_cases hc : p a = true
    · rw [List.dropWhile_cons_of_pos hc] at h
      exact ih c t h
    · have hc' : p a = false := by
        cases hpc : p a
        · rfl
        · exact absurd hpc hc
      rw [List.dropWhile_cons_of_neg (by simp [hc'])] at h
      cases h
      exact hc'

/-- Tokens produced by the splitter are nonempty and whitespace-free. -/
theorem pySplitGo_tokens :
    ∀ (fuel : Nat) (s : Str), s.length ≤ fuel →
      ∀ w ∈ pySplitGo fuel s, w ≠ [] ∧ ∀ ch ∈ w, pyIsSpace ch = false := by
  intro fuel
  induction fuel with
  | zero =>
    intro s hs w hw
    interval_cases hlen : s.length
    cases s with
    | nil => simp [pySplitGo] at hw
    | cons c r => simp at hlen
  | succ fuel ih =>
    intro s hs w hw
    cases s with
    | nil => simp [pySplitGo] at hw
    | cons c rest =>
      simp only [pySplitGo] at hw
      split at hw
      · exact ih rest (by simpa using Nat.le_of_succ_le_succ hs) w hw
      · rename_i hc
        rcases List.mem_cons.1 hw with hw1 | hw1
        · subst hw1
          refine ⟨by simp, ?_⟩
          intro ch hch
          rcases List.mem_cons.1 hch with h1 | h1
          · subst h1
            cases hpc : pyIsSpace ch
            · rfl
            · exact absurd hpc (by simpa using hc)
          · have := List.mem_takeWhile_imp h1
            simpa using this
        · have hlen2 : (rest.dropWhile (fun d => !pyIsSpace d)).length ≤ fuel := by
            have := List.Sublist.length_le (List.dropWhile_sublist
              (l := rest) (p := fun d => !pyIsSpace d))
            simp at hs
            omega
          exact ih _ hlen2 w hw1

theorem joinSp_singleton (w : Str) : joinSp [w] = w := rfl

theorem joinSp_cons_of_ne (w : Str) (ws : List Str) (h : ws ≠ []) :
    joinSp (w :: ws) = w ++ ' ' :: joinSp ws := by
  cases ws with
  | nil => exact absurd rfl h
  | cons x t => rfl

theorem joinSp_append (l1 l2 : List Str) (h1 : l1 ≠ []) (h2 : l2 ≠ []) :
    joinSp (l1 ++ l2) = joinSp l1 ++ ' ' :: joinSp l2 := by
  induction l1 with
  | nil => exact absurd rfl h1
  | cons w t ih =>
    cases t with
    | nil =>
      rw [List.singleton_append, joinSp_singleton, joinSp_cons_of_ne w l2 h2]
    | cons x r =>
      have ht : x :: r ≠ [] := by simp
      have ht2 : (x :: r) ++ l2 ≠ [] := by simp
      rw [List.cons_append, joinSp_cons_of_ne w _ ht2,
        joinSp_cons_of_ne w _ ht, ih ht]
      simp

/-- Joined split length bound with the leading-whitespace slack needed by
the induction. -/
theorem joinSp_pySplitGo_len :
    ∀ (fuel : Nat) (s : Str), s.length ≤ fuel →
      (joinSp (pySplitGo fuel s)).length ≤ s.length ∧
      ((∃ c rest, s = c :: rest ∧ pyIsSpace c = true) →
        pySplitGo fuel s = [] ∨
        (joinSp (pySplitGo fuel s)).length < s.length) := by
  intro fuel
  induction fuel with
  | zero =>
    intro s hs
    have : s = [] := List.length_eq_zero.1 (Nat.le_zero.1 hs)
    subst this
    constructor
    · simp [pySplitGo, joinSp]
    · rintro ⟨c, rest, h, _⟩
      cases h
  | succ fuel ih =>
    intro s hs
    cases s with
    | nil =>
      constructor
      · simp [pySplitGo, joinSp]
      · rintro ⟨c, rest, h, _⟩
        cases h
    | cons c rest =>
      have hrest : rest.length ≤ fuel := by simp at hs; omega
      simp only [pySplitGo]
      by_cases hc : pyIsSpace c = true
      · rw [if_pos hc]
        have h1 := (ih rest hrest).1
        constructor
        · simp only [List.length_cons]
          omega
        · intro _
          rcases hres : pySplitGo fuel rest with _ | _
          · exact Or.inl rfl
          · refine Or.inr ?_
            rw [hres] at h1
            simp only [List.length_cons]
            omega
      · rw [if_neg hc]
        have hc' : pyIsSpace c = false := by
          cases hpc : pyIsSpace c
          · rfl
          · exact absurd hpc hc
        constructor
        · set tk := rest.takeWhile (fun d => !pyIsSpace d) with htk
          set dr := rest.dropWhile (fun d => !pyIsSpace d) with hdr
          have hdrlen : dr.length ≤ fuel := by
            have h3 := List.Sublist.length_le (List.dropWhile_sublist
              (l := rest) (p := fun d => !pyIsSpace d))
            rw [← hdr] at h3
            omega
          have hsplit : tk.length + dr.length = rest.length := by
            have h3 := List.takeWhile_append_dropWhile
              (p := fun d => !pyIsSpace d) (l := rest)
            have hl := congrArg List.length h3
            simp only [List.length_append] at hl
            rw [← htk, ← hdr] at hl
            omega
          cases hres : pySplitGo fuel dr with
          | nil =>
            rw [joinSp_singleton]
            simp only [List.length_cons]
            omega
          | cons t2 r2 =>
            have hne : pySplitGo fuel dr ≠ [] := by rw [hres]; simp
            have hdrne : dr ≠ [] := by
              intro h
              rw [h, pySplitGo_nil] at hres
              cases hres
            obtain ⟨d, drest, hdr2⟩ := List.exists_cons_of_ne_nil hdrne
            have hdhead : pyIsSpace d = true := by
              have := dropWhile_head_false (fun x => !pyIsSpace x) rest d drest
                (by rw [← hdr, hdr2])
              simpa using this
            have hd2 := (ih dr hdrlen).2 ⟨d, drest, hdr2, hdhead⟩
            rcases hd2 with hd2 | hd2
            · exact absurd hd2 hne
            · rw [joinSp_cons_of_ne _ _ (by simp)]
              rw [hres] at hd2
              simp only [List.length_append, List.length_cons] at *
              omega
        · rintro ⟨c2, rest2, heq, hws⟩
          cases heq
          rw [hws] at hc'
          cases hc'

/-- The single-space join of the tokens of `s` is no longer than `s`:
every separator run in `s` has at least one character. -/
theorem joinSp_pySplit_le (s : Str) :
    (joinSp (pySplit s)).length ≤ s.length :=
  (joinSp_pySplitGo_len s.length s (Nat.le_refl _)).1

end Inglish

namespace Inglish

/-! ### Extraction candidate bounds -/

/-- Every match recorded by the trie walk is the accumulator followed by a
nonempty prefix of the remaining words. -/
theorem compoundWalk_shape :
    ∀ (ws : List Str) (t : Trie) (acc : List Str),
      ∀ m ∈ compoundWalk t ws acc,
        ∃ k, 1 ≤ k ∧ k ≤ ws.length ∧ m = acc ++ ws.take k := by
  intro ws
  induction ws with
  | nil => intro t acc m hm; simp [compoundWalk] at hm
  | cons w rest ih =>
    intro t acc m hm
    simp only [compoundWalk] at hm
    cases hch : t.child (cleanWord w) with
    | none => rw [hch] at hm; simp at hm
    | some c =>
      rw [hch] at hm
      rcases List.mem_append.1 hm with hm1 | hm1
      · split at hm1
        · simp at hm1
          exact ⟨1, Nat.le_refl _, by simp, by simpa using hm1⟩
        · simp at hm1
      · obtain ⟨k, hk1, hk2, hk3⟩ := ih c (acc ++ [w]) m hm1
        refine ⟨k + 1, by omega, ?_, ?_⟩
        · simp only [List.length_cons]
          omega
        · rw [hk3]
          simp [List.take_cons]

/-- `joinSp` of a list of nonempty words is empty iff the list is. -/
theorem joinSp_eq_nil_iff (l : List Str) (hw : ∀ w ∈ l, w ≠ []) :
    joinSp l = [] ↔ l = [] := by
  cases l with
  | nil => simp [joinSp]
  | cons w t =>
    constructor
    · intro h
      cases t with
      | nil =>
        rw [joinSp_singleton] at h
        exact absurd h (hw w (List.mem_cons_self _ _))
      | cons x r =>
        rw [joinSp_cons_of_ne _ _ (by simp)] at h
        have := congrArg List.length h
        simp at this
    · intro h
      cases h

/-- The `wordStart` offset formula, written out. -/
theorem wordStart_eq (words : List Str) (i : Nat)
    (hw : ∀ w ∈ words, w ≠ []) (hi : i < words.length) :
    wordStart words i =
      (joinSp (words.take i)).length + (if i = 0 then 0 else 1) := by
  unfold wordStart
  by_cases hi0 : i = 0
  · subst hi0
    simp [joinSp]
  · have hA_ne : words.take i ≠ [] := by
      intro h
      have h2 := congrArg List.length h
      rw [List.length_take] at h2
      simp only [List.length_nil] at h2
      omega
    have hlen_ne : (joinSp (words.take i)).length ≠ 0 := by
      intro h
      have := (joinSp_eq_nil_iff (words.take i)
        (fun w hw2 => hw w (List.mem_of_mem_take hw2))).1
        (List.length_eq_zero.1 h)
      exact hA_ne this
    simp only [if_neg hi0, if_neg hlen_ne]

/-- Join decomposition around a match of `k ≥ 1` words starting at token
`i`: the join of all words equals join of the first `i` words, a separator
when `i > 0`, the joined match, and a separator plus the joined remainder
when the remainder is nonempty. -/
theorem joinSp_decomp (words : List Str) (i k : Nat)
    (hi : i < words.length) (hk1 : 1 ≤ k) (hk2 : k ≤ words.length - i) :
    joinSp words =
      joinSp (words.take i) ++
      (if i = 0 then [] else [' ']) ++
      joinSp ((words.drop i).take k) ++
      (if (words.drop i).drop k = [] then []
        else ' ' :: joinSp ((words.drop i).drop k)) := by
  have hdrop_ne : words.drop i ≠ [] := by
    intro h
    have h2 := congrArg List.length h
    rw [List.length_drop] at h2
    simp only [List.length_nil] at h2
    omega
  have hM_ne : (words.drop i).take k ≠ [] := by
    intro h
    have h2 := congrArg List.length h
    rw [List.length_take, List.length_drop] at h2
    simp only [List.length_nil] at h2
    omega
  have hD : joinSp (words.drop i) =
      joinSp ((words.drop i).take k) ++
      (if (words.drop i).drop k = [] then []
        else ' ' :: joinSp ((words.drop i).drop k)) := by
    cases hR : (words.drop i).drop k with
    | nil =>
      rw [if_pos rfl]
      conv =>
        lhs
        rw [(List.take_append_drop k (words.drop i)).symm, hR]
      simp
    | cons x r =>
      rw [if_neg (by simp)]
      conv =>
        lhs
        rw [(List.take_append_drop k (words.drop i)).symm, hR]
      rw [joinSp_append _ _ hM_ne (by simp)]
  by_cases hi0 : i = 0
  · subst hi0
    rw [if_pos rfl]
    simp only [List.take_zero, List.drop_zero] at hD ⊢
    simpa [joinSp] using hD
  · rw [if_neg hi0]
    have hA_ne : words.take i ≠ [] := by
      intro h
      have h2 := congrArg List.length h
      rw [List.length_take] at h2
      simp only [List.length_nil] at h2
      omega
    conv =>
      lhs
      rw [(List.take_append_drop i words).symm]
    rw [joinSp_append _ _ hA_ne hdrop_ne, hD]
    simp

end Inglish

namespace Inglish

/-- Bounds and slice identity for a span covering tokens `i..i+k`. -/
theorem span_at_bounds (text : Str) (i k : Nat)
    (hi : i < (pySplit text).length) (hk1 : 1 ≤ k)
    (hk2 : k ≤ (pySplit text).length - i) :
    0 < (joinSp (((pySplit text).drop i).take k)).length ∧
    wordStart (pySplit text) i +
      (joinSp (((pySplit text).drop i).take k)).length ≤ text.length ∧
    (text = joinSp (pySplit text) →
      (text.drop (wordStart (pySplit text) i)).take
        (joinSp (((pySplit text).drop i).take k)).length =
      joinSp (((pySplit text).drop i).take k)) := by
  set words := pySplit text with hwords
  have hw : ∀ w ∈ words, w ≠ [] := by
    intro w hw2
    exact (pySplitGo_tokens text.length text (Nat.le_refl _) w hw2).1
  set m := joinSp ((words.drop i).take k) with hm
  have hM_ne : (words.drop i).take k ≠ [] := by
    intro h
    have h2 := congrArg List.length h
    rw [List.length_take, List.length_drop] at h2
    simp only [List.length_nil] at h2
    omega
  have hm_ne : m ≠ [] := by
    rw [hm]
    intro h
    exact hM_ne ((joinSp_eq_nil_iff _ (fun w hw2 =>
      hw w (List.mem_of_mem_drop (List.mem_of_mem_take hw2)))).1 h)
  have hm_pos : 0 < m.length := by
    cases hmm : m with
    | nil => exact absurd hmm hm_ne
    | cons a b => simp [hmm]
  have hdecomp := joinSp_decomp words i k hi hk1 hk2
  have hws := wordStart_eq words i hw hi
  have hsep : (if i = 0 then ([] : Str) else [' ']).length =
      (if i = 0 then 0 else 1) := by
    by_cases h : i = 0 <;> simp [h]
  have hstart : wordStart words i =
      (joinSp (words.take i) ++ (if i = 0 then ([] : Str) else [' '])).length := by
    rw [hws, List.length_append, hsep]
  refine ⟨hm_pos, ?_, ?_⟩
  · have hlen := congrArg List.length hdecomp
    simp only [List.length_append] at hlen
    rw [← hm, hsep] at hlen
    have hle := joinSp_pySplit_le text
    rw [← hwords] at hle
    rw [hws]
    omega
  · intro hcanon
    have hcanon2 : text = joinSp words := hcanon
    have htext : text =
        (joinSp (words.take i) ++ (if i = 0 then ([] : Str) else [' '])) ++
        (m ++ (if (words.drop i).drop k = [] then ([] : Str)
          else ' ' :: joinSp ((words.drop i).drop k))) := by
      rw [hcanon2, hdecomp, ← hm]
      simp [List.append_assoc]
    rw [htext, hstart, List.drop_left, List.take_left]

end Inglish

namespace Inglish

/-- The resolver output is a subset of its input (standalone helper). -/
theorem resolve_subset (spans : List Span) :
    ∀ x ∈ resolveOverlappingSpans spans, x ∈ spans := by
  intro x hx
  match spans, hx with
  | s :: rest, hx =>
    simp only [resolveOverlappingSpans] at hx
    have hx2 := (stableSort_perm startLe (acceptSpans []
      (stableSort spanKeyLe (s :: rest)))).mem_iff.1 hx
    rcases acceptSpans_subset _ _ hx2 with h | h
    · exact absurd h (List.not_mem_nil x)
    · exact (stableSort_perm spanKeyLe (s :: rest)).mem_iff.1 h

/-- The resolver output is pairwise non-overlapping (standalone helper). -/
theorem resolve_pairwise (spans : List Span) :
    (resolveOverlappingSpans spans).Pairwise noOverlap := by
  match spans with
  | [] => simp [resolveOverlappingSpans]
  | s :: rest =>
    simp only [resolveOverlappingSpans]
    have hperm := stableSort_perm startLe (acceptSpans []
      (stableSort spanKeyLe (s :: rest)))
    refine (hperm.pairwise_iff (fun h => noOverlap_symm h)).2 ?_
    exact acceptSpans_pairwise _ [] (List.Pairwise.nil)

/-- Shape of a compound-scan candidate. -/
theorem extractCompound_shape (tr : Trie) (text : Str) :
    ∀ x ∈ extractCompoundTerms tr text,
      ∃ i k, i < (pySplit text).length ∧ 1 ≤ k ∧
        k ≤ (pySplit text).length - i ∧
        x.1 = joinSp (((pySplit text).drop i).take k) ∧
        x.2.1 = wordStart (pySplit text) i ∧
        x.2.2 = x.2.1 + x.1.length := by
  intro x hx
  simp only [extractCompoundTerms, List.mem_flatMap, List.mem_range,
    List.mem_map] at hx
  obtain ⟨i, hi, mws, hmws, hxeq⟩ := hx
  obtain ⟨k, hk1, hk2, hk3⟩ := compoundWalk_shape _ _ _ mws hmws
  rw [List.nil_append] at hk3
  refine ⟨i, k, hi, hk1, ?_, ?_, ?_, ?_⟩
  · rw [List.length_drop] at hk2
    exact hk2
  · rw [← hxeq, hk3]
  · rw [← hxeq]
  · rw [← hxeq, hk3]

/-- Shape of a single-term candidate. -/
theorem extractSingle_shape (single : List Str) (text : Str) :
    ∀ x ∈ extractSingleTerms single text,
      ∃ i, i < (pySplit text).length ∧
        x.1 = joinSp (((pySplit text).drop i).take 1) ∧
        x.2.1 = wordStart (pySplit text) i ∧
        x.2.2 = x.2.1 + x.1.length := by
  intro x hx
  simp only [extractSingleTerms, List.mem_filterMap] at hx
  obtain ⟨p, hp, hxeq⟩ := hx
  split at hxeq
  · have hmem := List.mem_enum hp
    obtain ⟨hi, hval⟩ := hmem
    cases hxeq
    refine ⟨p.1, hi, ?_, rfl, rfl⟩
    rw [hval, List.drop_eq_getElem_cons hi]
    rfl
  · cases hxeq

end Inglish

namespace Inglish

/-- Full bounds/slice specification of `extract_terms` output tuples. -/
theorem extractTerms_spec (cfg : ExtractorCfg) (text : Str)
    (hpat : ∀ x ∈ cfg.patternScan text,
      x.2.1 < x.2.2 ∧ x.2.2 ≤ text.length ∧
      (text.drop x.2.1).take (x.2.2 - x.2.1) = x.1) :
    ∀ x ∈ extractTerms cfg text,
      x.2.2.1 < x.2.2.2 ∧ x.2.2.2 ≤ text.length ∧
      (text = joinSp (pySplit text) →
        (text.drop x.2.2.1).take (x.2.2.2 - x.2.2.1) = x.1) := by
  intro x hx
  simp only [extractTerms, List.mem_map] at hx
  obtain ⟨y, hy, hyeq⟩ := hx
  have hraw := resolve_subset _ y hy
  have hx1 : x.1 = y.1 := by rw [← hyeq]
  have hx2 : x.2.2.1 = y.2.1 := by rw [← hyeq]
  have hx3 : x.2.2.2 = y.2.2 := by rw [← hyeq]
  rw [hx1, hx2, hx3]
  rcases List.mem_append.1 hraw with hmem | hmem
  · rcases List.mem_append.1 hmem with hmem2 | hmem2
    · obtain ⟨i, k, hi, hk1, hk2, hsh1, hsh2, hsh3⟩ :=
        extractCompound_shape cfg.trie text y hmem2
      obtain ⟨hb1, hb2, hb3⟩ := span_at_bounds text i k hi hk1 hk2
      refine ⟨?_, ?_, ?_⟩
      · rw [hsh3, hsh1]
        omega
      · rw [hsh3, hsh2, hsh1]
        exact hb2
      · intro hcanon
        rw [hsh3, hsh2, hsh1]
        have : wordStart (pySplit text) i +
            (joinSp (((pySplit text).drop i).take k)).length -
            wordStart (pySplit text) i =
            (joinSp (((pySplit text).drop i).take k)).length := by omega
        rw [this]
        exact hb3 hcanon
    · obtain ⟨i, hi, hsh1, hsh2, hsh3⟩ :=
        extractSingle_shape cfg.singleTerms text y hmem2
      have hk2 : 1 ≤ (pySplit text).length - i := by omega
      obtain ⟨hb1, hb2, hb3⟩ := span_at_bounds text i 1 hi (Nat.le_refl _) hk2
      refine ⟨?_, ?_, ?_⟩
      · rw [hsh3, hsh1]
        omega
      · rw [hsh3, hsh2, hsh1]
        exact hb2
      · intro hcanon
        rw [hsh3, hsh2, hsh1]
        have : wordStart (pySplit text) i +
            (joinSp (((pySplit text).drop i).take 1)).length -
            wordStart (pySplit text) i =
            (joinSp (((pySplit text).drop i).take 1)).length := by omega
        rw [this]
        exact hb3 hcanon
  · obtain ⟨h1, h2, h3⟩ := hpat y hmem
    exact ⟨h1, h2, fun _ => h3⟩

/-- C9 (amended): provided every pattern-scan candidate is a nonempty
in-bounds `re.finditer` match, every tuple `(term, deva, start, end)`
returned by `extract_terms` satisfies `0 ≤ start < end ≤ len(text)`; and
when the text is in canonical whitespace form (it equals the single-space
join of its tokens, i.e. no leading/trailing whitespace and single-space
separators), the slice `text[start:end]` equals the term text.  On the
original claim, the slice identity fails for non-canonical whitespace. -/
theorem claim_C9 (cfg : ExtractorCfg) (text : Str)
    (hpat : ∀ x ∈ cfg.patternScan text,
      x.2.1 < x.2.2 ∧ x.2.2 ≤ text.length ∧
      (text.drop x.2.1).take (x.2.2 - x.2.1) = x.1) :
    ∀ x ∈ extractTerms cfg text,
      x.2.2.1 < x.2.2.2 ∧ x.2.2.2 ≤ text.length ∧
      (text = joinSp (pySplit text) →
        (text.drop x.2.2.1).take (x.2.2.2 - x.2.2.1) = x.1) :=
  extractTerms_spec cfg text hpat

/-- An extractor for a glossary whose only (compound) term is "a b", with
no patterns: the concrete configuration used by the C9 counterexample and
witness. -/
def egTrieCfg : ExtractorCfg :=
  { singleTerms := []
    trie := buildTrie [str "a b"]
    devaMap := []
    patternScan := fun _ => [] }

/-- C9 counterexample: on the input `" a b"` (leading space), the compound
scan computes offsets in single-space-joined coordinates, so the returned
tuple is `("a b", "", 0, 3)` whose slice `text[0:3] = " a "` is not the
term text: the slice identity of the claim fails. -/
theorem counterexample_C9 :
    extractTerms egTrieCfg (str " a b") = [(str "a b", [], 0, 3)] ∧
    ((str " a b").drop 0).take (3 - 0) ≠ str "a b" := by
  constructor
  · decide
  · decide

/-- C9 witness: on the canonical input `"a b"` the claim instance holds
with the tuple `("a b", "", 0, 3)`. -/
theorem witness_C9 :
    (0 : Nat) < 3 ∧ 3 ≤ (str "a b").length ∧
    (str "a b" = joinSp (pySplit (str "a b")) →
      ((str "a b").drop 0).take (3 - 0) = str "a b") := by
  have h := claim_C9 egTrieCfg (str "a b")
    (by intro x hx; cases hx)
    (str "a b", [], 0, 3) (by decide)
  exact h

end Inglish

namespace Inglish

/-! ### Guard/unguard round trip -/

/-- Balanced bracket shape produced by guarding: a sequence of ordinary
characters (not `'['`) and complete nonempty bracket groups. -/
inductive Bal : Str → Prop
  | nil : Bal []
  | chr {c : Char} {r : Str} : c ≠ '[' → Bal r → Bal (c :: r)
  | grp {cnt r : Str} : cnt ≠ [] → ']' ∉ cnt → Bal r →
      Bal ('[' :: (cnt ++ ']' :: r))

theorem Bal_append {a b : Str} (ha : Bal a) (hb : Bal b) : Bal (a ++ b) := by
  induction ha with
  | nil => exact hb
  | chr hc _ ih => exact Bal.chr hc ih
  | grp hcnt hrb _ ih =>
    rw [List.cons_append, List.append_assoc, List.cons_append]
    exact Bal.grp hcnt hrb ih

theorem Bal_of_no_lbracket {s : Str} (h : '[' ∉ s) : Bal s := by
  induction s with
  | nil => exact Bal.nil
  | cons c r ih =>
    refine Bal.chr ?_ (ih fun hm => h (List.mem_cons_of_mem _ hm))
    intro hc
    exact h (hc ▸ List.mem_cons_self _ _)

theorem splitAtRB_append {cnt r : Str} (h : ']' ∉ cnt) :
    splitAtRB (cnt ++ ']' :: r) = some (cnt, r) := by
  induction cnt with
  | nil => simp [splitAtRB]
  | cons c t ih =>
    have hc : c ≠ ']' := fun hc => h (hc ▸ List.mem_cons_self _ _)
    rw [List.cons_append]
    simp only [splitAtRB, if_neg hc]
    rw [ih fun hm => h (List.mem_cons_of_mem _ hm)]
    rfl

theorem unguardGo_nil : ∀ fuel, unguardGo fuel [] = [] := by
  intro fuel
  cases fuel <;> rfl

/-- The fuel value does not matter once it is at least the length. -/
theorem unguardGo_fuel :
    ∀ (f1 : Nat) (s : Str) (f2 : Nat), s.length ≤ f1 → s.length ≤ f2 →
      unguardGo f1 s = unguardGo f2 s := by
  intro f1
  induction f1 with
  | zero =>
    intro s f2 h1 _
    have : s = [] := List.length_eq_zero.1 (Nat.le_zero.1 h1)
    subst this
    rw [unguardGo_nil, unguardGo_nil]
  | succ f1 ih =>
    intro s f2 h1 h2
    cases s with
    | nil => rw [unguardGo_nil, unguardGo_nil]
    | cons c rest =>
      cases f2 with
      | zero => simp at h2
      | succ f2 =>
        simp only [List.length_cons] at h1 h2
        have hr1 : rest.length ≤ f1 := by omega
        have hr2 : rest.length ≤ f2 := by omega
        simp only [unguardGo]
        by_cases hc : c = '['
        · rw [if_pos hc, if_pos hc]
          cases hsp : splitAtRB rest with
          | none => rw [ih rest f2 hr1 hr2]
          | some p =>
            dsimp only
            by_cases hp : p.1.isEmpty
            · rw [if_pos hp, if_pos hp, ih rest f2 hr1 hr2]
            · rw [if_neg hp, if_neg hp]
              have hspec := (splitAtRB_noRB_sound rest p.1 p.2 hsp).1
              have hlen : p.2.length ≤ rest.length := by
                rw [hspec]
                simp
                omega
              rw [ih p.2 f2 (hlen.trans hr1) (hlen.trans hr2)]
        · rw [if_neg hc, if_neg hc, ih rest f2 hr1 hr2]

/-- Unguarding a bracket-free string is the identity. -/
theorem unguardGo_no_lbracket :
    ∀ (fuel : Nat) (s : Str), s.length ≤ fuel → '[' ∉ s →
      unguardGo fuel s = s := by
  intro fuel
  induction fuel with
  | zero =>
    intro s hlen _
    have hs : s = [] := List.length_eq_zero.1 (Nat.le_zero.1 hlen)
    subst hs
    rfl
  | succ fuel ih =>
    intro s hlen hnb
    cases s with
    | nil => rfl
    | cons c rest =>
      have hc : c ≠ '[' := fun h => hnb (h ▸ List.mem_cons_self _ _)
      simp only [unguardGo, if_neg hc]
      rw [ih rest (by simp at hlen; omega)
        (fun h => hnb (List.mem_cons_of_mem _ h))]

theorem unguard_no_lbracket {s : Str} (h : '[' ∉ s) : unguardTerms s = s :=
  unguardGo_no_lbracket s.length s (Nat.le_refl _) h

/-- Unguarding passes an ordinary head character through. -/
theorem unguard_cons_ne {c : Char} (hc : c ≠ '[') (s : Str) :
    unguardTerms (c :: s) = c :: unguardTerms s := by
  unfold unguardTerms
  simp only [List.length_cons, unguardGo, if_neg hc]

/-- Unguarding one complete bracket group keeps its content. -/
theorem unguard_grp {cnt r : Str} (hne : cnt ≠ []) (hnb : ']' ∉ cnt) :
    unguardTerms ('[' :: (cnt ++ ']' :: r)) = cnt ++ unguardTerms r := by
  unfold unguardTerms
  simp only [unguardGo, List.length_cons, if_pos rfl, if_true]
  rw [splitAtRB_append hnb]
  have hp : ¬ (List.isEmpty cnt = true) := fun h => hne (List.isEmpty_iff.1 h)
  dsimp only
  rw [if_neg hp]
  congr 1
  apply unguardGo_fuel
  · simp only [List.length_append, List.length_cons]
    omega
  · exact Nat.le_refl _

/-- Unguarding distributes over a balanced left part. -/
theorem unguard_append {X : Str} (hX : Bal X) :
    ∀ Z : Str, unguardTerms (X ++ Z) = unguardTerms X ++ unguardTerms Z := by
  induction hX with
  | nil => intro Z; simp [unguardTerms, unguardGo_nil]
  | @chr c r hc _ ih =>
    intro Z
    rw [List.cons_append]
    rw [unguard_cons_ne hc, unguard_cons_ne hc, ih Z]
    rfl
  | @grp cnt r hcnt hrb _ ih =>
    intro Z
    have hshape : ('[' :: (cnt ++ ']' :: r)) ++ Z =
        '[' :: (cnt ++ ']' :: (r ++ Z)) := by
      simp
    rw [hshape, unguard_grp hcnt hrb, unguard_grp hcnt hrb, ih Z]
    rw [List.append_assoc]

end Inglish

namespace Inglish

/-- One guarding step on a long-enough result grows it by exactly two. -/
theorem guardStep_length (text a : Str) (t : XTerm)
    (h1 : t.2.2.1 < t.2.2.2) (h2 : t.2.2.2 ≤ a.length)
    (h3 : t.2.2.2 ≤ text.length) :
    (guardStep text a t).length = a.length + 2 := by
  unfold guardStep
  simp only [List.length_append, List.length_cons, List.length_take,
    List.length_drop]
  omega

/-- A guarding step whose span ends inside `a` leaves an appended tail
untouched. -/
theorem guardStep_append (text a b : Str) (t : XTerm)
    (h1 : t.2.2.1 < t.2.2.2) (h2 : t.2.2.2 ≤ a.length) :
    guardStep text (a ++ b) t = guardStep text a t ++ b := by
  have hs : t.2.2.1 ≤ a.length := le_trans (Nat.le_of_lt h1) h2
  unfold guardStep
  rw [List.take_append_of_le_length hs, List.drop_append_of_le_length h2]
  simp [List.append_assoc]

/-- Folding the guard step over `a ++ b` guards inside `a` and carries `b`
along, when every remaining span ends within `a`. -/
theorem foldl_guardStep_append :
    ∀ (ts : List XTerm) (text a b : Str),
      (∀ t ∈ ts, t.2.2.1 < t.2.2.2 ∧ t.2.2.2 ≤ a.length ∧
        t.2.2.2 ≤ text.length) →
      ts.foldl (guardStep text) (a ++ b) =
        ts.foldl (guardStep text) a ++ b := by
  intro ts
  induction ts with
  | nil => intro text a b _; rfl
  | cons t rest ih =>
    intro text a b hb
    obtain ⟨h1, h2, h3⟩ := hb t (List.mem_cons_self _ _)
    simp only [List.foldl_cons]
    rw [guardStep_append text a b t h1 h2]
    apply ih
    intro u hu
    obtain ⟨g1, g2, g3⟩ := hb u (List.mem_cons_of_mem _ hu)
    refine ⟨g1, ?_, g3⟩
    rw [guardStep_length text a t h1 h2 h3]
    omega

/-- A guard step whose span ends before `s0` reads only `text.take s0`. -/
theorem guardStep_take (text a : Str) (s0 : Nat) (t : XTerm)
    (h : t.2.2.2 ≤ s0) :
    guardStep text a t = guardStep (text.take s0) a t := by
  unfold guardStep
  rw [List.drop_take, List.take_take]
  have hmin : min (t.2.2.2 - t.2.2.1) (s0 - t.2.2.1) = t.2.2.2 - t.2.2.1 := by
    omega
  rw [hmin]

theorem foldl_guardStep_take :
    ∀ (ts : List XTerm) (text a : Str) (s0 : Nat),
      (∀ t ∈ ts, t.2.2.2 ≤ s0) →
      ts.foldl (guardStep text) a =
        ts.foldl (guardStep (text.take s0)) a := by
  intro ts
  induction ts with
  | nil => intro text a s0 _; rfl
  | cons t rest ih =>
    intro text a s0 hb
    simp only [List.foldl_cons]
    rw [guardStep_take text a s0 t (hb t (List.mem_cons_self _ _))]
    exact ih _ _ _ (fun u hu => hb u (List.mem_cons_of_mem _ hu))

/-- Folding the guard step over spans that are in descending start order,
pairwise separated, nonempty and in bounds, over bracket-free text, yields
a balanced string that unguards back to the text. -/
theorem guardFold_main :
    ∀ (ts : List XTerm) (text : Str),
      '[' ∉ text → ']' ∉ text →
      ts.Pairwise (fun a b => b.2.2.2 ≤ a.2.2.1) →
      (∀ t ∈ ts, t.2.2.1 < t.2.2.2 ∧ t.2.2.2 ≤ text.length) →
      Bal (ts.foldl (guardStep text) text) ∧
      unguardTerms (ts.foldl (guardStep text) text) = text := by
  intro ts
  induction ts with
  | nil =>
    intro text hlb hrb _ _
    exact ⟨Bal_of_no_lbracket hlb, unguard_no_lbracket hlb⟩
  | cons t rest ih =>
    intro text hlb hrb hpw hbnd
    obtain ⟨h1, h2⟩ := hbnd t (List.mem_cons_self _ _)
    obtain ⟨hhead, htail⟩ := List.pairwise_cons.1 hpw
    simp only [List.foldl_cons]
    have hAlen : (text.take t.2.2.1).length = t.2.2.1 := by
      rw [List.length_take]
      omega
    have hstep : guardStep text text t =
        text.take t.2.2.1 ++
          ('[' :: ((text.drop t.2.2.1).take (t.2.2.2 - t.2.2.1) ++
            ']' :: text.drop t.2.2.2)) := rfl
    rw [hstep]
    have hfold : rest.foldl (guardStep text)
        (text.take t.2.2.1 ++
          ('[' :: ((text.drop t.2.2.1).take (t.2.2.2 - t.2.2.1) ++
            ']' :: text.drop t.2.2.2))) =
        rest.foldl (guardStep text) (text.take t.2.2.1) ++
          ('[' :: ((text.drop t.2.2.1).take (t.2.2.2 - t.2.2.1) ++
            ']' :: text.drop t.2.2.2)) := by
      apply foldl_guardStep_append
      intro u hu
      obtain ⟨g1, g2⟩ := hbnd u (List.mem_cons_of_mem _ hu)
      refine ⟨g1, ?_, g2⟩
      rw [hAlen]
      exact hhead u hu
    rw [hfold]
    rw [foldl_guardStep_take rest text (text.take t.2.2.1) t.2.2.1
      (fun u hu => hhead u hu)]
    have hIH := ih (text.take t.2.2.1)
      (fun h => hlb (List.mem_of_mem_take h))
      (fun h => hrb (List.mem_of_mem_take h))
      htail
      (fun u hu => by
        obtain ⟨g1, g2⟩ := hbnd u (List.mem_cons_of_mem _ hu)
        exact ⟨g1, by rw [hAlen]; exact hhead u hu⟩)
    obtain ⟨hbalF, hunF⟩ := hIH
    have hslice_ne : (text.drop t.2.2.1).take (t.2.2.2 - t.2.2.1) ≠ [] := by
      intro h
      have := congrArg List.length h
      simp only [List.length_take, List.length_drop, List.length_nil] at this
      omega
    have hslice_rb : ']' ∉ (text.drop t.2.2.1).take (t.2.2.2 - t.2.2.1) :=
      fun h => hrb (List.mem_of_mem_drop (List.mem_of_mem_take h))
    have hbalB : Bal ('[' :: ((text.drop t.2.2.1).take (t.2.2.2 - t.2.2.1) ++
        ']' :: text.drop t.2.2.2)) :=
      Bal.grp hslice_ne hslice_rb
        (Bal_of_no_lbracket (fun h => hlb (List.mem_of_mem_drop h)))
    refine ⟨Bal_append hbalF hbalB, ?_⟩
    rw [unguard_append hbalF, hunF, unguard_grp hslice_ne hslice_rb,
      unguard_no_lbracket (fun h => hlb (List.mem_of_mem_drop h))]
    have htk : text.take t.2.2.1 ++ (text.drop t.2.2.1).take
        (t.2.2.2 - t.2.2.1) = text.take t.2.2.2 := by
      have := List.take_add text t.2.2.1 (t.2.2.2 - t.2.2.1)
      have heq : t.2.2.1 + (t.2.2.2 - t.2.2.1) = t.2.2.2 := by omega
      rw [heq] at this
      exact this.symm
    rw [← List.append_assoc, htk, List.take_append_drop]

end Inglish

namespace Inglish

theorem termStartGe_trans (a b c : XTerm) (hab : termStartGe a b = true)
    (hbc : termStartGe b c = true) : termStartGe a c = true := by
  simp only [termStartGe, decide_eq_true_eq] at *
  omega

theorem termStartGe_total (a b : XTerm) :
    (termStartGe a b || termStartGe b a) = true := by
  simp only [termStartGe, Bool.or_eq_true, decide_eq_true_eq]
  omega

/-- Bounds of `extract_terms` tuples from bounds of the pattern scan. -/
theorem extractTerms_bounds (cfg : ExtractorCfg) (text : Str)
    (hpat : ∀ x ∈ cfg.patternScan text,
      x.2.1 < x.2.2 ∧ x.2.2 ≤ text.length) :
    ∀ x ∈ extractTerms cfg text,
      x.2.2.1 < x.2.2.2 ∧ x.2.2.2 ≤ text.length := by
  intro x hx
  simp only [extractTerms, List.mem_map] at hx
  obtain ⟨y, hy, hyeq⟩ := hx
  have hraw := resolve_subset _ y hy
  have hx2 : x.2.2.1 = y.2.1 := by rw [← hyeq]
  have hx3 : x.2.2.2 = y.2.2 := by rw [← hyeq]
  rw [hx2, hx3]
  rcases List.mem_append.1 hraw with hmem | hmem
  · rcases List.mem_append.1 hmem with hmem2 | hmem2
    · obtain ⟨i, k, hi, hk1, hk2, hsh1, hsh2, hsh3⟩ :=
        extractCompound_shape cfg.trie text y hmem2
      obtain ⟨hb1, hb2, _⟩ := span_at_bounds text i k hi hk1 hk2
      constructor
      · rw [hsh3, hsh2, hsh1]
        omega
      · rw [hsh3, hsh2, hsh1]
        exact hb2
    · obtain ⟨i, hi, hsh1, hsh2, hsh3⟩ :=
        extractSingle_shape cfg.singleTerms text y hmem2
      have hk2 : 1 ≤ (pySplit text).length - i := by omega
      obtain ⟨hb1, hb2, _⟩ := span_at_bounds text i 1 hi (Nat.le_refl _) hk2
      constructor
      · rw [hsh3, hsh2, hsh1]
        omega
      · rw [hsh3, hsh2, hsh1]
        exact hb2
  · exact hpat y hmem

/-- `extract_terms` output tuples carry pairwise non-overlapping spans. -/
theorem extractTerms_sep (cfg : ExtractorCfg) (text : Str) :
    (extractTerms cfg text).Pairwise (fun a b =>
      calculateOverlap (a.2.2.1, a.2.2.2) (b.2.2.1, b.2.2.2) = false) := by
  unfold extractTerms
  rw [List.pairwise_map]
  exact (resolve_pairwise _).imp (fun h => h)

theorem guardTerms_eq (text : Str) (terms : List XTerm) (h : terms ≠ []) :
    guardTerms text terms =
      (stableSort termStartGe terms).foldl (guardStep text) text := by
  cases terms with
  | nil => exact absurd rfl h
  | cons a l => rfl

/-- C2 (amended): for text with no literal `[` or `]`, provided the
pattern-scan candidates are nonempty in-bounds matches (as `re.finditer`
matches of a pattern with no empty match are), unguarding the guarded text
restores it exactly; and `guard_terms` is the identity on an empty term
list.  On the original claim, a pattern admitting zero-width matches
breaks the round trip. -/
theorem claim_C2 (cfg : ExtractorCfg) (text : Str)
    (hlb : '[' ∉ text) (hrb : ']' ∉ text)
    (hpat : ∀ x ∈ cfg.patternScan text,
      x.2.1 < x.2.2 ∧ x.2.2 ≤ text.length) :
    unguardTerms (guardTerms text (extractTerms cfg text)) = text ∧
    guardTerms text [] = text := by
  refine ⟨?_, rfl⟩
  have hbounds := extractTerms_bounds cfg text hpat
  by_cases hL : extractTerms cfg text = []
  · rw [hL]
    exact unguard_no_lbracket hlb
  · rw [guardTerms_eq text _ hL]
    have hperm := stableSort_perm termStartGe (extractTerms cfg text)
    have hss_no : (stableSort termStartGe (extractTerms cfg text)).Pairwise
        (fun a b =>
          calculateOverlap (a.2.2.1, a.2.2.2) (b.2.2.1, b.2.2.2) = false) := by
      refine (hperm.pairwise_iff ?_).2 (extractTerms_sep cfg text)
      intro x y h
      rw [calculateOverlap_comm]
      exact h
    have hss_ge := stableSort_pairwise termStartGe termStartGe_trans
      termStartGe_total (extractTerms cfg text)
    have hbss : ∀ u ∈ stableSort termStartGe (extractTerms cfg text),
        u.2.2.1 < u.2.2.2 ∧ u.2.2.2 ≤ text.length :=
      fun u hu => hbounds u (hperm.mem_iff.1 hu)
    have hsep : (stableSort termStartGe (extractTerms cfg text)).Pairwise
        (fun a b => b.2.2.2 ≤ a.2.2.1) := by
      refine List.Pairwise.imp_of_mem ?_ (hss_ge.and hss_no)
      intro a b ha hb hab
      obtain ⟨hge, hno⟩ := hab
      obtain ⟨ha1, _⟩ := hbss a ha
      simp only [termStartGe, decide_eq_true_eq] at hge
      simp only [calculateOverlap, decide_eq_false_iff_not, not_not] at hno
      rcases hno with h | h
      · omega
      · exact h
    exact (guardFold_main _ text hlb hrb hsep hbss).2

/-- The extractor configuration of the C2 counterexample: a pattern scan
whose regex admits zero-width matches (as `re.finditer` on a pattern such
as `x*` yields), returning empty spans at offsets 0, 1, 2. -/
def egEmptyPatCfg : ExtractorCfg :=
  { singleTerms := []
    trie := buildTrie []
    devaMap := []
    patternScan := fun _ => [([], 0, 0), ([], 1, 1), ([], 2, 2)] }

/-- C2 counterexample: with a pattern scan yielding zero-width matches on
the bracket-free input `"ab"`, guarding inserts `[]` markers that unguard
(which requires nonempty bracket content) cannot remove: the round trip
returns `"[]a[]b[]"`, not `"ab"`. -/
theorem counterexample_C2 :
    '[' ∉ str "ab" ∧ ']' ∉ str "ab" ∧
    guardTerms (str "ab") (extractTerms egEmptyPatCfg (str "ab")) =
      str "[]a[]b[]" ∧
    unguardTerms (guardTerms (str "ab")
      (extractTerms egEmptyPatCfg (str "ab"))) ≠ str "ab" := by
  refine ⟨by decide, by decide, by decide, by decide⟩

/-- An extractor over the single glossary term "a": the configuration of
the C2 witness. -/
def egC2Cfg : ExtractorCfg :=
  { singleTerms := [str "a"]
    trie := buildTrie []
    devaMap := []
    patternScan := fun _ => [] }

/-- C2 witness: on the bracket-free input `"a b"` with glossary term "a"
the guarded text `"[a] b"` unguards back to `"a b"`. -/
theorem witness_C2 :
    '[' ∉ str "a b" ∧ ']' ∉ str "a b" ∧
    unguardTerms (guardTerms (str "a b")
      (extractTerms egC2Cfg (str "a b"))) = str "a b" ∧
    guardTerms (str "a b") [] = str "a b" := by
  refine ⟨by decide, by decide, ?_⟩
  exact claim_C2 egC2Cfg (str "a b") (by decide) (by decide)
    (fun x hx => absurd hx (List.not_mem_nil x))

end Inglish

namespace Inglish

/-! ### Script converter: shared machinery -/

/-- Decimal digits of a natural number (`str(n)` in Python). -/
def natDigitsGo : Nat → Nat → Str
  | 0, _ => []
  | fuel + 1, n =>
    if n < 10 then [Char.ofNat (48 + n)]
    else natDigitsGo fuel (n / 10) ++ [Char.ofNat (48 + n % 10)]

def natRepr (n : Nat) : Str := natDigitsGo (n + 1) n

/-- The sentinel key `"\x02" + str(n) + "\x03"`. -/
def sentinel (n : Nat) : Str := '\x02' :: natRepr n ++ ['\x03']

/-- `a.startswith(b)` on the model type. -/
def strStarts : Str → Str → Bool
  | [], _ => true
  | _ :: _, [] => false
  | a :: as, b :: bs => a == b && strStarts as bs

/-- Python `str.replace(pat, rep)` for a nonempty pattern: replace all
non-overlapping occurrences left to right. -/
def replaceAllGo (pat rep : Str) : Nat → Str → Str
  | 0, s => s
  | fuel + 1, s =>
    match s with
    | [] => []
    | c :: rest =>
      if !pat.isEmpty && strStarts pat (c :: rest) then
        rep ++ replaceAllGo pat rep fuel ((c :: rest).drop pat.length)
      else
        c :: replaceAllGo pat rep fuel rest

def replaceAll (s pat rep : Str) : Str := replaceAllGo pat rep s.length s

/-- Case-insensitive literal match of `term` at the head of `s`
(`re.IGNORECASE` over a `re.escape`d term). -/
def matchFold (term s : Str) : Bool :=
  decide (term.length ≤ s.length) &&
    (lowerStr (s.take term.length) == lowerStr term)

/-- Character class of the negative lookbehind `(?<![^\s\x02\x03])`: the
match position must be preceded by whitespace or a sentinel delimiter (or
be at the start of the string). -/
def lbChar (c : Char) : Bool := pyIsSpace c || c == '\x02' || c == '\x03'

/-- Lookahead of the stash pattern `(?![^\s\x02\x03.,!?;:])`: end of
string, whitespace, a sentinel delimiter, or sentence punctuation. -/
def stashLA : Str → Bool
  | [] => true
  | d :: _ => pyIsSpace d || d == '\x02' || d == '\x03' || d == '.' ||
      d == ',' || d == '!' || d == '?' || d == ';' || d == ':'

/-- Lookahead of the word-map pattern `(?=[.,!?;:\s]|$|\x02)`. -/
def wordLA : Str → Bool
  | [] => true
  | d :: _ => d == '.' || d == ',' || d == '!' || d == '?' || d == ';' ||
      d == ':' || pyIsSpace d || d == '\x02'

/-- Lookbehind test at a scan position: start of string, or the previous
original character is whitespace or a sentinel delimiter. -/
def lbOK : Option Char → Bool
  | none => true
  | some p => lbChar p

/-- The generic word-boundary `pattern.sub` scanner shared by pass 1 and
the reference pass 2: scan left to right; at each position whose original
predecessor satisfies the lookbehind, try the case-insensitive literal
`term` followed by the lookahead `la`; on a match emit `rep n`, record the
match counter, and continue after the matched region (the lookbehind of
later positions inspects the original string, so `prev` carries the last
original character of the region).  `rep` is the sentinel minter for pass
1 and a constant Devanagari string for pass 2. -/
def subGo (term : Str) (la : Str → Bool) (rep : Nat → Str) :
    Nat → Option Char → Str → Nat → Str × List Nat × Nat
  | 0, _, s, n => (s, [], n)
  | fuel + 1, prev, s, n =>
    match s with
    | [] => ([], [], n)
    | c :: rest =>
      if lbOK prev &&
          !term.isEmpty && matchFold term (c :: rest) &&
          la ((c :: rest).drop term.length) then
        let res := subGo term la rep fuel
          ((c :: rest).take term.length).getLast?
          ((c :: rest).drop term.length) (n + 1)
        (rep n ++ res.1, n :: res.2.1, res.2.2)
      else
        let res := subGo term la rep fuel (some c) rest n
        (c :: res.1, res.2.1, res.2.2)

/-- One `pattern.sub(stash, result)` run of pass 1, minting sentinels and
recording `(index, deva)` per replacement. -/
def stashSubGo (term deva : Str) (fuel : Nat) (prev : Option Char)
    (s : Str) (n : Nat) : Str × List (Nat × Str) × Nat :=
  let r := subGo term stashLA sentinel fuel prev s n
  (r.1, r.2.1.map (fun i => (i, deva)), r.2.2)

/-- Sort order of the term iteration: key length descending, stable
(`sorted(items(), key=lambda x: len(x[0]), reverse=True)`). -/
def keyLenGe (a b : Str × Str) : Bool := decide (b.1.length ≤ a.1.length)

/-- Pass 1 of the three-pass conversion: stash every glossary term behind
a sentinel, longest terms first, returning the text with sentinels and the
minted `(index, devanagari)` pairs in mint order. -/
def stashPass (termMap : List (Str × Str)) (text : Str) :
    Str × List (Nat × Str) :=
  let p := (stableSort keyLenGe termMap).foldl
    (fun (acc : Str × List (Nat × Str) × Nat) td =>
      let r := stashSubGo td.1 td.2 acc.1.length none acc.1 acc.2.2
      (r.1, acc.2.1 ++ r.2.1, r.2.2))
    (text, [], 0)
  (p.1, p.2.1)

/-- Pass 3: restore each minted sentinel to its Devanagari form
(`result.replace(key, deva)` in mint order). -/
def restorePass (minted : List (Nat × Str)) (text : Str) : Str :=
  minted.foldl (fun r kd => replaceAll r (sentinel kd.1) kd.2) text

/-- One `pattern.sub(deva, result)` run of the reference pass 2: word-map
substitution of a Roman word at word boundaries. -/
def wordSub (term rep text : Str) : Str :=
  (subGo term wordLA (fun _ => rep) text.length none text 0).1

end Inglish

namespace Inglish

/-- `_ROMAN_TO_DEVA` of the reference converter, in source (dict) order. -/
def romanTable : List (Str × Str) :=
  [ (str "ek", str "एक"), (str "do", str "दो"), (str "teen", str "तीन"),
    (str "chaar", str "चार"), (str "paanch", str "पाँच"),
    (str "chhe", str "छह"), (str "saat", str "सात"),
    (str "aath", str "आठ"), (str "nau", str "नौ"), (str "das", str "दस"),
    (str "shunya", str "शून्य"),
    (str "yeh", str "यह"), (str "voh", str "वह"), (str "ye", str "ये"),
    (str "ve", str "वे"),
    (str "iske khud ka", str "इसके खुद का"),
    (str "khud ka", str "खुद का"),
    (str "iske", str "इसके"), (str "is", str "इस"), (str "us", str "उस"),
    (str "in", str "इन"), (str "un", str "उन"),
    (str "ke saath", str "के साथ"), (str "ke upar", str "के ऊपर"),
    (str "jab tak", str "जब तक"), (str "kabhi nahi", str "कभी नहीं"),
    (str "mein", str "में"), (str "par", str "पर"), (str "ko", str "को"),
    (str "ka", str "का"), (str "se", str "से"),
    (str "hai", str "है"), (str "hain", str "हैं"), (str "tha", str "था"),
    (str "the", str "थे"), (str "ho", str "हो"), (str "gaya", str "गया"),
    (str "karta hai", str "करता है"), (str "karta tha", str "करता था"),
    (str "karo", str "करो"), (str "kiya", str "किया"),
    (str "banata hai", str "बनाता है"),
    (str "upyog karta hai", str "उपयोग करता है"),
    (str "iterate karta hai", str "iterate करता है"),
    (str "jaari rehta hai", str "जारी रहता है"),
    (str "ban jaata hai", str "बन जाता है"),
    (str "upyog karo", str "उपयोग करो"),
    (str "upyog kiya", str "उपयोग किया"),
    (str "assign karo", str "असाइन करो"),
    (str "assign kiya", str "असाइन किया"),
    (str "iterate karo", str "iterate करो"),
    (str "iterate kiya", str "iterate किया"),
    (str "banao", str "बनाओ"), (str "banaya", str "बनाया"),
    (str "badhao", str "बढ़ाओ"), (str "badhaya", str "बढ़ाया"),
    (str "ghatao", str "घटाओ"),
    (str "return", str "रिटर्न"), (str "store", str "स्टोर"),
    (str "call", str "कॉल"), (str "define", str "डिफाइन"),
    (str "declare", str "डिक्लेयर"), (str "throw", str "थ्रो"),
    (str "run", str "रन"), (str "execute", str "एग्जिक्यूट"),
    (str "har", str "हर"), (str "sabhi", str "सभी"), (str "kai", str "कई"),
    (str "naya", str "नया"), (str "wahi", str "वही"),
    (str "pehla", str "पहला"), (str "aakhri", str "आखिरी"),
    (str "agla", str "अगला"), (str "pichla", str "पिछला"),
    (str "aur", str "और"), (str "ya", str "या"), (str "lekin", str "लेकिन"),
    (str "phir", str "फिर"), (str "baad", str "बाद"),
    (str "pehle", str "पहले"), (str "jab", str "जब"),
    (str "nahi", str "नहीं"), (str "bhi", str "भी"),
    (str "sirf", str "सिर्फ"), (str "hamesha", str "हमेशा"),
    (str "naam", str "नाम"), (str "samay", str "समय"),
    (str "tarika", str "तरीका") ]

/-- `_ROMAN_SORTED`: the table pre-sorted longest key first (stable). -/
def romanSorted : List (Str × Str) := stableSort keyLenGe romanTable

/-- Pass 2 of the reference converter: substitute each Roman word of the
sorted table at word boundaries. -/
def romanPass (text : Str) : Str :=
  romanSorted.foldl (fun r td => wordSub td.1 td.2 r) text

/-- Reference `ScriptConverter._to_devanagari`: stash glossary terms,
word-map the remaining Roman words, restore the stashed Devanagari.  The
forward path performs no dependency check. -/
def toDevanagariRef (termMap : List (Str × Str)) (text : Str) : Str :=
  let p1 := stashPass termMap text
  restorePass p1.2 (romanPass p1.1)

/-- The gate `_require_indic()`: the optional dependency's availability is
a parameter of the model; the raised `ImportError` is the `.error` case. -/
def requireIndic (avail : Bool) : Except Str Unit :=
  if avail then Except.ok () else
    Except.error (str "ImportError: indic-transliteration required")

/-- Devanagari code-point test (`[ऀ-ॿ]`). -/
def isDeva (c : Char) : Bool := decide (0x900 ≤ c.toNat ∧ c.toNat ≤ 0x97F)

def hasDeva (s : Str) : Bool := s.any isDeva

/-- `re.split(r'([ऀ-ॿ]+)', text)` followed by transliteration of
the Devanagari runs via the external `oracle` and concatenation. -/
def devaSpansGo (oracle : Str → Str) : Nat → Str → Str
  | 0, s => s
  | fuel + 1, s =>
    match s with
    | [] => []
    | c :: rest =>
      if isDeva c then
        oracle ((c :: rest).takeWhile isDeva) ++
          devaSpansGo oracle fuel ((c :: rest).dropWhile isDeva)
      else
        c :: devaSpansGo oracle fuel rest

def devaSpans (oracle : Str → Str) (text : Str) : Str :=
  devaSpansGo oracle text.length text

/-- Reference `ScriptConverter._to_roman`: input with no Devanagari run is
returned unchanged before the dependency gate; otherwise the gate runs and
the Devanagari spans are transliterated. -/
def toRomanRef (avail : Bool) (oracle : Str → Str) (text : Str) :
    Except Str Str :=
  if hasDeva text then
    match requireIndic avail with
    | Except.error e => Except.error e
    | Except.ok _ => Except.ok (devaSpans oracle text)
  else Except.ok text

/-- Reference `ScriptConverter.convert_mixed_text`. -/
def convertMixedRef (avail : Bool) (oracle : Str → Str)
    (termMap : List (Str × Str)) (toFormat : Str) (text : Str) :
    Except Str Str :=
  if toFormat == str "roman" then toRomanRef avail oracle text
  else if toFormat == str "devanagari" then
    Except.ok (toDevanagariRef termMap text)
  else Except.ok text

/-- src `ScriptConverter._to_full_devanagari`: the dependency gate runs
first, before the three passes; pass 2 is the external ITRANS
transliteration `oracle`. -/
def toFullDevanagari (avail : Bool) (itransOracle : Str → Str)
    (termMap : List (Str × Str)) (text : Str) : Except Str Str :=
  match requireIndic avail with
  | Except.error e => Except.error e
  | Except.ok _ =>
    let p1 := stashPass termMap text
    Except.ok (restorePass p1.2 (itransOracle p1.1))

/-- src `ScriptConverter._transliterate_devanagari_spans`: the dependency
gate runs unconditionally, even when the input has no Devanagari run. -/
def transliterateDevanagariSpans (avail : Bool) (oracle : Str → Str)
    (text : Str) : Except Str Str :=
  match requireIndic avail with
  | Except.error e => Except.error e
  | Except.ok _ => Except.ok (devaSpans oracle text)

end Inglish

namespace Inglish

/-- C4 (amended, reference variant): the reverse (Devanagari→Roman) path
returns input with no Devanagari run unchanged without the dependency;
it errors exactly when the input has Devanagari and the dependency is
missing; and the forward (`devanagari` format) conversion never errors,
for any availability.  On the original claim, the src variant's forward
path and its reverse path both gate on the dependency unconditionally. -/
theorem claim_C4 (avail : Bool) (oracle : Str → Str)
    (termMap : List (Str × Str)) (text : Str) :
    (hasDeva text = false → toRomanRef avail oracle text = Except.ok text) ∧
    (∀ e, toRomanRef avail oracle text = Except.error e →
      hasDeva text = true ∧ avail = false) ∧
    (∃ out, convertMixedRef avail oracle termMap (str "devanagari") text =
      Except.ok out) := by
  refine ⟨?_, ?_, ?_⟩
  · intro h
    simp [toRomanRef, h]
  · intro e he
    unfold toRomanRef at he
    by_cases hd : hasDeva text
    · rw [if_pos hd] at he
      cases havail : avail
      · exact ⟨hd, rfl⟩
      · rw [havail] at he
        simp [requireIndic] at he
    · rw [if_neg hd] at he
      cases he
  · exact ⟨toDevanagariRef termMap text, by
      unfold convertMixedRef
      rw [if_neg (by decide), if_pos (by decide)]⟩

/-- C4 counterexample (src variant): with the dependency unavailable, the
forward path `_to_full_devanagari` raises immediately (its body begins
with `_require_indic()`), and the reverse path
`_transliterate_devanagari_spans` raises even on input containing no
Devanagari — both contradicting the claim. -/
theorem counterexample_C4 :
    toFullDevanagari false (fun s => s) [] (str "hello") =
      Except.error (str "ImportError: indic-transliteration required") ∧
    hasDeva (str "hello") = false ∧
    transliterateDevanagariSpans false (fun s => s) (str "hello") =
      Except.error (str "ImportError: indic-transliteration required") := by
  refine ⟨rfl, by decide, rfl⟩

/-- C4 witness: the reference reverse path at `"hello"` with the
dependency missing returns the input unchanged. -/
theorem witness_C4 :
    toRomanRef false (fun s => s) (str "hello") = Except.ok (str "hello") :=
  (claim_C4 false (fun s => s) [] (str "hello")).1 (by decide)

end Inglish

namespace Inglish

/-! ### Sentinel inertness: character and decimal-representation facts -/

/-- ASCII decimal digit test. -/
def isDigitCh (c : Char) : Bool := decide (48 ≤ c.toNat ∧ c.toNat ≤ 57)

/-- `u` occurs as a substring of `v`. -/
def occursIn (u v : Str) : Prop := ∃ a b, v = a ++ u ++ b

theorem toLower_image (c : Char) :
    c.toLower = c ∨ (97 ≤ c.toLower.toNat ∧ c.toLower.toNat ≤ 122) := by
  unfold Char.toLower
  by_cases h : c.toNat ≥ 65 ∧ c.toNat ≤ 90
  · right
    rw [if_pos h]
    have hv : (c.toNat + 32).isValidChar := Or.inl (by omega)
    unfold Char.ofNat
    rw [dif_pos hv]
    have : (Char.ofNatAux (c.toNat + 32) hv).toNat = c.toNat + 32 := rfl
    omega
  · left
    rw [if_neg h]

/-- A character whose lowercase form lies outside the lowercase-letter
range is fixed by lowering. -/
theorem toLower_eq_of_low {c d : Char} (h : c.toLower = d)
    (hd : d.toNat < 97 ∨ 122 < d.toNat) : c = d := by
  rcases toLower_image c with h2 | h2
  · rw [← h2, h]
  · rw [h] at h2
    omega

theorem digit_toNat_lt : ∀ n : Nat, n < 10 →
    (Char.ofNat (48 + n)).toNat = 48 + n := by
  intro n hn
  have hv : (48 + n).isValidChar := Or.inl (by omega)
  unfold Char.ofNat
  rw [dif_pos hv]
  rfl

theorem natDigitsGo_digits :
    ∀ (fuel n : Nat), ∀ c ∈ natDigitsGo fuel n, isDigitCh c = true := by
  intro fuel
  induction fuel with
  | zero => intro n c hc; cases hc
  | succ fuel ih =>
    intro n c hc
    unfold natDigitsGo at hc
    by_cases hn : n < 10
    · rw [if_pos hn] at hc
      simp only [List.mem_singleton] at hc
      subst hc
      simp only [isDigitCh, decide_eq_true_eq, digit_toNat_lt n hn]
      omega
    · rw [if_neg hn] at hc
      rcases List.mem_append.1 hc with h | h
      · exact ih _ c h
      · simp only [List.mem_singleton] at h
        subst h
        have hm : n % 10 < 10 := Nat.mod_lt _ (by omega)
        simp only [isDigitCh, decide_eq_true_eq, digit_toNat_lt _ hm]
        omega

theorem natRepr_digits : ∀ (n : Nat), ∀ c ∈ natRepr n, isDigitCh c = true :=
  fun n => natDigitsGo_digits (n + 1) n

theorem natRepr_ne_nil (n : Nat) : natRepr n ≠ [] := by
  unfold natRepr natDigitsGo
  by_cases hn : n < 10
  · rw [if_pos hn]
    exact List.cons_ne_nil _ _
  · rw [if_neg hn]
    intro h
    have := congrArg List.length h
    simp at this

/-- Decimal value of a digit string. -/
def digitsVal (s : Str) : Nat := s.foldl (fun a c => 10 * a + (c.toNat - 48)) 0

theorem digitsVal_snoc (u : Str) (c : Char) :
    digitsVal (u ++ [c]) = 10 * digitsVal u + (c.toNat - 48) := by
  unfold digitsVal
  rw [List.foldl_append]
  rfl

theorem natDigitsGo_val :
    ∀ (fuel n : Nat), n < 10 ^ fuel → digitsVal (natDigitsGo fuel n) = n := by
  intro fuel
  induction fuel with
  | zero =>
    intro n hn
    simp only [pow_zero, Nat.lt_one_iff] at hn
    subst hn
    rfl
  | succ fuel ih =>
    intro n hn
    unfold natDigitsGo
    by_cases h10 : n < 10
    · rw [if_pos h10]
      unfold digitsVal
      simp only [List.foldl_cons, List.foldl_nil]
      rw [digit_toNat_lt n h10]
      omega
    · rw [if_neg h10]
      rw [digitsVal_snoc]
      have hdiv : n / 10 < 10 ^ fuel := by
        rw [Nat.div_lt_iff_lt_mul (by omega)]
        calc n < 10 ^ (fuel + 1) := hn
        _ = 10 ^ fuel * 10 := by ring
      rw [ih _ hdiv]
      have hm : n % 10 < 10 := Nat.mod_lt _ (by omega)
      rw [digit_toNat_lt _ hm]
      omega

theorem natRepr_val (n : Nat) : digitsVal (natRepr n) = n := by
  unfold natRepr
  exact natDigitsGo_val (n + 1) n
    (lt_of_lt_of_le (Nat.lt_pow_self (by norm_num) n)
      (Nat.pow_le_pow_right (by norm_num) (by omega)))

theorem natRepr_inj {i j : Nat} (h : natRepr i = natRepr j) : i = j := by
  have := congrArg digitsVal h
  rwa [natRepr_val, natRepr_val] at this

/-- Two digit blocks closed by `'\x03'` align exactly. -/
theorem digitBlock_eq :
    ∀ (u v a b : Str), (∀ c ∈ u, isDigitCh c = true) →
      (∀ c ∈ v, isDigitCh c = true) →
      u ++ '\x03' :: a = v ++ '\x03' :: b → u = v ∧ a = b := by
  intro u
  induction u with
  | nil =>
    intro v a b _ hv h
    cases v with
    | nil => simpa using h
    | cons d v' =>
      simp only [List.nil_append, List.cons_append, List.cons.injEq] at h
      have := hv d (List.mem_cons_self _ _)
      rw [← h.1] at this
      simp [isDigitCh] at this
  | cons c u' ih =>
    intro v a b hu hv h
    cases v with
    | nil =>
      simp only [List.cons_append, List.nil_append, List.cons.injEq] at h
      have := hu c (List.mem_cons_self _ _)
      rw [h.1] at this
      simp [isDigitCh] at this
    | cons d v' =>
      simp only [List.cons_append, List.cons.injEq] at h
      obtain ⟨h1, h2⟩ := h
      obtain ⟨h3, h4⟩ := ih v' a b
        (fun x hx => hu x (List.mem_cons_of_mem _ hx))
        (fun x hx => hv x (List.mem_cons_of_mem _ hx)) h2
      exact ⟨by rw [h1, h3], h4⟩

/-- A sentinel key determines its index and the remainder of the string:
`sentinel i ++ a = sentinel j ++ b` forces `i = j` and `a = b`. -/
theorem sentinel_align {i j : Nat} {a b : Str}
    (h : sentinel i ++ a = sentinel j ++ b) : i = j ∧ a = b := by
  unfold sentinel at h
  simp only [List.cons_append, List.cons.injEq, List.append_assoc,
    List.singleton_append, List.nil_append] at h
  obtain ⟨-, h2⟩ := h
  obtain ⟨h3, h4⟩ := digitBlock_eq _ _ _ _ (natRepr_digits i)
    (natRepr_digits j) h2
  exact ⟨natRepr_inj h3, h4⟩

end Inglish

namespace Inglish

/-! ### Chunk decomposition of pass states -/

/-- A pass-state string decomposes into plain (delimiter-free) segments
and complete sentinels. -/
inductive Chunk where
  | plain : Str → Chunk
  | sent : Nat → Chunk

def renderChunk : Chunk → Str
  | Chunk.plain p => p
  | Chunk.sent i => sentinel i

def render : List Chunk → Str
  | [] => []
  | c :: cs => renderChunk c ++ render cs

/-- Well-formedness of one chunk: plain segments carry no delimiter. -/
def chunkOK : Chunk → Prop
  | Chunk.plain p => '\x02' ∉ p ∧ '\x03' ∉ p
  | Chunk.sent _ => True

/-- The sentinel indices of a chunk list, in order. -/
def sentIdx : List Chunk → List Nat
  | [] => []
  | Chunk.sent i :: cs => i :: sentIdx cs
  | Chunk.plain _ :: cs => sentIdx cs

theorem render_append : ∀ cs ds : List Chunk,
    render (cs ++ ds) = render cs ++ render ds := by
  intro cs ds
  induction cs with
  | nil => rfl
  | cons c cs ih =>
    show renderChunk c ++ render (cs ++ ds) =
      (renderChunk c ++ render cs) ++ render ds
    rw [ih, List.append_assoc]

theorem sentIdx_append : ∀ cs ds : List Chunk,
    sentIdx (cs ++ ds) = sentIdx cs ++ sentIdx ds := by
  intro cs ds
  induction cs with
  | nil => rfl
  | cons c cs ih =>
    cases c with
    | plain p => simpa [sentIdx] using ih
    | sent i => simpa [sentIdx] using ih

/-- A plain chunk's text occurs in the render. -/
theorem occursIn_render {d : Str} {cs : List Chunk}
    (h : Chunk.plain d ∈ cs) : occursIn d (render cs) := by
  obtain ⟨l1, l2, hsplit⟩ := List.append_of_mem h
  subst hsplit
  rw [render_append]
  exact ⟨render l1, render l2, by
    simp [render, renderChunk, List.append_assoc]⟩

/-- Dropping a delimiter-free prefix of a well-formed render yields a
well-formed render with the same sentinel indices. -/
theorem render_split :
    ∀ (cs : List Chunk) (k : Nat), (∀ c ∈ cs, chunkOK c) →
      '\x02' ∉ (render cs).take k → '\x03' ∉ (render cs).take k →
      ∃ cs', (render cs).drop k = render cs' ∧ (∀ c ∈ cs', chunkOK c) ∧
        sentIdx cs' = sentIdx cs := by
  intro cs
  induction cs with
  | nil =>
    intro k _ _ _
    exact ⟨[], by simp [render], by simp, rfl⟩
  | cons c cs ih =>
    intro k hok h2 h3
    cases c with
    | plain p =>
      simp only [render, renderChunk] at h2 h3 ⊢
      by_cases hk : k ≤ p.length
      · refine ⟨Chunk.plain (p.drop k) :: cs,
          List.drop_append_of_le_length hk, ?_, by simp [sentIdx]⟩
        intro c hc
        rcases List.mem_cons.1 hc with hc | hc
        · subst hc
          have hpo := hok (Chunk.plain p) (List.mem_cons_self _ _)
          exact ⟨fun hm => hpo.1 (List.mem_of_mem_drop hm),
            fun hm => hpo.2 (List.mem_of_mem_drop hm)⟩
        · exact hok c (List.mem_cons_of_mem _ hc)
      · have hk2 : k = p.length + (k - p.length) := by omega
        rw [hk2] at h2 h3 ⊢
        rw [List.drop_append, List.take_append] at *
        obtain ⟨cs', hd, hok', hidx⟩ := ih (k - p.length)
          (fun c hc => hok c (List.mem_cons_of_mem _ hc))
          (fun hm => h2 (List.mem_append.2 (Or.inr hm)))
          (fun hm => h3 (List.mem_append.2 (Or.inr hm)))
        exact ⟨cs', hd, hok', by rw [hidx]; simp [sentIdx]⟩
    | sent i =>
      cases k with
      | zero => exact ⟨Chunk.sent i :: cs, rfl, hok, rfl⟩
      | succ k =>
        exfalso
        apply h2
        simp only [render, renderChunk, sentinel, List.cons_append,
          List.take_succ_cons]
        exact List.mem_cons_self _ _

end Inglish

namespace Inglish

/-! ### Scanner lemmas for the word-boundary substitution -/

theorem toLower_fix {c : Char} (h : c.toNat < 65) : c.toLower = c := by
  unfold Char.toLower
  rw [if_neg]
  omega

/-- A low (non-letter) character found in the matched region of a
successful case-insensitive match is a character of the pattern. -/
theorem matchFold_mem_low {term s : Str} (h : matchFold term s = true)
    {c : Char} (hc : c.toNat < 65) (hmem : c ∈ s.take term.length) :
    c ∈ term := by
  unfold matchFold at h
  rw [Bool.and_eq_true, beq_iff_eq] at h
  have hmap : lowerStr (s.take term.length) = lowerStr term := h.2
  have hcl : c.toLower ∈ lowerStr term := by
    rw [← hmap]
    exact List.mem_map_of_mem _ hmem
  rw [toLower_fix hc] at hcl
  obtain ⟨d, hd, hdl⟩ := List.mem_map.1 hcl
  have : d = c := toLower_eq_of_low hdl (by omega)
  exact this ▸ hd

/-- If every character of the matched region is a digit, every character
of the pattern is a digit. -/
theorem matchFold_all_digits {term s : Str} (h : matchFold term s = true)
    (hall : ∀ c ∈ s.take term.length, isDigitCh c = true) :
    ∀ c ∈ term, isDigitCh c = true := by
  intro c hcterm
  unfold matchFold at h
  rw [Bool.and_eq_true, beq_iff_eq] at h
  have hmap : lowerStr (s.take term.length) = lowerStr term := h.2
  have hcl : c.toLower ∈ lowerStr (s.take term.length) := by
    rw [hmap]
    exact List.mem_map_of_mem _ hcterm
  obtain ⟨d, hd, hdl⟩ := List.mem_map.1 hcl
  have hdd := hall d hd
  have hdfix : d.toLower = d := by
    apply toLower_fix
    simp only [isDigitCh, decide_eq_true_eq] at hdd
    omega
  rw [hdfix] at hdl
  have hcd : c = d := by
    apply toLower_eq_of_low hdl.symm
    simp only [isDigitCh, decide_eq_true_eq] at hdd
    omega
  rw [hcd]
  exact hdd

/-- The match length is the pattern length, and it is positive for a
nonempty pattern. -/
theorem matchFold_len {term s : Str} (h : matchFold term s = true) :
    term.length ≤ s.length := by
  unfold matchFold at h
  rw [Bool.and_eq_true, decide_eq_true_eq] at h
  exact h.1

/-- Fuel does not matter for `subGo` once it is at least the length. -/
theorem subGo_fuel (term : Str) (la : Str → Bool) (rep : Nat → Str) :
    ∀ (f1 : Nat) (s : Str) (f2 : Nat) (prev : Option Char) (n : Nat),
      s.length ≤ f1 → s.length ≤ f2 →
      subGo term la rep f1 prev s n = subGo term la rep f2 prev s n := by
  intro f1
  induction f1 with
  | zero =>
    intro s f2 prev n h1 _
    have hs : s = [] := List.length_eq_zero.1 (Nat.le_zero.1 h1)
    subst hs
    cases f2 <;> rfl
  | succ f1 ih =>
    intro s f2 prev n h1 h2
    cases s with
    | nil => cases f2 <;> rfl
    | cons c rest =>
      cases f2 with
      | zero => simp at h2
      | succ f2 =>
        simp only [List.length_cons] at h1 h2
        simp only [subGo]
        by_cases hg : (lbOK prev && !term.isEmpty &&
            matchFold term (c :: rest) &&
            la ((c :: rest).drop term.length)) = true
        · rw [if_pos hg, if_pos hg]
          have hne : term.length ≥ 1 := by
            rw [Bool.and_eq_true, Bool.and_eq_true, Bool.and_eq_true] at hg
            obtain ⟨⟨⟨-, hg3⟩, -⟩, -⟩ := hg
            cases term with
            | nil => simp at hg3
            | cons a b => simp
          have hdl : ((c :: rest).drop term.length).length ≤ f1 := by
            rw [List.length_drop]
            simp only [List.length_cons]
            omega
          have hdl2 : ((c :: rest).drop term.length).length ≤ f2 := by
            rw [List.length_drop]
            simp only [List.length_cons]
            omega
          rw [ih _ _ _ _ hdl hdl2]
        · rw [if_neg hg, if_neg hg]
          rw [ih rest f2 (some c) n (by omega) (by omega)]

end Inglish

namespace Inglish

theorem mem_take_head {α} (x : α) (l : List α) (m : Nat) (h : 1 ≤ m) :
    x ∈ (x :: l).take m := by
  cases m
  · omega
  · simp [List.take_succ_cons]

/-- The original-string predecessor after copying a block `w`. -/
def prevAfter (w : Str) (prev : Option Char) : Option Char :=
  match w.getLast? with
  | some c => some c
  | none => prev

theorem prevAfter_cons (c : Char) (w : Str) (prev : Option Char) :
    prevAfter (c :: w) prev = prevAfter w (some c) := by
  cases w with
  | nil => rfl
  | cons d w' =>
    unfold prevAfter
    rw [List.getLast?_cons_cons]
    cases h : (d :: w').getLast? with
    | none => simp at h
    | some x => rfl

/-- The scanner copies verbatim any block at whose positions the literal
match fails. -/
theorem subGo_copy (term : Str) (la : Str → Bool) (rep : Nat → Str) :
    ∀ (w : Str) (fuel : Nat) (prev : Option Char) (s : Str) (n : Nat),
      (w ++ s).length ≤ fuel →
      (∀ k, k < w.length → matchFold term (w.drop k ++ s) = false) →
      subGo term la rep fuel prev (w ++ s) n =
        (w ++ (subGo term la rep (fuel - w.length)
            (prevAfter w prev) s n).1,
         (subGo term la rep (fuel - w.length) (prevAfter w prev) s n).2) := by
  intro w
  induction w with
  | nil =>
    intro fuel prev s n _ _
    simp [prevAfter]
  | cons c w' ih =>
    intro fuel prev s n hlen hnm
    cases fuel with
    | zero =>
      simp only [List.cons_append, List.length_cons] at hlen
      omega
    | succ f =>
      have hm0 : matchFold term (c :: (w' ++ s)) = false := by
        have := hnm 0 (by simp)
        simpa using this
      rw [List.cons_append]
      simp only [subGo]
      rw [if_neg (by simp [hm0])]
      have hlen' : (w' ++ s).length ≤ f := by
        simp only [List.cons_append, List.length_cons] at hlen
        omega
      have hnm' : ∀ k, k < w'.length →
          matchFold term (w'.drop k ++ s) = false := by
        intro k hk
        have := hnm (k + 1) (by simp; omega)
        simpa using this
      rw [ih f (some c) s n hlen' hnm']
      simp only [List.length_cons, prevAfter_cons]
      have hfe : f - w'.length = f + 1 - (w'.length + 1) := by omega
      rw [hfe]
      rfl

/-- Under the amended term hypotheses, the literal never matches at any
position inside a sentinel. -/
theorem sentinel_no_match (term : Str) (htne : term ≠ [])
    (ht2 : '\x02' ∉ term) (ht3 : '\x03' ∉ term)
    (htnd : ∃ c ∈ term, isDigitCh c = false) (i : Nat) (s : Str) :
    ∀ k, k < (sentinel i).length →
      matchFold term ((sentinel i).drop k ++ s) = false := by
  intro k hk
  by_contra hM
  rw [Bool.not_eq_false] at hM
  have hL : 1 ≤ term.length := by
    cases term with
    | nil => exact absurd rfl htne
    | cons a b => simp
  cases k with
  | zero =>
    simp only [List.drop_zero, sentinel, List.cons_append] at hM
    have hmem : '\x02' ∈ (('\x02' :: (natRepr i ++ ['\x03'] ++ s))).take
        term.length := mem_take_head _ _ _ hL
    have : '\x02' ∈ term := by
      apply matchFold_mem_low hM (by decide)
      simpa [List.append_assoc] using hmem
    exact ht2 this
  | succ k =>
    have hk2 : k ≤ (natRepr i).length := by
      simp only [sentinel, List.length_cons, List.length_append,
        List.length_cons, List.length_nil] at hk
      omega
    have hdrop : (sentinel i).drop (k + 1) =
        (natRepr i).drop k ++ '\x03' :: ([] : Str) := by
      simp only [sentinel, List.cons_append, List.drop_succ_cons]
      rw [List.drop_append_of_le_length hk2]
    rw [hdrop] at hM
    have hudig : ∀ c ∈ (natRepr i).drop k, isDigitCh c = true :=
      fun c hc => natRepr_digits i c (List.mem_of_mem_drop hc)
    rw [List.append_assoc] at hM
    simp only [List.nil_append, List.singleton_append] at hM
    by_cases hcase : term.length ≤ ((natRepr i).drop k).length
    · have hall : ∀ c ∈ (((natRepr i).drop k) ++ '\x03' :: s).take
          term.length, isDigitCh c = true := by
        rw [List.take_append_of_le_length hcase]
        exact fun c hc => hudig c (List.mem_of_mem_take hc)
      obtain ⟨c, hc, hnd⟩ := htnd
      have := matchFold_all_digits hM hall c hc
      rw [this] at hnd
      exact Bool.noConfusion hnd
    · have hmem : '\x03' ∈ (((natRepr i).drop k) ++ '\x03' :: s).take
          term.length := by
        have hsplit : term.length = ((natRepr i).drop k).length +
            (term.length - ((natRepr i).drop k).length) := by omega
        rw [hsplit, List.take_append]
        apply List.mem_append.2
        right
        exact mem_take_head _ _ _ (by omega)
      have : '\x03' ∈ term := matchFold_mem_low hM (by decide) hmem
      exact ht3 this

end Inglish

namespace Inglish

/-- Pass-1 main lemma: on a well-formed chunked state whose sentinel
indices are below the counter, the stash scanner produces a well-formed
chunked state; old sentinels persist, the recorded match indices are
exactly the counter range consumed, and every index in that range appears
as a sentinel of the output. -/
theorem subGo_stash (term : Str) (la : Str → Bool) (htne : term ≠ [])
    (ht2 : '\x02' ∉ term) (ht3 : '\x03' ∉ term)
    (htnd : ∃ c ∈ term, isDigitCh c = false) :
    ∀ (fuel : Nat) (cs : List Chunk) (s : Str) (prev : Option Char) (n : Nat),
      s.length ≤ fuel → s = render cs → (∀ c ∈ cs, chunkOK c) →
      (∀ j ∈ sentIdx cs, j < n) →
      ∃ cs' : List Chunk,
        (subGo term la sentinel fuel prev s n).1 = render cs' ∧
        (∀ c ∈ cs', chunkOK c) ∧
        n ≤ (subGo term la sentinel fuel prev s n).2.2 ∧
        (∀ j ∈ sentIdx cs', j ∈ sentIdx cs ∨
          (n ≤ j ∧ j < (subGo term la sentinel fuel prev s n).2.2)) ∧
        (∀ j ∈ sentIdx cs, j ∈ sentIdx cs') ∧
        (∀ k, k ∈ (subGo term la sentinel fuel prev s n).2.1 ↔
          (n ≤ k ∧ k < (subGo term la sentinel fuel prev s n).2.2)) ∧
        (∀ j, n ≤ j → j < (subGo term la sentinel fuel prev s n).2.2 →
          j ∈ sentIdx cs') := by
  intro fuel
  induction fuel with
  | zero =>
    intro cs s prev n hlen hs hok hidx
    have hse : s = [] := List.length_eq_zero.1 (Nat.le_zero.1 hlen)
    have he : subGo term la sentinel 0 prev s n = (s, [], n) := rfl
    rw [he]
    dsimp only
    refine ⟨cs, hs, hok, Nat.le_refl n, ?_, fun j hj => hj, ?_, ?_⟩
    · intro j hj
      exact Or.inl hj
    · intro k
      constructor
      · intro hk
        cases hk
      · intro hk
        omega
    · intro j h1 h2
      omega
  | succ fuel ihF =>
    intro cs
    induction cs with
    | nil =>
      intro s prev n hlen hs hok hidx
      have hse : s = [] := by simpa [render] using hs
      subst hse
      have he : subGo term la sentinel (fuel + 1) prev [] n =
        ([], [], n) := rfl
      rw [he]
      dsimp only
      refine ⟨[], rfl, by simp, Nat.le_refl n, by simp [sentIdx],
        by simp [sentIdx], ?_, ?_⟩
      · intro k
        constructor
        · intro hk
          cases hk
        · intro hk
          omega
      · intro j h1 h2
        omega
    | cons c0 cs2 ihC =>
      cases c0 with
      | plain p =>
        cases p with
        | nil =>
          intro s prev n hlen hs hok hidx
          have hs2 : s = render cs2 := by simpa [render, renderChunk] using hs
          obtain ⟨cs', h1, h2, h3, h4, h5, h6, h7⟩ := ihC s prev n hlen hs2
            (fun c hc => hok c (List.mem_cons_of_mem _ hc))
            (by simpa [sentIdx] using hidx)
          exact ⟨cs', h1, h2, h3,
            by simpa [sentIdx] using h4, by simpa [sentIdx] using h5, h6, h7⟩
        | cons ch p' =>
          intro s prev n hlen hs hok hidx
          have hr : render (Chunk.plain (ch :: p') :: cs2) =
            ch :: (p' ++ render cs2) := rfl
          subst hs
          rw [hr] at hlen ⊢
          simp only [subGo]
          by_cases hg : (lbOK prev && !term.isEmpty &&
              matchFold term (ch :: (p' ++ render cs2)) &&
              la ((ch :: (p' ++ render cs2)).drop term.length)) = true
          · rw [if_pos hg]
            dsimp only
            have hM : matchFold term (ch :: (p' ++ render cs2)) = true := by
              rw [Bool.and_eq_true, Bool.and_eq_true, Bool.and_eq_true] at hg
              exact hg.1.2
            have hL1 : 1 ≤ term.length := by
              cases term with
              | nil => exact absurd rfl htne
              | cons a b => simp
            have hreg2 : '\x02' ∉
                (ch :: (p' ++ render cs2)).take term.length :=
              fun hmem => ht2 (matchFold_mem_low hM (by decide) hmem)
            have hreg3 : '\x03' ∉
                (ch :: (p' ++ render cs2)).take term.length :=
              fun hmem => ht3 (matchFold_mem_low hM (by decide) hmem)
            obtain ⟨csR, hdrop, hokR, hidxR⟩ :=
              render_split (Chunk.plain (ch :: p') :: cs2) term.length hok
                (by rw [hr]; exact hreg2) (by rw [hr]; exact hreg3)
            rw [hr] at hdrop
            have hlenR : ((ch :: (p' ++ render cs2)).drop term.length).length
                ≤ fuel := by
              rw [List.length_drop]
              simp only [List.length_cons] at hlen ⊢
              omega
            obtain ⟨cs'', g1, g2, g3, g4, g5, g6, g7⟩ :=
              ihF csR ((ch :: (p' ++ render cs2)).drop term.length)
                ((ch :: (p' ++ render cs2)).take term.length).getLast? (n + 1)
                hlenR hdrop hokR
                (fun j hj => by
                  have := hidx j (by rw [← hidxR]; exact hj)
                  omega)
            refine ⟨Chunk.sent n :: cs'', ?_, ?_, ?_, ?_, ?_, ?_, ?_⟩
            · show sentinel n ++ _ = sentinel n ++ _
              rw [g1]
            · intro c hc
              rcases List.mem_cons.1 hc with hc | hc
              · subst hc
                trivial
              · exact g2 c hc
            · omega
            · intro j hj
              rcases List.mem_cons.1 (by simpa [sentIdx] using hj) with hj2 | hj2
              · right
                rw [hj2]
                exact ⟨Nat.le_refl n, by omega⟩
              · rcases g4 j hj2 with h | h
                · rw [hidxR] at h
                  exact Or.inl h
                · right
                  omega
            · intro j hj
              have hj2 : j ∈ sentIdx csR := by
                rw [hidxR]
                exact hj
              exact List.mem_cons_of_mem _ (g5 j hj2)
            · intro k
              simp only [List.mem_cons, g6]
              omega
            · intro j hn1 hn2
              by_cases hjn : j = n
              · subst hjn
                simp [sentIdx]
              · have := g7 j (by omega) hn2
                simp [sentIdx, this]
          · rw [if_neg hg]
            dsimp only
            have hchok : ch ∈ ch :: p' := List.mem_cons_self _ _
            have hpok := hok (Chunk.plain (ch :: p')) (List.mem_cons_self _ _)
            obtain ⟨cs'', g1, g2, g3, g4, g5, g6, g7⟩ :=
              ihF (Chunk.plain p' :: cs2) (p' ++ render cs2) (some ch) n
                (by simp only [List.length_cons] at hlen; omega)
                rfl
                (fun c hc => by
                  rcases List.mem_cons.1 hc with hc | hc
                  · subst hc
                    exact ⟨fun hm => hpok.1 (List.mem_cons_of_mem _ hm),
                      fun hm => hpok.2 (List.mem_cons_of_mem _ hm)⟩
                  · exact hok c (List.mem_cons_of_mem _ hc))
                (by simpa [sentIdx] using hidx)
            refine ⟨Chunk.plain [ch] :: cs'', ?_, ?_, g3, ?_, ?_, g6, ?_⟩
            · show ch :: _ = ch :: _
              rw [g1]
              rfl
            · intro c hc
              rcases List.mem_cons.1 hc with hc | hc
              · subst hc
                exact ⟨by
                    intro hm
                    rcases List.mem_singleton.1 hm with h
                    exact hpok.1 (h ▸ hchok),
                  by
                    intro hm
                    rcases List.mem_singleton.1 hm with h
                    exact hpok.2 (h ▸ hchok)⟩
              · exact g2 c hc
            · intro j hj
              rcases g4 j (by simpa [sentIdx] using hj) with h | h
              · exact Or.inl (by simpa [sentIdx] using h)
              · exact Or.inr h
            · intro j hj
              have := g5 j (by simpa [sentIdx] using hj)
              simpa [sentIdx] using this
            · intro j h1 h2
              have := g7 j h1 h2
              simpa [sentIdx] using this
      | sent i =>
        intro s prev n hlen hs hok hidx
        have hr : render (Chunk.sent i :: cs2) =
          sentinel i ++ render cs2 := rfl
        subst hs
        rw [hr] at hlen ⊢
        rw [subGo_copy term la sentinel (sentinel i) (fuel + 1) prev
          (render cs2) n hlen (sentinel_no_match term htne ht2 ht3 htnd i _)]
        dsimp only
        have hslen : 1 ≤ (sentinel i).length := by
          simp [sentinel]
        have hflen : (render cs2).length ≤ fuel + 1 - (sentinel i).length := by
          rw [List.length_append] at hlen
          omega
        rw [subGo_fuel term la sentinel (fuel + 1 - (sentinel i).length)
          (render cs2) fuel (prevAfter (sentinel i) prev) n hflen
          (by omega)]
        obtain ⟨cs'', g1, g2, g3, g4, g5, g6, g7⟩ :=
          ihF cs2 (render cs2) (prevAfter (sentinel i) prev) n
            (by omega) rfl
            (fun c hc => hok c (List.mem_cons_of_mem _ hc))
            (fun j hj => hidx j (by simp [sentIdx, hj]))
        refine ⟨Chunk.sent i :: cs'', ?_, ?_, g3, ?_, ?_, g6, ?_⟩
        · show sentinel i ++ _ = sentinel i ++ _
          rw [g1]
        · intro c hc
          rcases List.mem_cons.1 hc with hc | hc
          · subst hc
            trivial
          · exact g2 c hc
        · intro j hj
          rcases List.mem_cons.1 (by simpa [sentIdx] using hj) with hj2 | hj2
          · subst hj2
            exact Or.inl (by simp [sentIdx])
          · rcases g4 j hj2 with h | h
            · exact Or.inl (by simp [sentIdx, h])
            · exact Or.inr h
        · intro j hj
          rcases List.mem_cons.1 (by simpa [sentIdx] using hj) with hj2 | hj2
          · subst hj2
            simp [sentIdx]
          · have := g5 j hj2
            simp [sentIdx, this]
        · intro j h1 h2
          have := g7 j h1 h2
          simp [sentIdx, this]

end Inglish

namespace Inglish

/-- Pass-2 main lemma: a word-map substitution with a delimiter-free
replacement maps a well-formed chunked state to a well-formed chunked
state with exactly the same sentinel indices. -/
theorem subGo_word (term : Str) (la : Str → Bool) (rep : Str)
    (htne : term ≠ []) (ht2 : '\x02' ∉ term) (ht3 : '\x03' ∉ term)
    (htnd : ∃ c ∈ term, isDigitCh c = false)
    (hrep2 : '\x02' ∉ rep) (hrep3 : '\x03' ∉ rep) :
    ∀ (fuel : Nat) (cs : List Chunk) (s : Str) (prev : Option Char) (n : Nat),
      s.length ≤ fuel → s = render cs → (∀ c ∈ cs, chunkOK c) →
      ∃ cs' : List Chunk,
        (subGo term la (fun _ => rep) fuel prev s n).1 = render cs' ∧
        (∀ c ∈ cs', chunkOK c) ∧
        sentIdx cs' = sentIdx cs := by
  intro fuel
  induction fuel with
  | zero =>
    intro cs s prev n hlen hs hok
    exact ⟨cs, hs, hok, rfl⟩
  | succ fuel ihF =>
    intro cs
    induction cs with
    | nil =>
      intro s prev n hlen hs hok
      have hse : s = [] := by simpa [render] using hs
      subst hse
      exact ⟨[], rfl, by simp, rfl⟩
    | cons c0 cs2 ihC =>
      cases c0 with
      | plain p =>
        cases p with
        | nil =>
          intro s prev n hlen hs hok
          have hs2 : s = render cs2 := by simpa [render, renderChunk] using hs
          obtain ⟨cs', h1, h2, h3⟩ := ihC s prev n hlen hs2
            (fun c hc => hok c (List.mem_cons_of_mem _ hc))
          exact ⟨cs', h1, h2, by rw [h3]; rfl⟩
        | cons ch p' =>
          intro s prev n hlen hs hok
          have hr : render (Chunk.plain (ch :: p') :: cs2) =
            ch :: (p' ++ render cs2) := rfl
          subst hs
          rw [hr] at hlen ⊢
          simp only [subGo]
          by_cases hg : (lbOK prev && !term.isEmpty &&
              matchFold term (ch :: (p' ++ render cs2)) &&
              la ((ch :: (p' ++ render cs2)).drop term.length)) = true
          · rw [if_pos hg]
            dsimp only
            have hM : matchFold term (ch :: (p' ++ render cs2)) = true := by
              rw [Bool.and_eq_true, Bool.and_eq_true, Bool.and_eq_true] at hg
              exact hg.1.2
            have hL1 : 1 ≤ term.length := by
              cases term with
              | nil => exact absurd rfl htne
              | cons a b => simp
            have hreg2 : '\x02' ∉
                (ch :: (p' ++ render cs2)).take term.length :=
              fun hmem => ht2 (matchFold_mem_low hM (by decide) hmem)
            have hreg3 : '\x03' ∉
                (ch :: (p' ++ render cs2)).take term.length :=
              fun hmem => ht3 (matchFold_mem_low hM (by decide) hmem)
            obtain ⟨csR, hdrop, hokR, hidxR⟩ :=
              render_split (Chunk.plain (ch :: p') :: cs2) term.length hok
                (by rw [hr]; exact hreg2) (by rw [hr]; exact hreg3)
            rw [hr] at hdrop
            have hlenR : ((ch :: (p' ++ render cs2)).drop term.length).length
                ≤ fuel := by
              rw [List.length_drop]
              simp only [List.length_cons] at hlen ⊢
              omega
            obtain ⟨cs'', g1, g2, g3⟩ :=
              ihF csR ((ch :: (p' ++ render cs2)).drop term.length)
                ((ch :: (p' ++ render cs2)).take term.length).getLast? (n + 1)
                hlenR hdrop hokR
            refine ⟨Chunk.plain rep :: cs'', ?_, ?_, ?_⟩
            · show rep ++ _ = rep ++ _
              rw [g1]
            · intro c hc
              rcases List.mem_cons.1 hc with hc | hc
              · subst hc
                exact ⟨hrep2, hrep3⟩
              · exact g2 c hc
            · show sentIdx cs'' = _
              rw [g3, hidxR]
          · rw [if_neg hg]
            dsimp only
            have hpok := hok (Chunk.plain (ch :: p')) (List.mem_cons_self _ _)
            obtain ⟨cs'', g1, g2, g3⟩ :=
              ihF (Chunk.plain p' :: cs2) (p' ++ render cs2) (some ch) n
                (by simp only [List.length_cons] at hlen; omega)
                rfl
                (fun c hc => by
                  rcases List.mem_cons.1 hc with hc | hc
                  · subst hc
                    exact ⟨fun hm => hpok.1 (List.mem_cons_of_mem _ hm),
                      fun hm => hpok.2 (List.mem_cons_of_mem _ hm)⟩
                  · exact hok c (List.mem_cons_of_mem _ hc))
            refine ⟨Chunk.plain [ch] :: cs'', ?_, ?_, ?_⟩
            · show ch :: _ = ch :: _
              rw [g1]
              rfl
            · intro c hc
              rcases List.mem_cons.1 hc with hc | hc
              · subst hc
                refine ⟨?_, ?_⟩
                · intro hm
                  rcases List.mem_singleton.1 hm with h
                  exact hpok.1 (h ▸ List.mem_cons_self _ _)
                · intro hm
                  rcases List.mem_singleton.1 hm with h
                  exact hpok.2 (h ▸ List.mem_cons_self _ _)
              · exact g2 c hc
            · show sentIdx cs'' = _
              rw [g3]
              rfl
      | sent i =>
        intro s prev n hlen hs hok
        have hr : render (Chunk.sent i :: cs2) =
          sentinel i ++ render cs2 := rfl
        subst hs
        rw [hr] at hlen ⊢
        rw [subGo_copy term la (fun _ => rep) (sentinel i) (fuel + 1) prev
          (render cs2) n hlen (sentinel_no_match term htne ht2 ht3 htnd i _)]
        dsimp only
        have hslen : 1 ≤ (sentinel i).length := by
          simp [sentinel]
        have hflen : (render cs2).length ≤ fuel + 1 - (sentinel i).length := by
          rw [List.length_append] at hlen
          omega
        rw [subGo_fuel term la (fun _ => rep)
          (fuel + 1 - (sentinel i).length) (render cs2) fuel
          (prevAfter (sentinel i) prev) n hflen (by omega)]
        obtain ⟨cs'', g1, g2, g3⟩ :=
          ihF cs2 (render cs2) (prevAfter (sentinel i) prev) n
            (by omega) rfl
            (fun c hc => hok c (List.mem_cons_of_mem _ hc))
        refine ⟨Chunk.sent i :: cs'', ?_, ?_, ?_⟩
        · show sentinel i ++ _ = sentinel i ++ _
          rw [g1]
        · intro c hc
          rcases List.mem_cons.1 hc with hc | hc
          · subst hc
            trivial
          · exact g2 c hc
        · show i :: sentIdx cs'' = i :: sentIdx cs2
          rw [g3]

end Inglish

namespace Inglish

/-! ### Pass-3 restoration lemmas -/

theorem strStarts_iff : ∀ (u v : Str),
    strStarts u v = true ↔ ∃ t, v = u ++ t := by
  intro u
  induction u with
  | nil =>
    intro v
    simp [strStarts]
  | cons a u' ih =>
    intro v
    cases v with
    | nil =>
      simp [strStarts]
    | cons b v' =>
      simp only [strStarts, Bool.and_eq_true, beq_iff_eq, ih v']
      constructor
      · rintro ⟨rfl, t, rfl⟩
        exact ⟨t, rfl⟩
      · rintro ⟨t, ht⟩
        simp only [List.cons_append, List.cons.injEq] at ht
        exact ⟨ht.1.symm, t, ht.2⟩

/-- Fuel irrelevance for the replacement scanner (nonempty pattern). -/
theorem replaceAllGo_fuel (pat rep : Str) (hne : pat ≠ []) :
    ∀ (f1 : Nat) (s : Str) (f2 : Nat), s.length ≤ f1 → s.length ≤ f2 →
      replaceAllGo pat rep f1 s = replaceAllGo pat rep f2 s := by
  intro f1
  induction f1 with
  | zero =>
    intro s f2 h1 _
    have hs : s = [] := List.length_eq_zero.1 (Nat.le_zero.1 h1)
    subst hs
    cases f2 <;> rfl
  | succ f1 ih =>
    intro s f2 h1 h2
    cases s with
    | nil => cases f2 <;> rfl
    | cons c rest =>
      cases f2 with
      | zero => simp at h2
      | succ f2 =>
        simp only [List.length_cons] at h1 h2
        have hp1 : 1 ≤ pat.length := by
          cases pat with
          | nil => exact absurd rfl hne
          | cons a b => simp
        simp only [replaceAllGo]
        by_cases hg : (!pat.isEmpty && strStarts pat (c :: rest)) = true
        · rw [if_pos hg, if_pos hg]
          have hd1 : ((c :: rest).drop pat.length).length ≤ f1 := by
            rw [List.length_drop]
            simp only [List.length_cons]
            omega
          have hd2 : ((c :: rest).drop pat.length).length ≤ f2 := by
            rw [List.length_drop]
            simp only [List.length_cons]
            omega
          rw [ih _ f2 hd1 hd2]
        · rw [if_neg hg, if_neg hg]
          rw [ih rest f2 (by omega) (by omega)]

end Inglish

namespace Inglish

/-- The replacement scanner copies a block at whose positions the pattern
does not start. -/
theorem replaceAllGo_copy (pat rep : Str) :
    ∀ (w : Str) (fuel : Nat) (s : Str),
      (w ++ s).length ≤ fuel →
      (∀ k, k < w.length → strStarts pat (w.drop k ++ s) = false) →
      replaceAllGo pat rep fuel (w ++ s) =
        w ++ replaceAllGo pat rep (fuel - w.length) s := by
  intro w
  induction w with
  | nil =>
    intro fuel s _ _
    rfl
  | cons c w' ih =>
    intro fuel s hlen hnm
    cases fuel with
    | zero =>
      simp only [List.cons_append, List.length_cons] at hlen
      omega
    | succ f =>
      have hm0 : strStarts pat (c :: (w' ++ s)) = false := by
        have := hnm 0 (by simp)
        simpa using this
      rw [List.cons_append]
      simp only [replaceAllGo]
      rw [if_neg (by simp [hm0])]
      have hlen' : (w' ++ s).length ≤ f := by
        simp only [List.cons_append, List.length_cons] at hlen
        omega
      have hnm' : ∀ k, k < w'.length →
          strStarts pat (w'.drop k ++ s) = false := by
        intro k hk
        have := hnm (k + 1) (by simp; omega)
        simpa using this
      rw [ih f s hlen' hnm']
      simp only [List.length_cons]
      have hfe : f - w'.length = f + 1 - (w'.length + 1) := by omega
      rw [hfe]
      rfl

/-- The chunk image of pass-3 restoration of one sentinel index. -/
def replChunk (i : Nat) (rep : Str) : Chunk → Chunk
  | Chunk.sent j => if j = i then Chunk.plain rep else Chunk.sent j
  | Chunk.plain p => Chunk.plain p

/-- The replacement scanner fires on a leading pattern occurrence. -/
theorem replaceAllGo_head_match (pat rep : Str) (hne : pat ≠ [])
    (fuel : Nat) (s : Str) :
    replaceAllGo pat rep (fuel + 1) (pat ++ s) =
      rep ++ replaceAllGo pat rep fuel s := by
  cases hp : pat with
  | nil => exact absurd hp hne
  | cons p0 pt =>
    rw [List.cons_append]
    simp only [replaceAllGo]
    rw [if_pos ?hguard]
    case hguard =>
      rw [Bool.and_eq_true]
      refine ⟨by simp, ?_⟩
      rw [← List.cons_append, ← hp]
      exact (strStarts_iff _ _).2 ⟨s, rfl⟩
    rw [← List.cons_append, ← hp]
    have hdrop : (pat ++ s).drop pat.length = s := List.drop_left _ _
    rw [hdrop]

/-- An empty render stays empty under the pass-3 chunk map. -/
theorem render_nil_map (i : Nat) (rep : Str) :
    ∀ cs : List Chunk, render cs = [] →
      render (cs.map (replChunk i rep)) = [] := by
  intro cs
  induction cs with
  | nil => intro _; rfl
  | cons c0 cs2 ih =>
    intro h
    cases c0 with
    | plain p =>
      simp only [render, renderChunk, List.append_eq_nil] at h
      simp only [List.map_cons, replChunk, render, renderChunk,
        List.append_eq_nil]
      exact ⟨h.1, ih h.2⟩
    | sent j =>
      exfalso
      simp only [render, renderChunk, sentinel, List.cons_append,
        List.append_assoc] at h
      exact List.cons_ne_nil _ _ h

/-- `result.replace(sentinel i, rep)` on a well-formed render replaces
exactly the `i`-sentinel chunks. -/
theorem replaceAll_render (i : Nat) (rep : Str) :
    ∀ (fuel : Nat) (cs : List Chunk) (s : Str),
      s.length ≤ fuel → s = render cs → (∀ c ∈ cs, chunkOK c) →
      replaceAllGo (sentinel i) rep fuel s =
        render (cs.map (replChunk i rep)) := by
  intro fuel
  induction fuel with
  | zero =>
    intro cs s hlen hs hok
    have hse : s = [] := List.length_eq_zero.1 (Nat.le_zero.1 hlen)
    subst hse
    show ([] : Str) = _
    rw [render_nil_map i rep cs hs.symm]
  | succ fuel ihF =>
    intro cs
    induction cs with
    | nil =>
      intro s hlen hs hok
      have hse : s = [] := by simpa [render] using hs
      subst hse
      rfl
    | cons c0 cs2 ihC =>
      cases c0 with
      | plain p =>
        cases p with
        | nil =>
          intro s hlen hs hok
          have hs2 : s = render cs2 := by simpa [render, renderChunk] using hs
          rw [ihC s hlen hs2 (fun c hc => hok c (List.mem_cons_of_mem _ hc))]
          rfl
        | cons ch p' =>
          intro s hlen hs hok
          have hr : render (Chunk.plain (ch :: p') :: cs2) =
            ch :: (p' ++ render cs2) := rfl
          subst hs
          rw [hr] at hlen ⊢
          have hch : ch ≠ '\x02' := by
            intro h
            exact (hok (Chunk.plain (ch :: p')) (List.mem_cons_self _ _)).1
              (h ▸ List.mem_cons_self _ _)
          have hnm : strStarts (sentinel i) (ch :: (p' ++ render cs2)) =
              false := by
            simp only [sentinel, List.cons_append, strStarts,
              Bool.and_eq_false_iff]
            left
            simp only [beq_eq_false_iff_ne, ne_eq]
            exact fun h => hch h.symm
          simp only [replaceAllGo]
          rw [if_neg (by simp [hnm])]
          have := ihF (Chunk.plain p' :: cs2) (p' ++ render cs2)
            (by simp only [List.length_cons] at hlen; omega) rfl
            (fun c hc => by
              rcases List.mem_cons.1 hc with hc | hc
              · subst hc
                have hpok := hok (Chunk.plain (ch :: p'))
                  (List.mem_cons_self _ _)
                exact ⟨fun hm => hpok.1 (List.mem_cons_of_mem _ hm),
                  fun hm => hpok.2 (List.mem_cons_of_mem _ hm)⟩
              · exact hok c (List.mem_cons_of_mem _ hc))
          rw [this]
          rfl
      | sent j =>
        intro s hlen hs hok
        have hr : render (Chunk.sent j :: cs2) =
          sentinel j ++ render cs2 := rfl
        subst hs
        rw [hr] at hlen ⊢
        have hslen : 1 ≤ (sentinel j).length := by
          simp [sentinel]
        have hrlen : (render cs2).length ≤ fuel := by
          rw [List.length_append] at hlen
          omega
        by_cases hij : j = i
        · subst hij
          rw [replaceAllGo_head_match (sentinel j) rep
            (fun h => by rw [h] at hslen; simp at hslen) fuel (render cs2)]
          rw [ihF cs2 (render cs2) hrlen rfl
            (fun c hc => hok c (List.mem_cons_of_mem _ hc))]
          show rep ++ _ = render (replChunk j rep (Chunk.sent j) ::
            cs2.map (replChunk j rep))
          simp [replChunk, render, renderChunk]
        · rw [replaceAllGo_copy (sentinel i) rep (sentinel j) (fuel + 1)
            (render cs2) hlen ?hnm]
          case hnm =>
            intro k hk
            cases k with
            | zero =>
              simp only [List.drop_zero]
              rw [Bool.eq_false_iff]
              intro hst
              obtain ⟨t, ht⟩ := (strStarts_iff _ _).1 hst
              obtain ⟨hij2, -⟩ := sentinel_align ht.symm
              exact hij hij2.symm
            | succ k =>
              have hk2 : k ≤ (natRepr j).length := by
                simp only [sentinel, List.length_cons, List.length_append,
                  List.cons_append, List.length_nil] at hk
                omega
              have hdrop : (sentinel j).drop (k + 1) =
                  (natRepr j).drop k ++ ['\x03'] := by
                simp only [sentinel, List.cons_append, List.drop_succ_cons]
                rw [List.drop_append_of_le_length hk2]
              rw [hdrop]
              cases hu : (natRepr j).drop k with
              | nil =>
                simp only [List.nil_append, List.singleton_append,
                  List.cons_append]
                simp only [sentinel, List.cons_append, strStarts]
                rw [Bool.and_eq_false_iff]
                left
                simp
              | cons d u' =>
                have hd : isDigitCh d = true := by
                  apply natRepr_digits j
                  apply List.mem_of_mem_drop
                  rw [hu]
                  exact List.mem_cons_self _ _
                simp only [List.cons_append, List.append_assoc,
                  List.singleton_append]
                simp only [sentinel, List.cons_append, strStarts]
                rw [Bool.and_eq_false_iff]
                left
                rw [beq_eq_false_iff_ne]
                intro h
                rw [← h] at hd
                simp [isDigitCh] at hd
          have hflen : (render cs2).length ≤ fuel + 1 -
              (sentinel j).length := by
            rw [List.length_append] at hlen
            omega
          rw [replaceAllGo_fuel (sentinel i) rep
            (by
              intro h
              have := congrArg List.length h
              simp [sentinel] at this)
            (fuel + 1 - (sentinel j).length) (render cs2) fuel hflen
            (by omega)]
          rw [ihF cs2 (render cs2) (by omega) rfl
            (fun c hc => hok c (List.mem_cons_of_mem _ hc))]
          show sentinel j ++ _ = render (replChunk i rep (Chunk.sent j) ::
            cs2.map (replChunk i rep))
          simp only [replChunk, if_neg hij, render, renderChunk]

end Inglish

namespace Inglish

theorem sentIdx_mem_iff : ∀ (cs : List Chunk) (j : Nat),
    j ∈ sentIdx cs ↔ Chunk.sent j ∈ cs := by
  intro cs j
  induction cs with
  | nil => simp [sentIdx]
  | cons c0 cs2 ih =>
    cases c0 with
    | plain p =>
      simp only [sentIdx, List.mem_cons, ih]
      constructor
      · exact Or.inr
      · rintro (h | h)
        · cases h
        · exact h
    | sent i =>
      simp only [sentIdx, List.mem_cons, ih]
      constructor
      · rintro (h | h)
        · exact Or.inl (by rw [h])
        · exact Or.inr h
      · rintro (h | h)
        · cases h
          exact Or.inl rfl
        · exact Or.inr h

theorem sentIdx_map_repl (i : Nat) (rep : Str) :
    ∀ (cs : List Chunk) (j : Nat),
      j ∈ sentIdx (cs.map (replChunk i rep)) ↔
        (j ∈ sentIdx cs ∧ j ≠ i) := by
  intro cs j
  induction cs with
  | nil => simp [sentIdx]
  | cons c0 cs2 ih =>
    cases c0 with
    | plain p =>
      simpa [replChunk, sentIdx] using ih
    | sent k =>
      by_cases hk : k = i
      · subst hk
        simp only [List.map_cons, replChunk, if_pos rfl, sentIdx, ih,
          List.mem_cons]
        constructor
        · exact fun h => ⟨Or.inr h.1, h.2⟩
        · rintro ⟨h | h, hne⟩
          · exact absurd h hne
          · exact ⟨h, hne⟩
      · simp only [List.map_cons, replChunk, if_neg hk, sentIdx, ih,
          List.mem_cons]
        constructor
        · rintro (h | h)
          · exact ⟨Or.inl h, h ▸ hk⟩
          · exact ⟨Or.inr h.1, h.2⟩
        · rintro ⟨h | h, hne⟩
          · exact Or.inl h
          · exact Or.inr ⟨h, hne⟩

theorem replChunk_plain_mem {d : Str} {cs : List Chunk} (i : Nat) (rep : Str)
    (h : Chunk.plain d ∈ cs) :
    Chunk.plain d ∈ cs.map (replChunk i rep) := by
  have := List.mem_map_of_mem (replChunk i rep) h
  simpa [replChunk] using this

theorem replChunk_sent_mem {j i : Nat} {cs : List Chunk} (rep : Str)
    (hne : j ≠ i) (h : Chunk.sent j ∈ cs) :
    Chunk.sent j ∈ cs.map (replChunk i rep) := by
  have := List.mem_map_of_mem (replChunk i rep) h
  simpa [replChunk, if_neg hne] using this

theorem replChunk_hit {i : Nat} {cs : List Chunk} (rep : Str)
    (h : Chunk.sent i ∈ cs) :
    Chunk.plain rep ∈ cs.map (replChunk i rep) := by
  have := List.mem_map_of_mem (replChunk i rep) h
  simpa [replChunk] using this

theorem replChunk_ok {i : Nat} {rep : Str} {cs : List Chunk}
    (hrep2 : '\x02' ∉ rep) (hrep3 : '\x03' ∉ rep)
    (hok : ∀ c ∈ cs, chunkOK c) :
    ∀ c ∈ cs.map (replChunk i rep), chunkOK c := by
  intro c hc
  obtain ⟨c0, hc0, hceq⟩ := List.mem_map.1 hc
  subst hceq
  cases c0 with
  | plain p => exact hok _ hc0
  | sent j =>
    by_cases hj : j = i
    · subst hj
      simp only [replChunk, if_pos rfl]
      exact ⟨hrep2, hrep3⟩
    · simp only [replChunk, if_neg hj]
      trivial

/-- A well-formed render with no sentinel left is delimiter-free. -/
theorem render_noDelim : ∀ cs : List Chunk,
    (∀ c ∈ cs, chunkOK c) → sentIdx cs = [] →
    '\x02' ∉ render cs ∧ '\x03' ∉ render cs := by
  intro cs
  induction cs with
  | nil => intro _ _; simp [render]
  | cons c0 cs2 ih =>
    intro hok hidx
    cases c0 with
    | plain p =>
      have h0 := hok (Chunk.plain p) (List.mem_cons_self _ _)
      have h2 := ih (fun c hc => hok c (List.mem_cons_of_mem _ hc))
        (by simpa [sentIdx] using hidx)
      show '\x02' ∉ p ++ render cs2 ∧ '\x03' ∉ p ++ render cs2
      constructor
      · intro hm
        rcases List.mem_append.1 hm with hm | hm
        · exact h0.1 hm
        · exact h2.1 hm
      · intro hm
        rcases List.mem_append.1 hm with hm | hm
        · exact h0.2 hm
        · exact h2.2 hm
    | sent i =>
      exfalso
      simp [sentIdx] at hidx

end Inglish

namespace Inglish

/-- Pass-1 fold invariant: folding the stash substitution over a term list
whose keys are nonempty, delimiter-free and not all-digit preserves the
chunk decomposition; afterwards every minted index has a live sentinel,
every live sentinel is minted, minted values are delimiter-free, and
minted pairs with equal index carry equal values. -/
theorem stashFold :
    ∀ (terms : List (Str × Str)),
      (∀ td ∈ terms, td.1 ≠ [] ∧ '\x02' ∉ td.1 ∧ '\x03' ∉ td.1 ∧
        (∃ c ∈ td.1, isDigitCh c = false)) →
      (∀ td ∈ terms, '\x02' ∉ td.2 ∧ '\x03' ∉ td.2) →
      ∀ (s : Str) (minted0 : List (Nat × Str)) (n0 : Nat) (cs : List Chunk),
      s = render cs → (∀ c ∈ cs, chunkOK c) →
      (∀ j ∈ sentIdx cs, j < n0) →
      (∀ p ∈ minted0, p.1 ∈ sentIdx cs) →
      (∀ j ∈ sentIdx cs, ∃ d, (j, d) ∈ minted0) →
      (∀ p ∈ minted0, '\x02' ∉ p.2 ∧ '\x03' ∉ p.2) →
      (∀ p ∈ minted0, ∀ q ∈ minted0, p.1 = q.1 → p.2 = q.2) →
      ∃ cs' : List Chunk,
        (terms.foldl (fun acc td =>
          let r := stashSubGo td.1 td.2 acc.1.length none acc.1 acc.2.2
          (r.1, acc.2.1 ++ r.2.1, r.2.2)) (s, minted0, n0)).1
            = render cs' ∧
        (∀ c ∈ cs', chunkOK c) ∧
        (∀ j ∈ sentIdx cs', j <
          (terms.foldl (fun acc td =>
            let r := stashSubGo td.1 td.2 acc.1.length none acc.1 acc.2.2
            (r.1, acc.2.1 ++ r.2.1, r.2.2)) (s, minted0, n0)).2.2) ∧
        (∀ p ∈ (terms.foldl (fun acc td =>
            let r := stashSubGo td.1 td.2 acc.1.length none acc.1 acc.2.2
            (r.1, acc.2.1 ++ r.2.1, r.2.2)) (s, minted0, n0)).2.1,
          p.1 ∈ sentIdx cs') ∧
        (∀ j ∈ sentIdx cs', ∃ d, (j, d) ∈
          (terms.foldl (fun acc td =>
            let r := stashSubGo td.1 td.2 acc.1.length none acc.1 acc.2.2
            (r.1, acc.2.1 ++ r.2.1, r.2.2)) (s, minted0, n0)).2.1) ∧
        (∀ p ∈ (terms.foldl (fun acc td =>
            let r := stashSubGo td.1 td.2 acc.1.length none acc.1 acc.2.2
            (r.1, acc.2.1 ++ r.2.1, r.2.2)) (s, minted0, n0)).2.1,
          '\x02' ∉ p.2 ∧ '\x03' ∉ p.2) ∧
        (∀ p ∈ (terms.foldl (fun acc td =>
            let r := stashSubGo td.1 td.2 acc.1.length none acc.1 acc.2.2
            (r.1, acc.2.1 ++ r.2.1, r.2.2)) (s, minted0, n0)).2.1,
          ∀ q ∈ (terms.foldl (fun acc td =>
            let r := stashSubGo td.1 td.2 acc.1.length none acc.1 acc.2.2
            (r.1, acc.2.1 ++ r.2.1, r.2.2)) (s, minted0, n0)).2.1,
          p.1 = q.1 → p.2 = q.2) := by
  intro terms
  induction terms with
  | nil =>
    intro _ _ s minted0 n0 cs hs hok hidx hm1 hm2 hm3 hm4
    exact ⟨cs, hs, hok, hidx, hm1, hm2, hm3, hm4⟩
  | cons td terms' ih =>
    intro hterms hvals s minted0 n0 cs hs hok hidx hm1 hm2 hm3 hm4
    obtain ⟨htne, ht2, ht3, htnd⟩ := hterms td (List.mem_cons_self _ _)
    obtain ⟨hv2, hv3⟩ := hvals td (List.mem_cons_self _ _)
    subst hs
    obtain ⟨cs1, g1, g2, g3, g4, g5, g6, g7⟩ :=
      subGo_stash td.1 stashLA htne ht2 ht3 htnd (render cs).length cs
        (render cs) none n0 (Nat.le_refl _) rfl hok hidx
    simp only [List.foldl_cons]
    have hstep : stashSubGo td.1 td.2 (render cs).length none (render cs) n0
        = ((subGo td.1 stashLA sentinel (render cs).length none
            (render cs) n0).1,
          (subGo td.1 stashLA sentinel (render cs).length none
            (render cs) n0).2.1.map (fun i => (i, td.2)),
          (subGo td.1 stashLA sentinel (render cs).length none
            (render cs) n0).2.2) := rfl
    rw [hstep]
    apply ih (fun u hu => hterms u (List.mem_cons_of_mem _ hu))
      (fun u hu => hvals u (List.mem_cons_of_mem _ hu))
      _ _ _ cs1 g1 g2
    · intro j hj
      rcases g4 j hj with h | h
      · exact lt_of_lt_of_le (hidx j h) g3
      · exact h.2
    · intro p hp
      rcases List.mem_append.1 hp with h | h
      · exact g5 _ (hm1 p h)
      · obtain ⟨k, hk, hkeq⟩ := List.mem_map.1 h
        have := (g6 k).1 hk
        rw [← hkeq]
        exact g7 k this.1 this.2
    · intro j hj
      rcases g4 j hj with h | h
      · obtain ⟨d, hd⟩ := hm2 j h
        exact ⟨d, List.mem_append.2 (Or.inl hd)⟩
      · refine ⟨td.2, List.mem_append.2 (Or.inr ?_)⟩
        apply List.mem_map.2
        exact ⟨j, (g6 j).2 h, rfl⟩
    · intro p hp
      rcases List.mem_append.1 hp with h | h
      · exact hm3 p h
      · obtain ⟨k, hk, hkeq⟩ := List.mem_map.1 h
        rw [← hkeq]
        exact ⟨hv2, hv3⟩
    · intro p hp q hq hpq
      rcases List.mem_append.1 hp with h | h <;>
        rcases List.mem_append.1 hq with h' | h'
      · exact hm4 p h q h' hpq
      · exfalso
        obtain ⟨k, hk, hkeq⟩ := List.mem_map.1 h'
        have hklo := ((g6 k).1 hk).1
        have hplo := hidx p.1 (hm1 p h)
        rw [← hkeq] at hpq
        simp only at hpq
        omega
      · exfalso
        obtain ⟨k, hk, hkeq⟩ := List.mem_map.1 h
        have hklo := ((g6 k).1 hk).1
        have hqlo := hidx q.1 (hm1 q h')
        rw [← hkeq] at hpq
        simp only at hpq
        omega
      · obtain ⟨k, hk, hkeq⟩ := List.mem_map.1 h
        obtain ⟨k', hk', hkeq'⟩ := List.mem_map.1 h'
        rw [← hkeq, ← hkeq']

end Inglish

namespace Inglish

/-- Pass-2 fold: word-map substitutions with delimiter-free keys (nonempty,
not all digits) and values keep the chunk decomposition and the exact
sentinel indices. -/
theorem wordFold :
    ∀ (entries : List (Str × Str)),
      (∀ td ∈ entries, td.1 ≠ [] ∧ '\x02' ∉ td.1 ∧ '\x03' ∉ td.1 ∧
        (∃ c ∈ td.1, isDigitCh c = false) ∧ '\x02' ∉ td.2 ∧ '\x03' ∉ td.2) →
      ∀ (s : Str) (cs : List Chunk),
      s = render cs → (∀ c ∈ cs, chunkOK c) →
      ∃ cs' : List Chunk,
        entries.foldl (fun r td => wordSub td.1 td.2 r) s = render cs' ∧
        (∀ c ∈ cs', chunkOK c) ∧
        sentIdx cs' = sentIdx cs := by
  intro entries
  induction entries with
  | nil =>
    intro _ s cs hs hok
    exact ⟨cs, hs, hok, rfl⟩
  | cons td entries' ih =>
    intro hent s cs hs hok
    obtain ⟨htne, ht2, ht3, htnd, hv2, hv3⟩ :=
      hent td (List.mem_cons_self _ _)
    subst hs
    obtain ⟨cs1, g1, g2, g3⟩ := subGo_word td.1 wordLA td.2 htne ht2 ht3
      htnd hv2 hv3 (render cs).length cs (render cs) none 0
      (Nat.le_refl _) rfl hok
    simp only [List.foldl_cons]
    have hstep : wordSub td.1 td.2 (render cs) =
        (subGo td.1 wordLA (fun _ => td.2) (render cs).length none
          (render cs) 0).1 := rfl
    rw [hstep]
    obtain ⟨cs', h1, h2, h3⟩ :=
      ih (fun u hu => hent u (List.mem_cons_of_mem _ hu)) _ cs1 g1 g2
    exact ⟨cs', h1, h2, by rw [h3, g3]⟩

/-- Pass-3 fold: restoring the minted sentinels (equal indices carrying
equal values) replaces every live minted sentinel with its value; the
remaining sentinels are the unminted ones. -/
theorem restoreFold :
    ∀ (minted : List (Nat × Str)) (s : Str) (cs : List Chunk),
      s = render cs → (∀ c ∈ cs, chunkOK c) →
      (∀ p ∈ minted, '\x02' ∉ p.2 ∧ '\x03' ∉ p.2) →
      (∀ p ∈ minted, ∀ q ∈ minted, p.1 = q.1 → p.2 = q.2) →
      ∃ cs' : List Chunk,
        restorePass minted s = render cs' ∧
        (∀ c ∈ cs', chunkOK c) ∧
        (∀ j ∈ sentIdx cs', j ∈ sentIdx cs ∧ ∀ p ∈ minted, j ≠ p.1) ∧
        (∀ p ∈ minted,
          (Chunk.sent p.1 ∈ cs ∨ Chunk.plain p.2 ∈ cs) →
          Chunk.plain p.2 ∈ cs') ∧
        (∀ d : Str, Chunk.plain d ∈ cs → Chunk.plain d ∈ cs') := by
  intro minted
  induction minted with
  | nil =>
    intro s cs hs hok _ _
    refine ⟨cs, hs, hok, ?_, ?_, fun d hd => hd⟩
    · intro j hj
      exact ⟨hj, fun p hp => absurd hp (List.not_mem_nil p)⟩
    · intro p hp
      exact absurd hp (List.not_mem_nil p)
  | cons pd minted' ih =>
    intro s cs hs hok hvals hsame
    obtain ⟨hv2, hv3⟩ := hvals pd (List.mem_cons_self _ _)
    subst hs
    have hstep : restorePass (pd :: minted') (render cs) =
        restorePass minted'
          (replaceAll (render cs) (sentinel pd.1) pd.2) := rfl
    rw [hstep]
    have hrepl : replaceAll (render cs) (sentinel pd.1) pd.2 =
        render (cs.map (replChunk pd.1 pd.2)) := by
      unfold replaceAll
      exact replaceAll_render pd.1 pd.2 (render cs).length cs (render cs)
        (Nat.le_refl _) rfl hok
    rw [hrepl]
    obtain ⟨cs', h1, h2, h3, h4, h5⟩ := ih _ (cs.map (replChunk pd.1 pd.2))
      rfl (replChunk_ok hv2 hv3 hok)
      (fun p hp => hvals p (List.mem_cons_of_mem _ hp))
      (fun p hp q hq => hsame p (List.mem_cons_of_mem _ hp) q
        (List.mem_cons_of_mem _ hq))
    refine ⟨cs', h1, h2, ?_, ?_, ?_⟩
    · intro j hj
      obtain ⟨hj1, hj2⟩ := h3 j hj
      obtain ⟨hj3, hj4⟩ := (sentIdx_map_repl pd.1 pd.2 cs j).1 hj1
      refine ⟨hj3, ?_⟩
      intro p hp
      rcases List.mem_cons.1 hp with hp | hp
      · rw [hp]
        exact hj4
      · exact hj2 p hp
    · intro p hp hlive
      rcases List.mem_cons.1 hp with hp | hp
      · subst hp
        apply h5
        rcases hlive with h | h
        · exact replChunk_hit p.2 h
        · exact replChunk_plain_mem _ _ h
      · apply h4 p hp
        rcases hlive with h | h
        · by_cases hidx : p.1 = pd.1
          · right
            have hval : p.2 = pd.2 :=
              hsame p (List.mem_cons_of_mem _ hp) pd
                (List.mem_cons_self _ _) hidx
            rw [hval]
            exact replChunk_hit pd.2 (hidx ▸ h)
          · left
            exact replChunk_sent_mem pd.2 hidx h
        · right
          exact replChunk_plain_mem _ _ h
    · intro d hd
      exact h5 d (replChunk_plain_mem _ _ hd)

end Inglish

namespace Inglish

/-- The conditions every entry of the reference word map satisfies. -/
theorem romanTable_ok : ∀ td ∈ romanTable, td.1 ≠ [] ∧ '\x02' ∉ td.1 ∧
    '\x03' ∉ td.1 ∧ (∃ c ∈ td.1, isDigitCh c = false) ∧
    '\x02' ∉ td.2 ∧ '\x03' ∉ td.2 := by
  decide

/-- C3 (amended): for delimiter-free input and a glossary whose keys are
nonempty, delimiter-free and not entirely made of digits, and whose values
are delimiter-free, the reference three-pass conversion yields output with
no sentinel delimiter characters in which every stashed occurrence appears
as its exact glossary phonetic string.  On the original claim, an
all-digit glossary key (such as "0") matches the decimal index inside an
already-minted sentinel and breaks the stash/restore cycle. -/
theorem claim_C3 (termMap : List (Str × Str)) (text : Str)
    (htext2 : '\x02' ∉ text) (htext3 : '\x03' ∉ text)
    (hkeys : ∀ td ∈ termMap, td.1 ≠ [] ∧ '\x02' ∉ td.1 ∧ '\x03' ∉ td.1 ∧
      (∃ c ∈ td.1, isDigitCh c = false))
    (hvals : ∀ td ∈ termMap, '\x02' ∉ td.2 ∧ '\x03' ∉ td.2) :
    ('\x02' ∉ toDevanagariRef termMap text ∧
     '\x03' ∉ toDevanagariRef termMap text) ∧
    (∀ p ∈ (stashPass termMap text).2,
      occursIn p.2 (toDevanagariRef termMap text)) := by
  have hperm := stableSort_perm keyLenGe termMap
  obtain ⟨csP, f1, f2, f3, f4, f5, f6, f7⟩ :=
    stashFold (stableSort keyLenGe termMap)
      (fun td htd => hkeys td (hperm.mem_iff.1 htd))
      (fun td htd => hvals td (hperm.mem_iff.1 htd))
      text [] 0 [Chunk.plain text]
      (by simp [render, renderChunk])
      (by
        intro c hc
        rcases List.mem_singleton.1 hc with h
        subst h
        exact ⟨htext2, htext3⟩)
      (by intro j hj; cases hj)
      (by intro p hp; cases hp)
      (by intro j hj; cases hj)
      (by intro p hp; cases hp)
      (by intro p hp; cases hp)
  have hp1 : stashPass termMap text =
      (((stableSort keyLenGe termMap).foldl (fun acc td =>
        let r := stashSubGo td.1 td.2 acc.1.length none acc.1 acc.2.2
        (r.1, acc.2.1 ++ r.2.1, r.2.2)) (text, [], 0)).1,
       ((stableSort keyLenGe termMap).foldl (fun acc td =>
        let r := stashSubGo td.1 td.2 acc.1.length none acc.1 acc.2.2
        (r.1, acc.2.1 ++ r.2.1, r.2.2)) (text, [], 0)).2.1) := rfl
  obtain ⟨csR, r1, r2, r3⟩ := wordFold romanSorted
    (fun td htd => romanTable_ok td
      ((stableSort_perm keyLenGe romanTable).mem_iff.1 htd))
    _ csP f1 f2
  obtain ⟨csF, e1, e2, e3, e4, e5⟩ := restoreFold
    ((stableSort keyLenGe termMap).foldl (fun acc td =>
      let r := stashSubGo td.1 td.2 acc.1.length none acc.1 acc.2.2
      (r.1, acc.2.1 ++ r.2.1, r.2.2)) (text, [], 0)).2.1
    _ csR r1 r2 f6 f7
  have hout : toDevanagariRef termMap text = render csF := by
    show restorePass (stashPass termMap text).2
      (romanPass (stashPass termMap text).1) = render csF
    rw [hp1]
    exact e1
  have hidxF : sentIdx csF = [] := by
    rw [List.eq_nil_iff_forall_not_mem]
    intro j hj
    obtain ⟨hj1, hj2⟩ := e3 j hj
    rw [r3] at hj1
    obtain ⟨d, hd⟩ := f5 j hj1
    exact hj2 (j, d) hd rfl
  have hnd := render_noDelim csF e2 hidxF
  constructor
  · rw [hout]
    exact hnd
  · intro p hp
    rw [hout]
    apply occursIn_render
    apply e4 p (by rw [hp1] at hp; exact hp)
    left
    rw [← sentIdx_mem_iff csR p.1, r3]
    exact f4 p (by rw [hp1] at hp; exact hp)

end Inglish

namespace Inglish

/-- C3 counterexample: with delimiter-free input `"array x"` and glossary
`{"array x": "A", "0": "Z"}`, pass 1 first stashes `"array x"` as
`"\x020\x03"`, then the all-digit key `"0"` matches the decimal index
inside that sentinel (its delimiters satisfy the word-boundary
lookarounds) and is stashed too; restoration then yields `"\x02Z\x03"`:
the output contains sentinel delimiters and the phonetic `"A"` of the
stashed term is lost. -/
theorem counterexample_C3 :
    ('\x02' ∉ str "array x" ∧ '\x03' ∉ str "array x") ∧
    toDevanagariRef [(str "array x", str "A"), (str "0", str "Z")]
      (str "array x") = ['\x02', 'Z', '\x03'] ∧
    '\x02' ∈ toDevanagariRef [(str "array x", str "A"), (str "0", str "Z")]
      (str "array x") ∧
    'A' ∉ toDevanagariRef [(str "array x", str "A"), (str "0", str "Z")]
      (str "array x") := by
  refine ⟨by decide, by decide, by decide, by decide⟩

/-- C3 witness: glossary `{"array": "ऐरे"}` on `"array hai"` satisfies the
amended hypotheses; the conversion gives delimiter-free output in which
the stashed phonetic `"ऐरे"` occurs. -/
theorem witness_C3 :
    ('\x02' ∉ toDevanagariRef [(str "array", str "ऐरे")] (str "array hai") ∧
     '\x03' ∉ toDevanagariRef [(str "array", str "ऐरे")] (str "array hai")) ∧
    occursIn (str "ऐरे")
      (toDevanagariRef [(str "array", str "ऐरे")] (str "array hai")) := by
  have h := claim_C3 [(str "array", str "ऐरे")] (str "array hai")
    (by decide) (by decide) (by decide) (by decide)
  exact ⟨h.1, h.2 (0, str "ऐरे") (by decide)⟩

end Inglish

namespace Inglish

/-! ### BaselineTranslator -/

/-- `\w` (on the ASCII input the baseline translator receives). -/
def isWordCh (c : Char) : Bool :=
  (65 ≤ c.toNat && c.toNat ≤ 90) || (97 ≤ c.toNat && c.toNat ≤ 122) ||
  (48 ≤ c.toNat && c.toNat ≤ 57) || c == '_'

/-- One unit of the possession pattern: a maximal `[\w]+` run or a
complete nonempty bracket group `\[[^\]]+\]`. -/
def unitAt (s : Str) : Option (Str × Str) :=
  match s with
  | [] => none
  | c :: rest =>
    if isWordCh c then
      some ((c :: rest).takeWhile isWordCh, (c :: rest).dropWhile isWordCh)
    else if c = '[' then
      match splitAtRB rest with
      | some (cnt, after) =>
        if cnt.isEmpty then none
        else some ('[' :: cnt ++ [']'], after)
      | none => none
    else none

def punct3 (c : Char) : Bool := c == '.' || c == '!' || c == '?'

/-- `([.!?]*)$`: greedy trailing punctuation, then the end anchor (end of
string or just before a final newline); returns the captured punctuation
and the unconsumed remainder. -/
def tailOK3 (q : Str) : Option (Str × Str) :=
  if q.all punct3 then some (q, [])
  else if q.getLast? == some '\n' && q.dropLast.all punct3 then
    some (q.dropLast, ['\n'])
  else none

/-- The negative lookahead `(?!been\b)` (case-insensitive). -/
def notBeen (q : Str) : Bool :=
  !(lowerStr (q.take 4) == str "been" &&
    (match q.drop 4 with
     | [] => true
     | d :: _ => !isWordCh d))

/-- Group 2 of the possession pattern with the pattern tail: lazily add
`\s+`-separated units until `([.!?]*)$` matches. -/
def g2Go : Nat → Str → Str → Option (Str × Str × Str)
  | 0, _, _ => none
  | fuel + 1, acc, p =>
    match tailOK3 p with
    | some (P, rem) => some (acc, P, rem)
    | none =>
      let ws := p.takeWhile pyIsSpace
      if ws.isEmpty then none
      else
        match unitAt (p.dropWhile pyIsSpace) with
        | some (u, p2) => g2Go fuel (acc ++ ws ++ u) p2
        | none => none

/-- The continuation `\s+has\s+(?!been\b)` followed by group 2 and the
tail, tried after each lazy extension of group 1. -/
def hasCont (fuel : Nat) (p : Str) : Option (Str × Str × Str) :=
  if (p.takeWhile pyIsSpace).isEmpty then none
  else
    let q := p.dropWhile pyIsSpace
    if lowerStr (q.take 3) == str "has" then
      let q2 := q.drop 3
      if (q2.takeWhile pyIsSpace).isEmpty then none
      else
        let q3 := q2.dropWhile pyIsSpace
        if notBeen q3 then
          match unitAt q3 with
          | some (u, p2) => g2Go fuel u p2
          | none => none
        else none
    else none

/-- Group 1: lazily extended unit sequence; the continuation is tried
before each extension (lazy `(?:\s+U)*?`). -/
def g1Go : Nat → Str → Str → Option (Str × Str × Str × Str)
  | 0, _, _ => none
  | fuel + 1, g1, p =>
    match hasCont (fuel + 1) p with
    | some (g2, P, rem) => some (g1, g2, P, rem)
    | none =>
      let ws := p.takeWhile pyIsSpace
      if ws.isEmpty then none
      else
        match unitAt (p.dropWhile pyIsSpace) with
        | some (u, p2) => g1Go fuel (g1 ++ ws ++ u) p2
        | none => none

/-- `BaselineTranslator._pre_rules`: the possession rewrite
`\1 mein \2 hain\3`, scanning for the leftmost match start. -/
def preRuleGo : Nat → Str → Str
  | 0, s => s
  | fuel + 1, s =>
    match s with
    | [] => []
    | c :: rest =>
      match unitAt (c :: rest) with
      | some (u, p) =>
        match g1Go (fuel + 1) u p with
        | some (g1, g2, P, rem) =>
          g1 ++ str " mein " ++ g2 ++ str " hain" ++ P ++
            preRuleGo fuel rem
        | none => c :: preRuleGo fuel rest
      | none => c :: preRuleGo fuel rest

def preRule (s : Str) : Str := preRuleGo s.length s

/-- The bracket-protection placeholder `__P{n}__`. -/
def protectKey (n : Nat) : Str := str "__P" ++ natRepr n ++ str "__"

/-- Step 2 of `translate`: `re.sub(r'\[([^\]]+)\]', protect, result)`,
recording `key ↦ whole match` in mint order. -/
def protectGo : Nat → Str → Nat → Str × List (Str × Str)
  | 0, s, _ => (s, [])
  | fuel + 1, s, n =>
    match s with
    | [] => ([], [])
    | c :: rest =>
      if c = '[' then
        match splitAtRB rest with
        | some (cnt, after) =>
          if cnt.isEmpty then
            let r := protectGo fuel rest n
            (c :: r.1, r.2)
          else
            let r := protectGo fuel after (n + 1)
            (protectKey n ++ r.1,
             (protectKey n, '[' :: cnt ++ [']']) :: r.2)
        | none =>
          let r := protectGo fuel rest n
          (c :: r.1, r.2)
      else
        let r := protectGo fuel rest n
        (c :: r.1, r.2)

def protectTerms (s : Str) : Str × List (Str × Str) := protectGo s.length s 0

/-- `BaselineTranslator.word_map`, in source order. -/
def wordMap : List (Str × Str) :=
  [ (str "the", []), (str "a", str "ek"), (str "an", str "ek"),
    (str "this", str "is"), (str "that", str "us"),
    (str "these", str "in"), (str "those", str "un"),
    (str "it", str "yeh"), (str "he", str "voh"), (str "she", str "voh"),
    (str "its", str "iske"),
    (str "in", str "mein"), (str "on", str "par"), (str "at", str "par"),
    (str "to", str "ko"), (str "of", str "ka"), (str "from", str "se"),
    (str "with", str "ke saath"), (str "over", str "ke upar"),
    (str "until", str "jab tak"),
    (str "is", str "hai"), (str "are", str "hain"), (str "was", str "tha"),
    (str "were", str "the"), (str "have", str "hain"),
    (str "had", str "tha"), (str "be", str "ho"), (str "been", str "gaya"),
    (str "zero", str "shunya"), (str "one", str "ek"), (str "two", str "do"),
    (str "three", str "teen"), (str "four", str "chaar"),
    (str "five", str "paanch"), (str "six", str "chhe"),
    (str "seven", str "saat"), (str "eight", str "aath"),
    (str "nine", str "nau"), (str "ten", str "das"),
    (str "each", str "har"), (str "every", str "har"),
    (str "all", str "sabhi"), (str "own", str "khud ka"),
    (str "multiple", str "kai"), (str "new", str "naya"),
    (str "same", str "wahi"), (str "first", str "pehla"),
    (str "last", str "aakhri"), (str "next", str "agla"),
    (str "previous", str "pichla"),
    (str "and", str "aur"), (str "or", str "ya"), (str "but", str "lekin"),
    (str "then", str "phir"), (str "after", str "baad"),
    (str "before", str "pehle"), (str "when", str "jab"),
    (str "not", str "nahi"), (str "also", str "bhi"),
    (str "only", str "sirf"), (str "always", str "hamesha"),
    (str "never", str "kabhi nahi"),
    (str "create", str "banao"), (str "use", str "upyog karo"),
    (str "assign", str "assign karo"),
    (str "iterate", str "iterate karo"),
    (str "increment", str "badhao"), (str "decrement", str "ghatao"),
    (str "return", str "return karo"), (str "store", str "store karo"),
    (str "call", str "call karo"), (str "define", str "define karo"),
    (str "declare", str "declare karo"), (str "throw", str "throw karo"),
    (str "run", str "run karo"), (str "execute", str "execute karo"),
    (str "creates", str "banata hai"), (str "uses", str "upyog karta hai"),
    (str "iterates", str "iterate karta hai"),
    (str "incremented", str "badhaya"),
    (str "returns", str "return karta hai"),
    (str "stores", str "store karta hai"),
    (str "calls", str "call karta hai"),
    (str "defines", str "define karta hai"),
    (str "declares", str "declare karta hai"),
    (str "throws", str "throw karta hai"),
    (str "runs", str "run karta hai"),
    (str "executes", str "execute karta hai"),
    (str "contains", str "contain karta hai"),
    (str "extends", str "extend karta hai"),
    (str "implements", str "implement karta hai"),
    (str "continues", str "jaari rehta hai"),
    (str "becomes", str "ban jaata hai"),
    (str "created", str "banaya"), (str "used", str "upyog kiya"),
    (str "assigned", str "assign kiya"),
    (str "iterated", str "iterate kiya"),
    (str "name", str "naam"), (str "time", str "samay"),
    (str "way", str "tarika"), (str "number", str "number"),
    (str "true", str "true"), (str "false", str "false") ]

/-- Step 3, one token: placeholders pass through; otherwise the stripped
lowercase form is looked up and empty mappings drop the token. -/
def substWord (keys : List Str) (w : Str) : Option Str :=
  if keys.any (fun k => k == w) then some w
  else
    match lookupAssoc wordMap (cleanWord w) with
    | some m => if m.isEmpty then none else some m
    | none => some w

/-- One post-bracket rule `\[([^\]]+)\]<mid>\[([^\]]+)\]` →
`[\2]<rep>[\1]` (`mid` is `" of "` or `" in "`). -/
def postRuleGo (mid rep : Str) : Nat → Str → Str
  | 0, s => s
  | fuel + 1, s =>
    match s with
    | [] => []
    | c :: rest =>
      if c = '[' then
        match splitAtRB rest with
        | some (c1, r2) =>
          if !c1.isEmpty && strStarts (mid ++ ['[']) r2 then
            match splitAtRB (r2.drop (mid.length + 1)) with
            | some (c2, r4) =>
              if c2.isEmpty then c :: postRuleGo mid rep fuel rest
              else
                ('[' :: c2 ++ [']']) ++ rep ++ ('[' :: c1 ++ [']']) ++
                  postRuleGo mid rep fuel r4
            | none => c :: postRuleGo mid rep fuel rest
          else c :: postRuleGo mid rep fuel rest
        | none => c :: postRuleGo mid rep fuel rest
      else c :: postRuleGo mid rep fuel rest

def postRule (mid rep s : Str) : Str := postRuleGo mid rep s.length s

/-- `BaselineTranslator._SOV_VERBS` before sorting, in source order. -/
def sovVerbsRaw : List Str :=
  [ str "return karta hai", str "store karta hai",
    str "contain karta hai", str "banata hai", str "upyog karta hai",
    str "iterate karta hai", str "extend karta hai",
    str "implement karta hai", str "call karta hai",
    str "jaari rehta hai", str "ban jaata hai", str "define karta hai",
    str "declare karta hai", str "throw karta hai", str "run karta hai",
    str "execute karta hai" ]

def strLenGe (a b : Str) : Bool := decide (b.length ≤ a.length)

/-- `_SOV_VERBS`: `sorted(key=len, reverse=True)`, stable. -/
def sovVerbs : List Str := stableSort strLenGe sovVerbsRaw

def punct4 (c : Char) : Bool := c == '.' || c == ',' || c == '!' || c == '?'

/-- `([.,!?]*)$` for the SOV pattern. -/
def tailOK4 (q : Str) : Option Str :=
  if q.all punct4 then some q
  else if q.getLast? == some '\n' && q.dropLast.all punct4 then
    some q.dropLast
  else none

/-- Lazy group 2 of the SOV pattern: the shortest nonempty prefix whose
remainder is the punctuation tail. -/
def sovG2 : Nat → Str → Str → Option (Str × Str)
  | 0, _, _ => none
  | fuel + 1, acc, q =>
    match q with
    | [] => none
    | c :: rest =>
      if c = '\n' then none
      else
        match tailOK4 rest with
        | some P => some (acc ++ [c], P)
        | none => sovG2 fuel (acc ++ [c]) rest

/-- When everything after the verb is whitespace, the greedy `\s+`
backtracks and the lazy `(.+?)` takes a single whitespace character: the
last one if it is not a newline, else the one before a final newline.
Group 2 is that character and group 3 is empty. -/
def sovWsTail (w : Str) : Option (Str × Str) :=
  match w.reverse with
  | [] => none
  | c :: w2 =>
    if c = '\n' then
      match w2 with
      | [] => none
      | d :: w3 =>
        if d = '\n' then none
        else if w3.isEmpty then none else some ([d], [])
    else if w2.isEmpty then none else some ([c], [])

/-- The continuation `\s+verb\s+(.+?)([.,!?]*)$` tried at one group-1
split point: the greedy `\s+` first cedes only to a non-space group 2;
if nothing but whitespace follows, it backtracks one step further and
group 2 becomes a single whitespace character. -/
def sovCont (verb rest : Str) : Option (Str × Str) :=
  if !(rest.takeWhile pyIsSpace).isEmpty &&
      strStarts verb (rest.dropWhile pyIsSpace) then
    let r2 := (rest.dropWhile pyIsSpace).drop verb.length
    if !(r2.takeWhile pyIsSpace).isEmpty then
      if (r2.dropWhile pyIsSpace).isEmpty then sovWsTail r2
      else
        sovG2 (r2.dropWhile pyIsSpace).length [] (r2.dropWhile pyIsSpace)
    else none
  else none

/-- Lazy group 1 of the SOV pattern `^(.+?)\s+verb\s+(.+?)([.,!?]*)$`:
at each split, match `\s+`, the literal verb, `\s+`, then group 2. -/
def sovG1 : Nat → Str → Str → Str → Option (Str × Str × Str)
  | 0, _, _, _ => none
  | fuel + 1, verb, acc, rest =>
    match sovCont verb rest with
    | some (g2, P) => some (acc, g2, P)
    | none =>
      match rest with
      | [] => none
      | c :: r2 =>
        if c = '\n' then none else sovG1 fuel verb (acc ++ [c]) r2

/-- `re.match` of the SOV pattern for one verb. -/
def sovMatch (verb : Str) (s : Str) : Option (Str × Str × Str) :=
  match s with
  | [] => none
  | c :: rest =>
    if c = '\n' then none else sovG1 rest.length verb [c] rest

/-- Step 5: the first verb (longest first) matching mid-sentence is moved
to the end, keeping the trailing punctuation after it. -/
def sovStep (s : Str) : Str :=
  match sovVerbs.findSome? (fun v =>
    (sovMatch v s).map (fun r => (v, r))) with
  | some (v, g1, g2, P) => g1 ++ ' ' :: g2 ++ ' ' :: v ++ P
  | none => s

/-- `re.sub(r'\s+', ' ', s)`. -/
def collapseWsGo : Nat → Str → Str
  | 0, s => s
  | fuel + 1, s =>
    match s with
    | [] => []
    | c :: rest =>
      if pyIsSpace c then
        ' ' :: collapseWsGo fuel ((c :: rest).dropWhile pyIsSpace)
      else c :: collapseWsGo fuel rest

def collapseWs (s : Str) : Str := collapseWsGo s.length s

/-- `str.strip()` (whitespace). -/
def pyStrip (s : Str) : Str :=
  ((s.dropWhile pyIsSpace).reverse.dropWhile pyIsSpace).reverse

/-- `BaselineTranslator.translate`: the six-step pipeline plus the final
whitespace normalisation. -/
def translate (text : Str) : Str :=
  let r1 := preRule text
  let pr := protectTerms r1
  let r3 := joinSp ((pySplit pr.1).filterMap (substWord (pr.2.map Prod.fst)))
  let r4 := postRule (str " in ") (str " mein ")
    (postRule (str " of ") (str " ka ") r3)
  let r5 := sovStep r4
  let r6 := pr.2.foldl (fun r kt => replaceAll r kt.1 kt.2) r5
  pyStrip (collapseWs r6)

end Inglish

namespace Inglish

/-! ### SOV reorder lemmas -/

theorem findSome_split {α β : Type} (f : α → Option β) (l : List α) (b : β)
    (h : l.findSome? f = some b) :
    ∃ l1 a l2, l = l1 ++ a :: l2 ∧ f a = some b ∧ ∀ x ∈ l1, f x = none := by
  induction l with
  | nil => simp [List.findSome?] at h
  | cons a l ih =>
    rw [List.findSome?_cons] at h
    cases hfa : f a with
    | some c =>
      rw [hfa] at h
      simp only at h
      exact ⟨[], a, l, by simp, by rw [hfa, h], by simp⟩
    | none =>
      rw [hfa] at h
      simp only at h
      obtain ⟨l1, x, l2, h1, h2, h3⟩ := ih h
      refine ⟨a :: l1, x, l2, by simp [h1], h2, ?_⟩
      intro y hy
      rcases List.mem_cons.1 hy with hy | hy
      · subst hy
        exact hfa
      · exact h3 y hy

theorem unitAt_sound {q u p2 : Str} (h : unitAt q = some (u, p2)) :
    q = u ++ p2 ∧ u ≠ [] := by
  unfold unitAt at h
  cases q with
  | nil => cases h
  | cons c rest =>
    dsimp only at h
    by_cases hw : isWordCh c
    · rw [if_pos hw] at h
      injection h with h
      injection h with h1 h2
      subst h1
      subst h2
      exact ⟨(List.takeWhile_append_dropWhile _ _).symm, by simp [hw]⟩
    · rw [if_neg hw] at h
      by_cases hb : c = '['
      · rw [if_pos hb] at h
        cases hsp : splitAtRB rest with
        | none => rw [hsp] at h; cases h
        | some pr =>
          rw [hsp] at h
          simp only at h
          by_cases he : pr.1.isEmpty
          · rw [if_pos he] at h
            cases h
          · rw [if_neg he] at h
            injection h with h
            injection h with h1 h2
            subst h1
            subst h2
            have hs := (splitAtRB_noRB_sound rest pr.1 pr.2 (by
              rw [hsp])).1
            constructor
            · rw [hb, hs]
              simp [List.append_assoc]
            · simp
      · rw [if_neg hb] at h
        cases h

theorem tailOK4_sound {q P : Str} (h : tailOK4 q = some P) :
    (∀ c ∈ P, punct4 c = true) ∧ (q = P ∨ q = P ++ ['\n']) := by
  unfold tailOK4 at h
  by_cases h1 : q.all punct4
  · rw [if_pos h1] at h
    injection h with h
    subst h
    exact ⟨fun c hc => List.all_eq_true.1 h1 c hc, Or.inl rfl⟩
  · rw [if_neg h1] at h
    by_cases h2 : (q.getLast? == some '\n' && q.dropLast.all punct4) = true
    · rw [if_pos h2] at h
      injection h with h
      subst h
      rw [Bool.and_eq_true, beq_iff_eq] at h2
      refine ⟨fun c hc => List.all_eq_true.1 h2.2 c hc, Or.inr ?_⟩
      have hne : q ≠ [] := by
        intro hq
        rw [hq] at h2
        cases h2.1
      conv_lhs => rw [← List.dropLast_append_getLast hne]
      rw [List.getLast?_eq_getLast q hne] at h2
      injection h2.1 with h3
      rw [h3]
    · rw [if_neg h2] at h
      cases h

theorem sovG2_sound :
    ∀ (fuel : Nat) (acc q g2 P : Str),
      sovG2 fuel acc q = some (g2, P) →
      ∃ t rem, g2 = acc ++ t ∧ t ≠ [] ∧ q = t ++ P ++ rem ∧
        (∀ c ∈ P, punct4 c = true) ∧ (rem = [] ∨ rem = ['\n']) := by
  intro fuel
  induction fuel with
  | zero => intro acc q g2 P h; cases h
  | succ fuel ih =>
    intro acc q g2 P h
    unfold sovG2 at h
    cases q with
    | nil => cases h
    | cons c rest =>
      dsimp only at h
      by_cases hn : c = '\n'
      · rw [if_pos hn] at h
        cases h
      · rw [if_neg hn] at h
        cases ht : tailOK4 rest with
        | some P0 =>
          rw [ht] at h
          simp only at h
          injection h with h0
          injection h0 with h1 h2
          obtain ⟨hp, hq⟩ := tailOK4_sound ht
          subst h1
          subst h2
          rcases hq with hq | hq
          · exact ⟨[c], [], rfl, by simp, by simp [hq], hp, Or.inl rfl⟩
          · exact ⟨[c], ['\n'], rfl, by simp,
              by simp [hq, List.append_assoc], hp, Or.inr rfl⟩
        | none =>
          rw [ht] at h
          simp only at h
          obtain ⟨t, rem, h1, h2, h3, h4, h5⟩ := ih (acc ++ [c]) rest g2 P h
          refine ⟨c :: t, rem, by simp [h1], by simp, ?_, h4, h5⟩
          rw [List.cons_append, List.cons_append, ← h3]

theorem sovCont_sound {verb rest g2 P : Str}
    (h : sovCont verb rest = some (g2, P)) :
    ∃ ws1 ws2 rem, (∀ c ∈ ws1, pyIsSpace c = true) ∧ ws1 ≠ [] ∧
      (∀ c ∈ ws2, pyIsSpace c = true) ∧ ws2 ≠ [] ∧ g2 ≠ [] ∧
      (∀ c ∈ P, punct4 c = true) ∧ (rem = [] ∨ rem = ['\n']) ∧
      rest = ws1 ++ verb ++ ws2 ++ g2 ++ P ++ rem := by
  unfold sovCont at h
  by_cases hA : (!(rest.takeWhile pyIsSpace).isEmpty &&
      strStarts verb (rest.dropWhile pyIsSpace)) = true
  · rw [if_pos hA] at h
    dsimp only at h
    by_cases hB : (!(((rest.dropWhile pyIsSpace).drop
        verb.length).takeWhile pyIsSpace).isEmpty) = true
    · rw [if_pos hB] at h
      rw [Bool.and_eq_true, Bool.not_eq_true'] at hA
      obtain ⟨hws1, hvb⟩ := hA
      obtain ⟨tl, htl⟩ := (strStarts_iff _ _).1 hvb
      rw [Bool.not_eq_true'] at hB
      have hrest : rest = rest.takeWhile pyIsSpace ++
          rest.dropWhile pyIsSpace :=
        (List.takeWhile_append_dropWhile _ _).symm
      have htl2 : tl = (rest.dropWhile pyIsSpace).drop verb.length := by
        rw [htl]
        rw [List.drop_left]
      by_cases hE : (((rest.dropWhile pyIsSpace).drop
          verb.length).dropWhile pyIsSpace).isEmpty = true
      · rw [if_pos hE] at h
        have hr2all : ∀ c ∈ (rest.dropWhile pyIsSpace).drop verb.length,
            pyIsSpace c = true := by
          have he := List.isEmpty_iff.1 hE
          exact fun c hc => List.dropWhile_eq_nil_iff.1 he c hc
        unfold sovWsTail at h
        cases hrev : ((rest.dropWhile pyIsSpace).drop
            verb.length).reverse with
        | nil =>
          rw [hrev] at h
          cases h
        | cons c w2 =>
          rw [hrev] at h
          dsimp only at h
          have hr2e : (rest.dropWhile pyIsSpace).drop verb.length =
              w2.reverse ++ [c] := by
            have h0 := congrArg List.reverse hrev
            rw [List.reverse_reverse] at h0
            rw [h0, List.reverse_cons]
          by_cases hc : c = '\n'
          · rw [if_pos hc] at h
            cases w2 with
            | nil => cases h
            | cons d w3 =>
              dsimp only at h
              by_cases hd : d = '\n'
              · rw [if_pos hd] at h
                cases h
              · rw [if_neg hd] at h
                by_cases hw3 : w3.isEmpty = true
                · rw [if_pos hw3] at h
                  cases h
                · rw [if_neg hw3] at h
                  injection h with h0
                  have hg2 : [d] = g2 := congrArg Prod.fst h0
                  have hP : ([] : Str) = P := congrArg Prod.snd h0
                  refine ⟨rest.takeWhile pyIsSpace, w3.reverse, ['\n'],
                    ?_, ?_, ?_, ?_, ?_, ?_, Or.inr rfl, ?_⟩
                  · intro x hx
                    exact List.mem_takeWhile_imp hx
                  · intro hcontra
                    rw [hcontra] at hws1
                    cases hws1
                  · intro x hx
                    apply hr2all
                    rw [hr2e]
                    apply List.mem_append.2
                    apply Or.inl
                    rw [List.reverse_cons]
                    exact List.mem_append.2 (Or.inl hx)
                  · intro hcontra
                    rw [List.reverse_eq_nil_iff] at hcontra
                    rw [hcontra] at hw3
                    exact hw3 rfl
                  · rw [← hg2]
                    exact List.cons_ne_nil _ _
                  · intro x hx
                    rw [← hP] at hx
                    cases hx
                  · rw [← hg2, ← hP]
                    conv_lhs => rw [hrest, htl, htl2, hr2e]
                    rw [hc, List.reverse_cons]
                    simp [List.append_assoc]
          · rw [if_neg hc] at h
            by_cases hw2 : w2.isEmpty = true
            · rw [if_pos hw2] at h
              cases h
            · rw [if_neg hw2] at h
              injection h with h0
              have hg2 : [c] = g2 := congrArg Prod.fst h0
              have hP : ([] : Str) = P := congrArg Prod.snd h0
              refine ⟨rest.takeWhile pyIsSpace, w2.reverse, [],
                ?_, ?_, ?_, ?_, ?_, ?_, Or.inl rfl, ?_⟩
              · intro x hx
                exact List.mem_takeWhile_imp hx
              · intro hcontra
                rw [hcontra] at hws1
                cases hws1
              · intro x hx
                apply hr2all
                rw [hr2e]
                exact List.mem_append.2 (Or.inl hx)
              · intro hcontra
                rw [List.reverse_eq_nil_iff] at hcontra
                rw [hcontra] at hw2
                exact hw2 rfl
              · rw [← hg2]
                exact List.cons_ne_nil _ _
              · intro x hx
                rw [← hP] at hx
                cases hx
              · rw [← hg2, ← hP]
                conv_lhs => rw [hrest, htl, htl2, hr2e]
                simp [List.append_assoc]
      · rw [if_neg hE] at h
        obtain ⟨t2, rem, hg2, ht2ne, hsplit, hp, hrem⟩ :=
          sovG2_sound _ _ _ _ _ h
        refine ⟨rest.takeWhile pyIsSpace,
          ((rest.dropWhile pyIsSpace).drop verb.length).takeWhile pyIsSpace,
          rem, ?_, ?_, ?_, ?_, ?_, hp, hrem, ?_⟩
        · intro c hc
          exact List.mem_takeWhile_imp hc
        · intro hcontra
          rw [hcontra] at hws1
          cases hws1
        · intro c hc
          exact List.mem_takeWhile_imp hc
        · intro hcontra
          rw [hcontra] at hB
          cases hB
        · rw [hg2]
          simpa using ht2ne
        · have hr2 : (rest.dropWhile pyIsSpace).drop verb.length =
              ((rest.dropWhile pyIsSpace).drop verb.length).takeWhile
                pyIsSpace ++
              ((rest.dropWhile pyIsSpace).drop verb.length).dropWhile
                pyIsSpace :=
            (List.takeWhile_append_dropWhile _ _).symm
          rw [hsplit] at hr2
          rw [htl2, hr2] at htl
          conv_lhs => rw [hrest, htl]
          rw [hg2]
          simp [List.append_assoc]
    · rw [if_neg hB] at h
      cases h
  · rw [if_neg hA] at h
    cases h

end Inglish

namespace Inglish

theorem sovG1_succ (fuel : Nat) (verb acc rest : Str) :
    sovG1 (fuel + 1) verb acc rest =
      (match sovCont verb rest with
      | some (g2, P) => some (acc, g2, P)
      | none =>
        match rest with
        | [] => none
        | c :: r2 =>
          if c = '\n' then none else sovG1 fuel verb (acc ++ [c]) r2) := rfl

theorem sovG1_sound :
    ∀ (fuel : Nat) (verb acc rest g1 g2 P : Str),
      sovG1 fuel verb acc rest = some (g1, g2, P) →
      ∃ t ws1 ws2 rem, g1 = acc ++ t ∧
        (∀ c ∈ ws1, pyIsSpace c = true) ∧ ws1 ≠ [] ∧
        (∀ c ∈ ws2, pyIsSpace c = true) ∧ ws2 ≠ [] ∧ g2 ≠ [] ∧
        (∀ c ∈ P, punct4 c = true) ∧ (rem = [] ∨ rem = ['\n']) ∧
        rest = t ++ ws1 ++ verb ++ ws2 ++ g2 ++ P ++ rem := by
  intro fuel
  induction fuel with
  | zero => intro verb acc rest g1 g2 P h; cases h
  | succ fuel ih =>
    intro verb acc rest g1 g2 P h
    rw [sovG1_succ] at h
    cases hcont : sovCont verb rest with
    | some r =>
      rw [hcont] at h
      simp only at h
      injection h with h0
      injection h0 with h1 h2
      obtain ⟨ws1, ws2, rem, w1, w2, w3, w4, w5, w6, w7, w8⟩ :=
        @sovCont_sound verb rest r.1 r.2 (by rw [hcont])
      have hg2 : r.1 = g2 := congrArg Prod.fst h2
      have hP : r.2 = P := congrArg Prod.snd h2
      rw [hg2] at w5 w8
      rw [hP] at w6 w8
      refine ⟨[], ws1, ws2, rem, by simp [h1], w1, w2, w3, w4, w5, w6, w7,
        ?_⟩
      rw [w8]
      simp [List.append_assoc]
    | none =>
      rw [hcont] at h
      simp only at h
      cases rest with
      | nil => cases h
      | cons c r2 =>
        dsimp only at h
        by_cases hn : c = '\n'
        · rw [if_pos hn] at h
          cases h
        · rw [if_neg hn] at h
          obtain ⟨t, ws1, ws2, rem, w0, w1, w2, w3, w4, w5, w6, w7, w8⟩ :=
            ih verb (acc ++ [c]) r2 g1 g2 P h
          refine ⟨c :: t, ws1, ws2, rem, by simp [w0], w1, w2, w3, w4, w5,
            w6, w7, ?_⟩
          rw [w8]
          simp [List.append_assoc]

theorem sovMatch_sound {verb s g1 g2 P : Str}
    (h : sovMatch verb s = some (g1, g2, P)) :
    g1 ≠ [] ∧ g2 ≠ [] ∧
    ∃ ws1 ws2 rem, (∀ c ∈ ws1, pyIsSpace c = true) ∧ ws1 ≠ [] ∧
      (∀ c ∈ ws2, pyIsSpace c = true) ∧ ws2 ≠ [] ∧
      (∀ c ∈ P, punct4 c = true) ∧ (rem = [] ∨ rem = ['\n']) ∧
      s = g1 ++ ws1 ++ verb ++ ws2 ++ g2 ++ P ++ rem := by
  unfold sovMatch at h
  cases s with
  | nil => cases h
  | cons c rest =>
    dsimp only at h
    by_cases hn : c = '\n'
    · rw [if_pos hn] at h
      cases h
    · rw [if_neg hn] at h
      obtain ⟨t, ws1, ws2, rem, w0, w1, w2, w3, w4, w5, w6, w7, w8⟩ :=
        sovG1_sound rest.length verb [c] rest g1 g2 P h
      refine ⟨by simp [w0], w5, ws1, ws2, rem, w1, w2, w3, w4, w6, w7, ?_⟩
      rw [w0, w8]
      simp [List.append_assoc]

end Inglish

namespace Inglish

/-- C7: the SOV verb list is tried in fixed longest-first order; when no
verb pattern matches, the reorder step leaves the sentence unchanged;
a verb match decomposes the sentence as nonempty text, whitespace, the
verb, whitespace, nonempty text and trailing punctuation; and the step's
output relocates exactly the first matching verb phrase (in priority
order) to sentence end with the trailing punctuation after it. -/
theorem claim_C7 (s : Str) :
    sovVerbs.Pairwise (fun a b => b.length ≤ a.length) ∧
    ((∀ v ∈ sovVerbs, sovMatch v s = none) → sovStep s = s) ∧
    (∀ v g1 g2 P, sovMatch v s = some (g1, g2, P) →
      g1 ≠ [] ∧ g2 ≠ [] ∧
      ∃ ws1 ws2 rem, (∀ c ∈ ws1, pyIsSpace c = true) ∧ ws1 ≠ [] ∧
        (∀ c ∈ ws2, pyIsSpace c = true) ∧ ws2 ≠ [] ∧
        (∀ c ∈ P, punct4 c = true) ∧ (rem = [] ∨ rem = ['\n']) ∧
        s = g1 ++ ws1 ++ v ++ ws2 ++ g2 ++ P ++ rem) ∧
    (∀ v g1 g2 P, sovVerbs.findSome? (fun v2 =>
        (sovMatch v2 s).map (fun r => (v2, r))) = some (v, (g1, g2, P)) →
      sovStep s = g1 ++ ' ' :: g2 ++ ' ' :: v ++ P ∧
      sovMatch v s = some (g1, g2, P) ∧
      ∃ l1 l2, sovVerbs = l1 ++ v :: l2 ∧
        ∀ v2 ∈ l1, sovMatch v2 s = none) := by
  refine ⟨by decide, ?_, ?_, ?_⟩
  · intro hall
    unfold sovStep
    cases hf : sovVerbs.findSome? (fun v2 =>
        (sovMatch v2 s).map (fun r => (v2, r))) with
    | none => rfl
    | some b =>
      exfalso
      obtain ⟨l1, a, l2, hsp, ha, hnone⟩ := findSome_split _ _ _ hf
      have hmem : a ∈ sovVerbs := by
        rw [hsp]
        exact List.mem_append.2 (Or.inr (List.mem_cons_self _ _))
      rw [hall a hmem] at ha
      cases ha
  · intro v g1 g2 P h
    have := sovMatch_sound h
    exact ⟨this.1, this.2.1, this.2.2⟩
  · intro v g1 g2 P h
    obtain ⟨l1, a, l2, hsp, ha, hnone⟩ := findSome_split _ _ _ h
    cases hma : sovMatch a s with
    | none =>
      rw [hma] at ha
      cases ha
    | some r =>
      rw [hma] at ha
      simp only [Option.map_some'] at ha
      injection ha with ha
      have hav : a = v := congrArg Prod.fst ha
      have har : r = (g1, g2, P) := congrArg Prod.snd ha
      subst hav
      subst har
      refine ⟨?_, hma, l1, l2, hsp, ?_⟩
      · unfold sovStep
        rw [h]
      · intro v2 hv2
        have := hnone v2 hv2
        cases hm2 : sovMatch v2 s with
        | none => rfl
        | some r2 =>
          rw [hm2] at this
          simp only [Option.map_some'] at this
          cases this

/-- C7 witness: on `"code banata hai ek map"` the verb `"banata hai"` is
the first (priority-order) match and is relocated to sentence end, and on
`"hello"` no SOV verb matches, so the reorder step leaves it unchanged. -/
theorem witness_C7 :
    sovStep (str "code banata hai ek map") = str "code ek map banata hai"
      ∧ sovStep (str "hello") = str "hello" := by
  constructor
  · have h := ((claim_C7 (str "code banata hai ek map")).2.2.2
      (str "banata hai") (str "code") (str "ek map") [] (by decide)).1
    rw [h]
    decide
  · exact (claim_C7 (str "hello")).2.1 (by decide)

end Inglish

namespace Inglish

/-- C8: on the guarded input `"[array] of [integers]"` the translated
output is `"[array] ka [integers]"`, not the reordered
`"[integers] ka [array]"` the spec describes.  The post-bracket rules run
after bracket protection, when every bracketed term is an opaque
`__Pn__` placeholder and the word `of` has already been mapped to `ka`,
so the `"[X] of [Y]"` pattern can never occur at step 4: the rule set is
dead code. -/
theorem claim_C8 :
    translate (str "[array] of [integers]") = str "[array] ka [integers]" ∧
    translate (str "[array] of [integers]") ≠ str "[integers] ka [array]" ∧
    joinSp (((pySplit (protectTerms (preRule
        (str "[array] of [integers]"))).1)).filterMap
      (substWord ((protectTerms (preRule
        (str "[array] of [integers]"))).2.map Prod.fst))) =
      str "__P0__ ka __P1__" ∧
    postRule (str " of ") (str " ka ") (str "__P0__ ka __P1__") =
      str "__P0__ ka __P1__" := by
  exact ⟨by decide, by decide, by decide, by decide⟩

end Inglish

namespace Inglish

/-! ### Identity and character-provenance lemmas for the pipeline -/

/-- Decidable substring test. -/
def occursB (u : Str) : Str → Bool
  | [] => u.isEmpty
  | c :: rest => strStarts u (c :: rest) || occursB u rest

theorem occursB_iff : ∀ (u v : Str), occursB u v = true ↔ occursIn u v := by
  intro u v
  induction v with
  | nil =>
    simp only [occursB, List.isEmpty_iff, occursIn]
    constructor
    · intro h
      exact ⟨[], [], by simp [h]⟩
    · rintro ⟨a, b, hab⟩
      rcases List.append_eq_nil.1 hab.symm with ⟨h1, h2⟩
      exact (List.append_eq_nil.1 h1).2
  | cons c rest ih =>
    simp only [occursB, Bool.or_eq_true, ih, strStarts_iff]
    constructor
    · rintro (⟨t, ht⟩ | ⟨a, b, hab⟩)
      · exact ⟨[], t, by simp [ht]⟩
      · exact ⟨c :: a, b, by simp [hab]⟩
    · rintro ⟨a, b, hab⟩
      cases a with
      | nil =>
        left
        exact ⟨b, by simpa using hab⟩
      | cons a0 a' =>
        right
        refine ⟨a', b, ?_⟩
        simp only [List.cons_append, List.cons.injEq] at hab
        exact hab.2

theorem occursIn_right {u a b : Str} (h : occursIn u b) :
    occursIn u (a ++ b) := by
  obtain ⟨x, y, hxy⟩ := h
  exact ⟨a ++ x, y, by simp [hxy, List.append_assoc]⟩

theorem hasCont_occurs {fuel : Nat} {p : Str} {r : Str × Str × Str}
    (h : hasCont fuel p = some r) : occursIn (str "has") (lowerStr p) := by
  unfold hasCont at h
  by_cases h1 : (p.takeWhile pyIsSpace).isEmpty
  · rw [if_pos h1] at h
    cases h
  · rw [if_neg h1] at h
    by_cases h2 : (lowerStr ((p.dropWhile pyIsSpace).take 3) ==
        str "has") = true
    · refine ⟨lowerStr (p.takeWhile pyIsSpace),
        lowerStr ((p.dropWhile pyIsSpace).drop 3), ?_⟩
      rw [beq_iff_eq] at h2
      have hl : ∀ a b : Str, lowerStr (a ++ b) = lowerStr a ++ lowerStr b :=
        fun a b => List.map_append _ a b
      have hdw : lowerStr (p.dropWhile pyIsSpace) =
          lowerStr ((p.dropWhile pyIsSpace).take 3) ++
          lowerStr ((p.dropWhile pyIsSpace).drop 3) := by
        conv_lhs => rw [← List.take_append_drop 3 (p.dropWhile pyIsSpace)]
        exact hl _ _
      conv_lhs => rw [← List.takeWhile_append_dropWhile pyIsSpace p]
      rw [hl, hdw, h2]
      simp [List.append_assoc]
    · rw [if_neg h2] at h
      cases h

end Inglish

namespace Inglish

theorem g1Go_occurs :
    ∀ (fuel : Nat) (g1 p : Str) (r : Str × Str × Str × Str),
      g1Go fuel g1 p = some r → occursIn (str "has") (lowerStr p) := by
  intro fuel
  induction fuel with
  | zero => intro g1 p r h; cases h
  | succ fuel ih =>
    intro g1 p r h
    unfold g1Go at h
    cases hc : hasCont (fuel + 1) p with
    | some r2 => exact hasCont_occurs hc
    | none =>
      rw [hc] at h
      simp only at h
      by_cases hws : (p.takeWhile pyIsSpace).isEmpty
      · rw [if_pos hws] at h
        cases h
      · rw [if_neg hws] at h
        cases hu : unitAt (p.dropWhile pyIsSpace) with
        | none =>
          rw [hu] at h
          cases h
        | some upr =>
          rw [hu] at h
          simp only at h
          have hocc := ih _ _ _ h
          obtain ⟨hdec, -⟩ := unitAt_sound hu
          have h2 : occursIn (str "has") (lowerStr (p.dropWhile pyIsSpace))
              := by
            rw [hdec]
            rw [show lowerStr (upr.1 ++ upr.2) =
              lowerStr upr.1 ++ lowerStr upr.2 from List.map_append _ _ _]
            exact occursIn_right hocc
          have h3 : lowerStr p = lowerStr (p.takeWhile pyIsSpace) ++
              lowerStr (p.dropWhile pyIsSpace) := by
            conv_lhs => rw [← List.takeWhile_append_dropWhile pyIsSpace p]
            exact List.map_append _ _ _
          rw [h3]
          exact occursIn_right h2

/-- Without any case-insensitive occurrence of `"has"`, the possession
pre-rule is the identity. -/
theorem preRuleGo_id :
    ∀ (fuel : Nat) (s : Str),
      ¬ occursIn (str "has") (lowerStr s) → preRuleGo fuel s = s := by
  intro fuel
  induction fuel with
  | zero => intro s _; rfl
  | succ fuel ih =>
    intro s hno
    unfold preRuleGo
    cases s with
    | nil => rfl
    | cons c rest =>
      dsimp only
      cases hu : unitAt (c :: rest) with
      | none =>
        rw [ih rest ?hr]
        case hr =>
          intro hocc
          apply hno
          have : lowerStr (c :: rest) = lowerStr [c] ++ lowerStr rest :=
            List.map_append _ [c] rest
          rw [this]
          exact occursIn_right hocc
      | some upr =>
        obtain ⟨u1, p1⟩ := upr
        dsimp only
        cases hg : g1Go (fuel + 1) u1 p1 with
        | some r =>
          exfalso
          apply hno
          obtain ⟨r1, r2, r3, r4⟩ := r
          have hocc := g1Go_occurs (fuel + 1) u1 p1 (r1, r2, r3, r4) hg
          obtain ⟨hdec, -⟩ := unitAt_sound hu
          rw [hdec]
          rw [show lowerStr (u1 ++ p1) =
            lowerStr u1 ++ lowerStr p1 from List.map_append _ _ _]
          exact occursIn_right hocc
        | none =>
          rw [ih rest ?hr2]
          case hr2 =>
            intro hocc
            apply hno
            have : lowerStr (c :: rest) = lowerStr [c] ++ lowerStr rest :=
              List.map_append _ [c] rest
            rw [this]
            exact occursIn_right hocc

theorem preRule_id {s : Str}
    (h : ¬ occursIn (str "has") (lowerStr s)) : preRule s = s :=
  preRuleGo_id s.length s h

/-- Without a `'['`, bracket protection is the identity and mints no
placeholder. -/
theorem protectGo_id :
    ∀ (fuel : Nat) (s : Str) (n : Nat), '[' ∉ s →
      protectGo fuel s n = (s, []) := by
  intro fuel
  induction fuel with
  | zero => intro s n _; rfl
  | succ fuel ih =>
    intro s n hnb
    unfold protectGo
    cases s with
    | nil => rfl
    | cons c rest =>
      dsimp only
      have hc : c ≠ '[' := fun h => hnb (h ▸ List.mem_cons_self _ _)
      rw [if_neg hc]
      rw [ih rest n (fun h => hnb (List.mem_cons_of_mem _ h))]

/-- Without a `'['`, each post-bracket rule is the identity. -/
theorem postRuleGo_id :
    ∀ (mid rep : Str) (fuel : Nat) (s : Str), '[' ∉ s →
      postRuleGo mid rep fuel s = s := by
  intro mid rep fuel
  induction fuel with
  | zero => intro s _; rfl
  | succ fuel ih =>
    intro s hnb
    unfold postRuleGo
    cases s with
    | nil => rfl
    | cons c rest =>
      dsimp only
      have hc : c ≠ '[' := fun h => hnb (h ▸ List.mem_cons_self _ _)
      rw [if_neg hc]
      rw [ih rest (fun h => hnb (List.mem_cons_of_mem _ h))]

end Inglish

namespace Inglish

theorem pySplitGo_chars :
    ∀ (fuel : Nat) (s : Str) (w : Str), w ∈ pySplitGo fuel s →
      ∀ c ∈ w, c ∈ s := by
  intro fuel
  induction fuel with
  | zero =>
    intro s w hw
    cases s <;> exact absurd hw (List.not_mem_nil w)
  | succ fuel ih =>
    intro s w hw
    cases s with
    | nil => cases hw
    | cons a rest =>
      unfold pySplitGo at hw
      by_cases ha : pyIsSpace a
      · rw [if_pos ha] at hw
        intro c hc
        exact List.mem_cons_of_mem _ (ih rest w hw c hc)
      · rw [if_neg ha] at hw
        rcases List.mem_cons.1 hw with hw | hw
        · subst hw
          intro c hc
          rcases List.mem_cons.1 hc with hc | hc
          · exact hc ▸ List.mem_cons_self _ _
          · exact List.mem_cons_of_mem _
              ((List.takeWhile_sublist _).subset hc)
        · intro c hc
          have := ih _ w hw c hc
          exact List.mem_cons_of_mem _
            ((List.dropWhile_sublist _).subset this)

theorem joinSp_chars :
    ∀ (ws : List Str) (c : Char), c ∈ joinSp ws →
      c = ' ' ∨ ∃ w ∈ ws, c ∈ w := by
  intro ws
  induction ws with
  | nil => intro c hc; cases hc
  | cons w rest ih =>
    intro c hc
    cases rest with
    | nil =>
      exact Or.inr ⟨w, List.mem_cons_self _ _, hc⟩
    | cons w2 rest2 =>
      have hc2 : c ∈ w ++ ' ' :: joinSp (w2 :: rest2) := hc
      rcases List.mem_append.1 hc2 with h | h
      · exact Or.inr ⟨w, List.mem_cons_self _ _, h⟩
      · rcases List.mem_cons.1 h with h | h
        · exact Or.inl h
        · rcases ih c h with h2 | ⟨w3, hw3, hc3⟩
          · exact Or.inl h2
          · exact Or.inr ⟨w3, List.mem_cons_of_mem _ hw3, hc3⟩

theorem lookupAssoc_mem {l : List (Str × Str)} {k v : Str}
    (h : lookupAssoc l k = some v) : ∃ p ∈ l, p.2 = v := by
  unfold lookupAssoc at h
  cases hf : l.find? (fun p => p.1 == k) with
  | none => rw [hf] at h; cases h
  | some p =>
    rw [hf] at h
    simp only [Option.map_some'] at h
    injection h with h
    exact ⟨p, List.mem_of_find?_eq_some hf, h⟩

theorem substWord_cases {keys : List Str} {w out : Str}
    (h : substWord keys w = some out) :
    out = w ∨ ∃ p ∈ wordMap, p.2 = out := by
  unfold substWord at h
  by_cases hk : keys.any (fun k => k == w)
  · rw [if_pos hk] at h
    injection h with h
    exact Or.inl h.symm
  · rw [if_neg hk] at h
    cases hl : lookupAssoc wordMap (cleanWord w) with
    | none =>
      rw [hl] at h
      injection h with h
      exact Or.inl h.symm
    | some m =>
      rw [hl] at h
      simp only at h
      by_cases hm : m.isEmpty
      · rw [if_pos hm] at h
        cases h
      · rw [if_neg hm] at h
        injection h with h
        subst h
        obtain ⟨p, hp, hpv⟩ := lookupAssoc_mem hl
        exact Or.inr ⟨p, hp, hpv⟩

theorem collapseWsGo_chars :
    ∀ (fuel : Nat) (s : Str) (c : Char), c ∈ collapseWsGo fuel s →
      c = ' ' ∨ c ∈ s := by
  intro fuel
  induction fuel with
  | zero => intro s c hc; exact Or.inr hc
  | succ fuel ih =>
    intro s c hc
    cases s with
    | nil => cases hc
    | cons a rest =>
      unfold collapseWsGo at hc
      dsimp only at hc
      by_cases ha : pyIsSpace a
      · rw [if_pos ha] at hc
        rcases List.mem_cons.1 hc with h | h
        · exact Or.inl h
        · rcases ih _ c h with h2 | h2
          · exact Or.inl h2
          · exact Or.inr ((List.dropWhile_sublist _).subset h2)
      · rw [if_neg ha] at hc
        rcases List.mem_cons.1 hc with h | h
        · exact Or.inr (h ▸ List.mem_cons_self _ _)
        · rcases ih rest c h with h2 | h2
          · exact Or.inl h2
          · exact Or.inr (List.mem_cons_of_mem _ h2)

theorem pyStrip_chars {s : Str} {c : Char} (h : c ∈ pyStrip s) : c ∈ s := by
  unfold pyStrip at h
  rw [List.mem_reverse] at h
  have h2 := (List.dropWhile_sublist _).subset h
  rw [List.mem_reverse] at h2
  exact (List.dropWhile_sublist _).subset h2

theorem sovStep_no {s : Str} {c : Char} (hc : c ∉ s)
    (hverbs : ∀ v ∈ sovVerbs, c ∉ v) (hsp : c ≠ ' ') :
    c ∉ sovStep s := by
  unfold sovStep
  cases hf : sovVerbs.findSome? (fun v2 =>
      (sovMatch v2 s).map (fun r => (v2, r))) with
  | none => exact hc
  | some b =>
    obtain ⟨l1, a, l2, hsp2, ha, -⟩ := findSome_split _ _ _ hf
    cases hma : sovMatch a s with
    | none => rw [hma] at ha; cases ha
    | some r =>
      rw [hma] at ha
      simp only [Option.map_some'] at ha
      injection ha with ha
      obtain ⟨g1, g2, P⟩ := r
      have hav : b.1 = a := by rw [← ha]
      obtain ⟨-, -, ws1, ws2, rem, -, -, -, -, -, -, hdec⟩ :=
        sovMatch_sound hma
      have hmem : ∀ x, x ∈ g1 ∨ x ∈ g2 ∨ x ∈ P → x ∈ s := by
        intro x hx
        rw [hdec]
        rcases hx with h | h | h
        · simp [h]
        · simp [h]
        · simp [h]
      intro hmo
      rw [← ha] at hmo
      simp only [List.mem_append, List.mem_cons] at hmo
      have hains : a ∈ sovVerbs := by
        rw [hsp2]; exact List.mem_append_right _ (List.mem_cons_self _ _)
      rcases hmo with ((h | h | h) | h | h) | h
      · exact hc (hmem c (Or.inl h))
      · exact hsp h
      · exact hc (hmem c (Or.inr (Or.inl h)))
      · exact hsp h
      · exact hverbs a hains h
      · exact hc (hmem c (Or.inr (Or.inr h)))

theorem wordMapVals_clean : ∀ p ∈ wordMap, '.' ∉ p.2 ∧ '[' ∉ p.2 := by
  decide

theorem sovVerbs_no_dot : ∀ v ∈ sovVerbs, '.' ∉ v := by
  decide

theorem translate_eq (text : Str) :
    translate text =
      pyStrip (collapseWs ((protectTerms (preRule text)).2.foldl
        (fun r kt => replaceAll r kt.1 kt.2)
        (sovStep (postRule (str " in ") (str " mein ")
          (postRule (str " of ") (str " ka ")
            (joinSp ((pySplit (protectTerms (preRule text)).1).filterMap
              (substWord ((protectTerms
                (preRule text)).2.map Prod.fst))))))))) := rfl

/-- C10 (corrected): when the possession pre-rule, bracket protection and
the post-bracket rules are all inert — no case-insensitive "has" and no
literal bracket in the input — and every non-final whitespace token is
dot-free while the final token's punctuation-stripped lowercase form has a
nonempty word-map entry, the word-substitution stage emits the mapped
fragment alone (without the stripped punctuation) and no `'.'` reaches the
translated output. -/
theorem claim_C10 (text last m : Str) (toks : List Str)
    (hhas : occursB (str "has") (lowerStr text) = false)
    (hbr : '[' ∉ text)
    (hsplit : pySplit text = toks ++ [last])
    (htoks : ∀ t ∈ toks, '.' ∉ t)
    (hlook : lookupAssoc wordMap (cleanWord last) = some m)
    (hm : m.isEmpty = false) :
    substWord [] last = some m ∧ '.' ∉ translate text := by
  have hsub : substWord [] last = some m := by
    simp [substWord, hlook, hm]
  have hnocc : ¬ occursIn (str "has") (lowerStr text) := by
    intro h
    have h2 := (occursB_iff (str "has") (lowerStr text)).2 h
    rw [hhas] at h2
    cases h2
  have hr1 : preRule text = text := preRule_id hnocc
  have hpr : protectTerms text = (text, []) :=
    protectGo_id text.length text 0 hbr
  have hdot3 : '.' ∉ joinSp ((pySplit text).filterMap (substWord [])) := by
    intro hc
    rcases joinSp_chars _ '.' hc with h | ⟨w, hw, hcw⟩
    · exact absurd h (by decide)
    · rcases List.mem_filterMap.1 hw with ⟨t, ht, hts⟩
      rw [hsplit] at ht
      rcases List.mem_append.1 ht with htk | htl
      · rcases substWord_cases hts with h | ⟨p, hp, hpv⟩
        · rw [h] at hcw
          exact htoks t htk hcw
        · rw [← hpv] at hcw
          exact (wordMapVals_clean p hp).1 hcw
      · have hteq : t = last := by
          rcases List.mem_cons.1 htl with h | h
          · exact h
          · cases h
        rw [hteq] at hts
        rw [hsub] at hts
        injection hts with hts
        rw [← hts] at hcw
        obtain ⟨p, hp, hpv⟩ := lookupAssoc_mem hlook
        rw [← hpv] at hcw
        exact (wordMapVals_clean p hp).1 hcw
  have hbr3 : '[' ∉ joinSp ((pySplit text).filterMap (substWord [])) := by
    intro hc
    rcases joinSp_chars _ '[' hc with h | ⟨w, hw, hcw⟩
    · exact absurd h (by decide)
    · rcases List.mem_filterMap.1 hw with ⟨t, ht, hts⟩
      rcases substWord_cases hts with h | ⟨p, hp, hpv⟩
      · rw [h] at hcw
        exact hbr (pySplitGo_chars _ _ _ ht '[' hcw)
      · rw [← hpv] at hcw
        exact (wordMapVals_clean p hp).2 hcw
  refine ⟨hsub, ?_⟩
  rw [translate_eq, hr1, hpr]
  dsimp only
  rw [List.map_nil, List.foldl_nil]
  have hp1 : postRule (str " of ") (str " ka ")
      (joinSp ((pySplit text).filterMap (substWord []))) =
      joinSp ((pySplit text).filterMap (substWord [])) :=
    postRuleGo_id _ _ _ _ hbr3
  have hp2 : postRule (str " in ") (str " mein ")
      (joinSp ((pySplit text).filterMap (substWord []))) =
      joinSp ((pySplit text).filterMap (substWord [])) :=
    postRuleGo_id _ _ _ _ hbr3
  rw [hp1, hp2]
  have hdot5 : '.' ∉
      sovStep (joinSp ((pySplit text).filterMap (substWord []))) :=
    sovStep_no hdot3 sovVerbs_no_dot (by decide)
  intro hfin
  have h1 := pyStrip_chars hfin
  rcases collapseWsGo_chars _ _ _ h1 with h | h
  · exact absurd h (by decide)
  · exact hdot5 h

/-- The unqualified claim fails: the final word "name." has the word-map
entry "naam", yet the possession pre-rule fires on "has" and its rewrite
keeps the sentence-final dot, so a mapped final word followed by '.' still
yields a '.' in the output. -/
theorem counterexample_C10 :
    lookupAssoc wordMap (cleanWord (str "name.")) = some (str "naam") ∧
    translate (str "class has name.") = str "class mein naam hain." ∧
    '.' ∈ translate (str "class has name.") := by
  refine ⟨by decide, by decide, by decide⟩

/-- On "the name." the final mapped word "name." is emitted as "naam" and
the stripped dot does not survive. -/
theorem witness_C10 :
    substWord [] (str "name.") = some (str "naam") ∧
    '.' ∉ translate (str "the name.") :=
  claim_C10 (str "the name.") (str "name.") (str "naam") [str "the"]
    (by decide) (by decide) (by decide) (by decide) (by decide) (by decide)

end Inglish

namespace Inglish

/-! ### Key-block decomposition of the translate pipeline states (C1) -/

/-- A pipeline state decomposes into plain segments (free of underscores
and digits) and whole minted `__Pn__` placeholder keys. -/
inductive KBlock where
  | plain : Str → KBlock
  | pkey : Nat → KBlock

def renderKB : KBlock → Str
  | KBlock.plain p => p
  | KBlock.pkey j => protectKey j

def renderK : List KBlock → Str
  | [] => []
  | b :: bs => renderKB b ++ renderK bs

/-- Well-formedness: plain segments carry no underscore and no digit, so
every underscore and digit of the state lies inside a placeholder key. -/
def kbOK : KBlock → Prop
  | KBlock.plain p => '_' ∉ p ∧ ∀ c ∈ p, isDigitCh c = false
  | KBlock.pkey _ => True

theorem renderK_append : ∀ bs cs : List KBlock,
    renderK (bs ++ cs) = renderK bs ++ renderK cs := by
  intro bs cs
  induction bs with
  | nil => rfl
  | cons b bs ih =>
    show renderKB b ++ renderK (bs ++ cs) = (renderKB b ++ renderK bs) ++ _
    rw [ih, List.append_assoc]

theorem protectKey_cons (i : Nat) :
    protectKey i = '_' :: '_' :: 'P' :: (natRepr i ++ ['_', '_']) := rfl

theorem protectKey_chars {i : Nat} {c : Char} (h : c ∈ protectKey i) :
    c = '_' ∨ c = 'P' ∨ isDigitCh c = true := by
  rw [protectKey_cons] at h
  rcases List.mem_cons.1 h with h | h
  · exact Or.inl h
  rcases List.mem_cons.1 h with h | h
  · exact Or.inl h
  rcases List.mem_cons.1 h with h | h
  · exact Or.inr (Or.inl h)
  rcases List.mem_append.1 h with h | h
  · exact Or.inr (Or.inr (natRepr_digits i c h))
  rcases List.mem_cons.1 h with h | h
  · exact Or.inl h
  rcases List.mem_cons.1 h with h | h
  · exact Or.inl h
  · cases h

theorem renderKB_mem : ∀ (bs : List KBlock) (b : KBlock) (c : Char),
    b ∈ bs → c ∈ renderKB b → c ∈ renderK bs := by
  intro bs
  induction bs with
  | nil => intro b c hb _; cases hb
  | cons b0 bs ih =>
    intro b c hb hc
    show c ∈ renderKB b0 ++ renderK bs
    rcases List.mem_cons.1 hb with hb | hb
    · exact List.mem_append.2 (Or.inl (hb ▸ hc))
    · exact List.mem_append.2 (Or.inr (ih b c hb hc))

theorem renderK_chars : ∀ (bs : List KBlock) (c : Char),
    (∀ b ∈ bs, kbOK b) → c ∈ renderK bs →
      c = '_' ∨ c = 'P' ∨ isDigitCh c = true ∨
        ∃ p, KBlock.plain p ∈ bs ∧ c ∈ p := by
  intro bs
  induction bs with
  | nil => intro c _ hc; cases hc
  | cons b0 bs ih =>
    intro c hok hc
    rcases List.mem_append.1 hc with h | h
    · cases b0 with
      | plain p =>
        exact Or.inr (Or.inr (Or.inr ⟨p, List.mem_cons_self _ _, h⟩))
      | pkey j =>
        rcases protectKey_chars h with h | h | h
        · exact Or.inl h
        · exact Or.inr (Or.inl h)
        · exact Or.inr (Or.inr (Or.inl h))
    · rcases ih c (fun b hb => hok b (List.mem_cons_of_mem _ hb)) h with
        h | h | h | ⟨p, hp, hcp⟩
      · exact Or.inl h
      · exact Or.inr (Or.inl h)
      · exact Or.inr (Or.inr (Or.inl h))
      · exact Or.inr (Or.inr (Or.inr ⟨p, List.mem_cons_of_mem _ hp, hcp⟩))

/-- Structure of the first two characters of a well-formed render: the
head is never a digit; a leading underscore is the start of a key (so the
next character is an underscore); after a leading `'P'` (necessarily from
a plain segment) the next character is not a digit. -/
theorem renderK_start :
    ∀ (bs : List KBlock), (∀ b ∈ bs, kbOK b) →
      ∀ c t, renderK bs = c :: t →
        isDigitCh c = false ∧
        (c = '_' → ∀ c2 t2, t = c2 :: t2 → c2 = '_') ∧
        (c = 'P' → ∀ c2 t2, t = c2 :: t2 → isDigitCh c2 = false) := by
  intro bs
  induction bs with
  | nil => intro _ c t h; cases h
  | cons b0 bs ih =>
    intro hok c t h
    have hok0 := hok b0 (List.mem_cons_self _ _)
    have hoks : ∀ b ∈ bs, kbOK b := fun b hb =>
      hok b (List.mem_cons_of_mem _ hb)
    cases b0 with
    | plain p =>
      cases p with
      | nil =>
        have h2 : renderK bs = c :: t := h
        exact ih hoks c t h2
      | cons c0 p' =>
        have h2 : c0 :: (p' ++ renderK bs) = c :: t := h
        injection h2 with hc0 ht
        refine ⟨?_, ?_, ?_⟩
        · rw [← hc0]
          exact hok0.2 c0 (List.mem_cons_self _ _)
        · intro hcu
          exfalso
          rw [hcu] at hc0
          exact hok0.1 (hc0 ▸ List.mem_cons_self _ _)
        · intro _ c2 t2 h3
          rw [← ht] at h3
          cases p' with
          | nil =>
            have h4 : renderK bs = c2 :: t2 := h3
            exact (ih hoks c2 t2 h4).1
          | cons c1 p'' =>
            have h4 : c1 :: (p'' ++ renderK bs) = c2 :: t2 := h3
            injection h4 with h5 _
            rw [← h5]
            exact hok0.2 c1 (List.mem_cons_of_mem _ (List.mem_cons_self _ _))
    | pkey j =>
      have h2 : '_' :: ('_' :: 'P' :: (natRepr j ++ ['_', '_']) ++
          renderK bs) = c :: t := by
        rw [← h]
        show renderKB (KBlock.pkey j) ++ renderK bs = _
        rw [show renderKB (KBlock.pkey j) = protectKey j from rfl,
          protectKey_cons]
        rfl
      injection h2 with hc0 ht
      refine ⟨by rw [← hc0]; decide, ?_, ?_⟩
      · intro _ c2 t2 h3
        rw [← ht] at h3
        have h4 : '_' :: ('P' :: (natRepr j ++ ['_', '_']) ++ renderK bs) =
            c2 :: t2 := h3
        injection h4 with h5 _
        exact h5.symm
      · intro hcP
        exfalso
        rw [hcP] at hc0
        exact absurd hc0.symm (by decide)

theorem strStarts_head_ne {a c : Char} {p t : Str} (h : a ≠ c) :
    strStarts (a :: p) (c :: t) = false := by
  simp only [strStarts, Bool.and_eq_false_iff]
  left
  exact beq_eq_false_iff_ne.2 h

/-- Two digit runs closed by a double underscore align. -/
theorem strStarts_digit_us :
    ∀ (u v t : Str), (∀ c ∈ u, isDigitCh c = true) →
      (∀ c ∈ v, isDigitCh c = true) →
      strStarts (u ++ ['_', '_']) (v ++ '_' :: '_' :: t) = true → u = v := by
  intro u
  induction u with
  | nil =>
    intro v t _ hv h
    cases v with
    | nil => rfl
    | cons d v' =>
      exfalso
      rw [List.nil_append, List.cons_append] at h
      simp only [strStarts, Bool.and_eq_true, beq_iff_eq] at h
      have hd := hv d (List.mem_cons_self _ _)
      rw [← h.1] at hd
      simp [isDigitCh] at hd
  | cons a u' ih =>
    intro v t hu hv h
    cases v with
    | nil =>
      exfalso
      rw [List.cons_append, List.nil_append] at h
      simp only [strStarts, Bool.and_eq_true, beq_iff_eq] at h
      have ha := hu a (List.mem_cons_self _ _)
      rw [h.1] at ha
      simp [isDigitCh] at ha
    | cons d v' =>
      rw [List.cons_append, List.cons_append] at h
      simp only [strStarts, Bool.and_eq_true, beq_iff_eq] at h
      have := ih v' t (fun x hx => hu x (List.mem_cons_of_mem _ hx))
        (fun x hx => hv x (List.mem_cons_of_mem _ hx)) h.2
      rw [h.1, this]

end Inglish

namespace Inglish

theorem protectKey_length (j : Nat) :
    (protectKey j).length = (natRepr j).length + 5 := by
  rw [protectKey_cons]
  simp

theorem protectKey_split3 (j : Nat) :
    protectKey j = ['_', '_', 'P'] ++ (natRepr j ++ ['_', '_']) := rfl

/-- At no interior offset of a key `__Pj__` (nor, for `j ≠ i`, at its
start) does the key `__Pi__` match against a well-formed continuation. -/
theorem protectKey_no_match {i j : Nat} (hij : j ≠ i)
    (bs : List KBlock) (hok : ∀ b ∈ bs, kbOK b) :
    ∀ k, k < (protectKey j).length →
      strStarts (protectKey i) ((protectKey j).drop k ++ renderK bs) =
        false := by
  intro k hk
  rw [protectKey_length] at hk
  by_cases hk0 : k = 0
  · subst hk0
    rw [List.drop_zero, Bool.eq_false_iff]
    intro hst
    rw [protectKey_cons i, protectKey_cons j] at hst
    rw [List.cons_append, List.cons_append, List.cons_append] at hst
    simp only [strStarts, Bool.and_eq_true, beq_self_eq_true,
      true_and] at hst
    rw [List.append_assoc] at hst
    have h2 : strStarts (natRepr i ++ ['_', '_'])
        (natRepr j ++ '_' :: '_' :: renderK bs) = true := by
      have he : (['_', '_'] : Str) ++ renderK bs =
          '_' :: '_' :: renderK bs := rfl
      rw [he] at hst
      exact hst
    have := strStarts_digit_us (natRepr i) (natRepr j) (renderK bs)
      (natRepr_digits i) (natRepr_digits j) h2
    exact hij (natRepr_inj this).symm
  by_cases hk1 : k = 1
  · subst hk1
    rw [protectKey_cons j]
    rw [show List.drop 1 ('_' :: '_' :: 'P' :: (natRepr j ++ ['_', '_'])) =
      '_' :: 'P' :: (natRepr j ++ ['_', '_']) from rfl]
    rw [List.cons_append, List.cons_append]
    rw [protectKey_cons i]
    simp only [strStarts, beq_self_eq_true, Bool.true_and]
    rw [Bool.and_eq_false_iff]
    left
    decide
  by_cases hk2 : k = 2
  · subst hk2
    rw [protectKey_cons j]
    rw [show List.drop 2 ('_' :: '_' :: 'P' :: (natRepr j ++ ['_', '_'])) =
      'P' :: (natRepr j ++ ['_', '_']) from rfl]
    rw [List.cons_append, protectKey_cons i]
    exact strStarts_head_ne (by decide)
  -- k ≥ 3: inside the digit block or the closing underscores
  have hk3 : 3 ≤ k := by omega
  have hke : k = ['_', '_', 'P'].length + (k - 3) := by simp; omega
  rw [protectKey_split3 j, hke, List.drop_append]
  rw [protectKey_split3 i]
  simp only [List.cons_append, List.nil_append]
  by_cases hkd : k - 3 < (natRepr j).length
  · rw [List.drop_append_of_le_length (Nat.le_of_lt hkd)]
    cases hu : (natRepr j).drop (k - 3) with
    | nil =>
      exfalso
      have := congrArg List.length hu
      rw [List.length_drop] at this
      simp at this
      omega
    | cons d u' =>
      have hd : isDigitCh d = true := by
        apply natRepr_digits j
        apply List.mem_of_mem_drop
        rw [hu]
        exact List.mem_cons_self _ _
      rw [List.cons_append, List.cons_append]
      apply strStarts_head_ne
      intro h
      rw [← h] at hd
      simp [isDigitCh] at hd
  · by_cases hkL : k - 3 = (natRepr j).length
    · rw [hkL, List.drop_left]
      rw [show (['_', '_'] : Str) ++ renderK bs =
        '_' :: '_' :: renderK bs from rfl]
      simp only [strStarts, beq_self_eq_true, Bool.true_and]
      cases hr : renderK bs with
      | nil => rfl
      | cons c t =>
        by_cases hcP : c = 'P'
        · subst hcP
          simp only [strStarts, beq_self_eq_true, Bool.true_and]
          cases hni : natRepr i with
          | nil => exact absurd hni (natRepr_ne_nil i)
          | cons d di' =>
            have hd : isDigitCh d = true := by
              apply natRepr_digits i
              rw [hni]
              exact List.mem_cons_self _ _
            cases t with
            | nil => rw [List.cons_append]; rfl
            | cons c2 t2 =>
              have hnd := (renderK_start bs hok 'P' (c2 :: t2) hr).2.2
                rfl c2 t2 rfl
              rw [List.cons_append]
              apply strStarts_head_ne
              intro h
              rw [← h] at hnd
              rw [hd] at hnd
              cases hnd
        · exact strStarts_head_ne (fun h => hcP h.symm)
    · have hkL2 : k - 3 = (natRepr j).length + (k - 3 - (natRepr j).length)
          := by omega
      have hkb : k - 3 - (natRepr j).length = 1 := by omega
      rw [hkL2, hkb, List.drop_append]
      rw [show List.drop 1 (['_', '_'] : Str) = ['_'] from rfl]
      rw [show (['_'] : Str) ++ renderK bs = '_' :: renderK bs from rfl]
      simp only [strStarts, beq_self_eq_true, Bool.true_and]
      cases hr : renderK bs with
      | nil => rfl
      | cons c t =>
        by_cases hcu : c = '_'
        · subst hcu
          simp only [strStarts, beq_self_eq_true, Bool.true_and]
          cases t with
          | nil => rfl
          | cons c2 t2 =>
            have h2 := (renderK_start bs hok '_' (c2 :: t2) hr).2.1
              rfl c2 t2 rfl
            apply strStarts_head_ne
            intro h
            rw [← h] at h2
            exact absurd h2 (by decide)
        · exact strStarts_head_ne (fun h => hcu h.symm)

end Inglish

namespace Inglish

/-- The image of restoring one key under the block view. -/
def replKB (i : Nat) (rep : Str) : KBlock → KBlock
  | KBlock.pkey j => if j = i then KBlock.plain rep else KBlock.pkey j
  | KBlock.plain p => KBlock.plain p

theorem renderK_nil_map (i : Nat) (rep : Str) :
    ∀ bs : List KBlock, renderK bs = [] →
      renderK (bs.map (replKB i rep)) = [] := by
  intro bs
  induction bs with
  | nil => intro _; rfl
  | cons b0 bs2 ih =>
    intro h
    cases b0 with
    | plain p =>
      have h2 : p ++ renderK bs2 = [] := h
      rw [List.append_eq_nil] at h2
      show p ++ renderK (bs2.map (replKB i rep)) = []
      rw [h2.1, ih h2.2]
      rfl
    | pkey j =>
      exfalso
      have h2 : protectKey j ++ renderK bs2 = [] := h
      rw [protectKey_cons] at h2
      exact List.cons_ne_nil _ _ h2

/-- `result.replace(key i, rep)` on a well-formed block render replaces
exactly the `i`-key blocks. -/
theorem replaceAll_renderK (i : Nat) (rep : Str) :
    ∀ (fuel : Nat) (bs : List KBlock) (s : Str),
      s.length ≤ fuel → s = renderK bs → (∀ b ∈ bs, kbOK b) →
      replaceAllGo (protectKey i) rep fuel s =
        renderK (bs.map (replKB i rep)) := by
  intro fuel
  induction fuel with
  | zero =>
    intro bs s hlen hs hok
    have hse : s = [] := List.length_eq_zero.1 (Nat.le_zero.1 hlen)
    subst hse
    show ([] : Str) = _
    rw [renderK_nil_map i rep bs hs.symm]
  | succ fuel ihF =>
    intro bs
    induction bs with
    | nil =>
      intro s hlen hs hok
      have hse : s = [] := by simpa [renderK] using hs
      subst hse
      rfl
    | cons b0 bs2 ihB =>
      cases b0 with
      | plain p =>
        cases p with
        | nil =>
          intro s hlen hs hok
          have hs2 : s = renderK bs2 := by
            simpa [renderK, renderKB] using hs
          rw [ihB s hlen hs2 (fun b hb => hok b (List.mem_cons_of_mem _ hb))]
          rfl
        | cons ch p' =>
          intro s hlen hs hok
          have hr : renderK (KBlock.plain (ch :: p') :: bs2) =
            ch :: (p' ++ renderK bs2) := rfl
          subst hs
          rw [hr] at hlen ⊢
          have hch : ch ≠ '_' := by
            intro h
            exact (hok (KBlock.plain (ch :: p')) (List.mem_cons_self _ _)).1
              (h ▸ List.mem_cons_self _ _)
          have hnm : strStarts (protectKey i) (ch :: (p' ++ renderK bs2)) =
              false := by
            rw [protectKey_cons]
            exact strStarts_head_ne (fun h => hch h.symm)
          simp only [replaceAllGo]
          rw [if_neg (by simp [hnm])]
          have := ihF (KBlock.plain p' :: bs2) (p' ++ renderK bs2)
            (by simp only [List.length_cons] at hlen; omega) rfl
            (fun b hb => by
              rcases List.mem_cons.1 hb with hb | hb
              · subst hb
                have hpok := hok (KBlock.plain (ch :: p'))
                  (List.mem_cons_self _ _)
                exact ⟨fun hm => hpok.1 (List.mem_cons_of_mem _ hm),
                  fun c hm => hpok.2 c (List.mem_cons_of_mem _ hm)⟩
              · exact hok b (List.mem_cons_of_mem _ hb))
          rw [this]
          rfl
      | pkey j =>
        intro s hlen hs hok
        have hr : renderK (KBlock.pkey j :: bs2) =
          protectKey j ++ renderK bs2 := rfl
        subst hs
        rw [hr] at hlen ⊢
        have hklen : 1 ≤ (protectKey j).length := by
          rw [protectKey_length]
          omega
        have hrlen : (renderK bs2).length ≤ fuel := by
          rw [List.length_append] at hlen
          rw [protectKey_length] at hlen
          omega
        have hoks : ∀ b ∈ bs2, kbOK b := fun b hb =>
          hok b (List.mem_cons_of_mem _ hb)
        by_cases hij : j = i
        · subst hij
          rw [replaceAllGo_head_match (protectKey j) rep
            (fun h => by rw [h] at hklen; simp at hklen) fuel (renderK bs2)]
          rw [ihF bs2 (renderK bs2) hrlen rfl hoks]
          show rep ++ _ = renderK (replKB j rep (KBlock.pkey j) ::
            bs2.map (replKB j rep))
          simp [replKB, renderK, renderKB]
        · rw [replaceAllGo_copy (protectKey i) rep (protectKey j) (fuel + 1)
            (renderK bs2) hlen (protectKey_no_match hij bs2 hoks)]
          have hflen : (renderK bs2).length ≤ fuel + 1 -
              (protectKey j).length := by
            rw [List.length_append] at hlen
            omega
          rw [replaceAllGo_fuel (protectKey i) rep
            (by
              intro h
              have := congrArg List.length h
              rw [protectKey_length] at this
              simp at this)
            (fuel + 1 - (protectKey j).length) (renderK bs2) fuel hflen
            (by omega)]
          rw [ihF bs2 (renderK bs2) (by omega) rfl hoks]
          show protectKey j ++ _ = renderK (replKB i rep (KBlock.pkey j) ::
            bs2.map (replKB i rep))
          simp only [replKB, if_neg hij, renderK, renderKB]

end Inglish

namespace Inglish

/-- Characters that cannot occur inside a `__Pn__` key. -/
def keyFree (c : Char) : Prop := c ≠ '_' ∧ c ≠ 'P' ∧ isDigitCh c = false

theorem keyFree_not_in_key {c : Char} {j : Nat} (hf : keyFree c) :
    c ∉ protectKey j := by
  intro hm
  rcases protectKey_chars hm with h | h | h
  · exact hf.1 h
  · exact hf.2.1 h
  · rw [hf.2.2] at h
    cases h

theorem renderK_single (b : KBlock) : renderK [b] = renderKB b := by
  show renderKB b ++ renderK [] = renderKB b
  rw [show renderK [] = [] from rfl, List.append_nil]

/-- Splitting a well-formed block render at a boundary whose adjacent
character on either side cannot belong to a key splits the block list. -/
theorem renderK_split :
    ∀ (bs : List KBlock) (x y : Str),
      renderK bs = x ++ y → (∀ b ∈ bs, kbOK b) →
      ((∃ c, x.getLast? = some c ∧ keyFree c) ∨
       (∃ c, y.head? = some c ∧ keyFree c) ∨ x = [] ∨ y = []) →
      ∃ bsx bsy, x = renderK bsx ∧ y = renderK bsy ∧
        (∀ b ∈ bsx, kbOK b) ∧ (∀ b ∈ bsy, kbOK b) ∧
        (∀ j, KBlock.pkey j ∈ bs →
          KBlock.pkey j ∈ bsx ∨ KBlock.pkey j ∈ bsy) ∧
        (∀ j, KBlock.pkey j ∈ bsx ∨ KBlock.pkey j ∈ bsy →
          KBlock.pkey j ∈ bs) := by
  intro bs
  induction bs with
  | nil =>
    intro x y hr _ _
    have hx : x = [] ∧ y = [] := by
      have h0 : ([] : Str) = x ++ y := hr
      exact List.append_eq_nil.1 h0.symm
    refine ⟨[], [], by rw [hx.1]; rfl, by rw [hx.2]; rfl, by simp, by simp,
      ?_, ?_⟩
    · intro j hj
      cases hj
    · intro j hj
      rcases hj with hj | hj
      · cases hj
      · cases hj
  | cons b bs2 ih =>
    intro x y hr hok hcut
    have hoks : ∀ b2 ∈ bs2, kbOK b2 := fun b2 hb =>
      hok b2 (List.mem_cons_of_mem _ hb)
    by_cases hx0 : x = []
    · subst hx0
      rw [List.nil_append] at hr
      refine ⟨[], b :: bs2, rfl, hr.symm, by simp, hok,
        fun j hj => Or.inr hj, ?_⟩
      intro j hj
      rcases hj with hj | hj
      · cases hj
      · exact hj
    by_cases hy0 : y = []
    · subst hy0
      rw [List.append_nil] at hr
      refine ⟨b :: bs2, [], hr.symm, rfl, hok, by simp,
        fun j hj => Or.inl hj, ?_⟩
      intro j hj
      rcases hj with hj | hj
      · exact hj
      · cases hj
    have hr2 : renderKB b ++ renderK bs2 = x ++ y := hr
    rcases List.append_eq_append_iff.1 hr2 with ⟨a2, ha1, ha2⟩ |
      ⟨c2, hc1, hc2⟩
    · cases a2 with
      | nil =>
        rw [List.append_nil] at ha1
        rw [List.nil_append] at ha2
        refine ⟨[b], bs2, by rw [ha1, renderK_single], ha2.symm, ?_, hoks,
          ?_, ?_⟩
        · intro b2 hb
          rcases List.mem_cons.1 hb with hb | hb
          · exact hb ▸ hok b (List.mem_cons_self _ _)
          · cases hb
        · intro j hj
          rcases List.mem_cons.1 hj with hj | hj
          · exact Or.inl (hj ▸ List.mem_cons_self _ _)
          · exact Or.inr hj
        · intro j hj
          rcases hj with hj | hj
          · rcases List.mem_cons.1 hj with hj | hj
            · exact hj ▸ List.mem_cons_self _ _
            · cases hj
          · exact List.mem_cons_of_mem _ hj
      | cons a0 a2' =>
        have hcut2 : (∃ c, (a0 :: a2').getLast? = some c ∧ keyFree c) ∨
            (∃ c, y.head? = some c ∧ keyFree c) ∨
            (a0 :: a2') = [] ∨ y = [] := by
          rcases hcut with ⟨c, hcl, hcf⟩ | h | h | h
          · left
            refine ⟨c, ?_, hcf⟩
            rw [ha1] at hcl
            rwa [List.getLast?_append_of_ne_nil _
              (List.cons_ne_nil a0 a2')] at hcl
          · exact Or.inr (Or.inl h)
          · exact absurd h hx0
          · exact absurd h hy0
        obtain ⟨bsx2, bsy2, hbx, hby, hokx, hoky, hmem, hmem2⟩ :=
          ih (a0 :: a2') y ha2 hoks hcut2
        refine ⟨b :: bsx2, bsy2, ?_, hby, ?_, hoky, ?_, ?_⟩
        · rw [ha1, hbx]
          rfl
        · intro b2 hb
          rcases List.mem_cons.1 hb with hb | hb
          · exact hb ▸ hok b (List.mem_cons_self _ _)
          · exact hokx b2 hb
        · intro j hj
          rcases List.mem_cons.1 hj with hj | hj
          · exact Or.inl (hj ▸ List.mem_cons_self _ _)
          · rcases hmem j hj with h | h
            · exact Or.inl (List.mem_cons_of_mem _ h)
            · exact Or.inr h
        · intro j hj
          rcases hj with hj | hj
          · rcases List.mem_cons.1 hj with hj | hj
            · exact hj ▸ List.mem_cons_self _ _
            · exact List.mem_cons_of_mem _ (hmem2 j (Or.inl hj))
          · exact List.mem_cons_of_mem _ (hmem2 j (Or.inr hj))
    · cases c2 with
      | nil =>
        rw [List.append_nil] at hc1
        rw [List.nil_append] at hc2
        refine ⟨[b], bs2, by rw [← hc1, renderK_single], hc2, ?_, hoks,
          ?_, ?_⟩
        · intro b2 hb
          rcases List.mem_cons.1 hb with hb | hb
          · exact hb ▸ hok b (List.mem_cons_self _ _)
          · cases hb
        · intro j hj
          rcases List.mem_cons.1 hj with hj | hj
          · exact Or.inl (hj ▸ List.mem_cons_self _ _)
          · exact Or.inr hj
        · intro j hj
          rcases hj with hj | hj
          · rcases List.mem_cons.1 hj with hj | hj
            · exact hj ▸ List.mem_cons_self _ _
            · cases hj
          · exact List.mem_cons_of_mem _ hj
      | cons d c2' =>
        cases b with
        | pkey j =>
          exfalso
          have hc1k : protectKey j = x ++ d :: c2' := hc1
          rcases hcut with ⟨c, hcl, hcf⟩ | ⟨c, hch, hcf⟩ | h | h
          · cases hx : x with
            | nil => exact hx0 hx
            | cons x0 x2 =>
              subst hx
              have hcm : c ∈ x0 :: x2 := by
                rw [List.getLast?_eq_getLast (x0 :: x2)
                  (List.cons_ne_nil _ _)] at hcl
                injection hcl with hcl
                rw [← hcl]
                exact List.getLast_mem _
              apply keyFree_not_in_key hcf (j := j)
              rw [hc1k]
              exact List.mem_append.2 (Or.inl hcm)
          · rw [hc2] at hch
            have hch2 : d = c := by
              rw [List.cons_append] at hch
              simpa using hch
            apply keyFree_not_in_key hcf (j := j)
            rw [hc1k, ← hch2]
            exact List.mem_append.2 (Or.inr (List.mem_cons_self _ _))
          · exact hx0 h
          · exact hy0 h
        | plain p =>
          have hpok := hok (KBlock.plain p) (List.mem_cons_self _ _)
          have hc1p : p = x ++ d :: c2' := hc1
          refine ⟨[KBlock.plain x], KBlock.plain (d :: c2') :: bs2,
            by rw [renderK_single]; rfl, hc2, ?_, ?_, ?_, ?_⟩
          · intro b2 hb
            rcases List.mem_cons.1 hb with hb | hb
            · subst hb
              constructor
              · intro hm
                exact hpok.1 (hc1p ▸ List.mem_append.2 (Or.inl hm))
              · intro ch hm
                exact hpok.2 ch (hc1p ▸ List.mem_append.2 (Or.inl hm))
            · cases hb
          · intro b2 hb
            rcases List.mem_cons.1 hb with hb | hb
            · subst hb
              constructor
              · intro hm
                exact hpok.1 (hc1p ▸ List.mem_append.2 (Or.inr hm))
              · intro ch hm
                exact hpok.2 ch (hc1p ▸ List.mem_append.2 (Or.inr hm))
            · exact hoks b2 hb
          · intro j hj
            rcases List.mem_cons.1 hj with hj | hj
            · cases hj
            · exact Or.inr (List.mem_cons_of_mem _ hj)
          · intro j hj
            rcases hj with hj | hj
            · rcases List.mem_cons.1 hj with hj | hj
              · cases hj
              · cases hj
            · rcases List.mem_cons.1 hj with hj | hj
              · cases hj
              · exact List.mem_cons_of_mem _ hj

end Inglish

namespace Inglish

/-- Structured guarded input: alternating bracket-free segments and
bracketed terms, with a trailing segment. -/
def itemsRender : List (Str × Str) → Str → Str
  | [], tl => tl
  | (c, t) :: rest, tl => c ++ '[' :: (t ++ ']' :: itemsRender rest tl)

/-- The block view of the protect-stage output on structured input. -/
def blocksPI : List (Str × Str) → Str → Nat → List KBlock
  | [], tl, _ => [KBlock.plain tl]
  | (c, _) :: rest, tl, n =>
    KBlock.plain c :: KBlock.pkey n :: blocksPI rest tl (n + 1)

/-- The protect-stage side map on structured input, in mint order. -/
def pairsPI : List (Str × Str) → Nat → List (Str × Str)
  | [], _ => []
  | (_, t) :: rest, n =>
    (protectKey n, '[' :: (t ++ [']'])) :: pairsPI rest (n + 1)

theorem protectGo_fuel :
    ∀ (f1 : Nat) (s : Str) (n : Nat) (f2 : Nat),
      s.length ≤ f1 → s.length ≤ f2 →
      protectGo f1 s n = protectGo f2 s n := by
  intro f1
  induction f1 with
  | zero =>
    intro s n f2 h1 _
    have hs : s = [] := List.length_eq_zero.1 (Nat.le_zero.1 h1)
    subst hs
    cases f2 <;> rfl
  | succ f1 ih =>
    intro s n f2 h1 h2
    cases s with
    | nil => cases f2 <;> rfl
    | cons c rest =>
      cases f2 with
      | zero => simp at h2
      | succ f2 =>
        simp only [List.length_cons] at h1 h2
        simp only [protectGo]
        by_cases hc : c = '['
        · rw [if_pos hc, if_pos hc]
          cases hsp : splitAtRB rest with
          | none =>
            rw [ih rest n f2 (by omega) (by omega)]
          | some p =>
            obtain ⟨cnt, after⟩ := p
            dsimp only
            obtain ⟨hdec, -⟩ := splitAtRB_noRB_sound rest cnt after hsp
            have hal : after.length ≤ rest.length - 1 := by
              rw [hdec]
              simp
            by_cases hce : cnt.isEmpty
            · rw [if_pos hce, if_pos hce]
              rw [ih rest n f2 (by omega) (by omega)]
            · rw [if_neg hce, if_neg hce]
              rw [ih after (n + 1) f2 (by omega) (by omega)]
        · rw [if_neg hc, if_neg hc]
          rw [ih rest n f2 (by omega) (by omega)]

theorem protectGo_copy :
    ∀ (w : Str) (fuel : Nat) (s : Str) (n : Nat),
      (w ++ s).length ≤ fuel → '[' ∉ w →
      protectGo fuel (w ++ s) n =
        ((w ++ (protectGo (fuel - w.length) s n).1),
          (protectGo (fuel - w.length) s n).2) := by
  intro w
  induction w with
  | nil =>
    intro fuel s n _ _
    simp only [List.nil_append, List.length_nil, Nat.sub_zero]
  | cons c w2 ih =>
    intro fuel s n hlen hnb
    cases fuel with
    | zero =>
      simp only [List.cons_append, List.length_cons] at hlen
      omega
    | succ f =>
      have hc : c ≠ '[' := fun h => hnb (h ▸ List.mem_cons_self _ _)
      rw [List.cons_append]
      simp only [protectGo]
      rw [if_neg hc]
      rw [ih f s n (by simpa [Nat.succ_le_succ_iff] using hlen)
        (fun h => hnb (List.mem_cons_of_mem _ h))]
      simp only [List.length_cons]
      have hfe : f - w2.length = f + 1 - (w2.length + 1) := by omega
      rw [hfe]
      rfl

theorem protectGo_items :
    ∀ (items : List (Str × Str)) (tl : Str) (n : Nat) (fuel : Nat),
      (itemsRender items tl).length ≤ fuel →
      (∀ p ∈ items, '[' ∉ p.1 ∧ p.2 ≠ [] ∧ ']' ∉ p.2) →
      '[' ∉ tl →
      protectGo fuel (itemsRender items tl) n =
        (renderK (blocksPI items tl n), pairsPI items n) := by
  intro items
  induction items with
  | nil =>
    intro tl n fuel hlen _ htl
    show protectGo fuel tl n = _
    rw [protectGo_id fuel tl n htl]
    rw [show blocksPI [] tl n = [KBlock.plain tl] from rfl,
      renderK_single]
    rfl
  | cons it rest ih =>
    intro tl n fuel hlen hok htl
    obtain ⟨c0, t0⟩ := it
    have hit := hok (c0, t0) (List.mem_cons_self _ _)
    have hoks : ∀ p ∈ rest, '[' ∉ p.1 ∧ p.2 ≠ [] ∧ ']' ∉ p.2 :=
      fun p hp => hok p (List.mem_cons_of_mem _ hp)
    have hir : itemsRender ((c0, t0) :: rest) tl =
      c0 ++ '[' :: (t0 ++ ']' :: itemsRender rest tl) := rfl
    rw [hir] at hlen ⊢
    rw [protectGo_copy c0 fuel ('[' :: (t0 ++ ']' :: itemsRender rest tl)) n
      hlen hit.1]
    have hf2 : ('[' :: (t0 ++ ']' :: itemsRender rest tl)).length ≤
        fuel - c0.length := by
      rw [List.length_append] at hlen
      omega
    cases hf : fuel - c0.length with
    | zero =>
      rw [hf] at hf2
      simp at hf2
    | succ f3 =>
      rw [hf] at hf2
      simp only [protectGo, if_pos rfl]
      rw [splitAtRB_append hit.2.2]
      dsimp only
      have hce : t0.isEmpty = false := by
        cases ht0 : t0 with
        | nil => exact absurd ht0 hit.2.1
        | cons a b => rfl
      have hcne : ¬(List.isEmpty t0 = true) := by
        rw [hce]
        exact Bool.false_ne_true
      rw [if_neg hcne]
      have hf3 : (itemsRender rest tl).length ≤ f3 := by
        simp only [List.length_cons, List.length_append] at hf2
        omega
      rw [ih tl (n + 1) f3 hf3 hoks htl]
      show (c0 ++ (protectKey n ++ renderK (blocksPI rest tl (n + 1))), _) =
        (renderK (KBlock.plain c0 :: KBlock.pkey n :: blocksPI rest tl
          (n + 1)), pairsPI ((c0, t0) :: rest) n)
      rfl

theorem blocksPI_ok :
    ∀ (items : List (Str × Str)) (tl : Str) (n : Nat),
      (∀ p ∈ items, '_' ∉ p.1 ∧ ∀ c ∈ p.1, isDigitCh c = false) →
      ('_' ∉ tl ∧ ∀ c ∈ tl, isDigitCh c = false) →
      ∀ b ∈ blocksPI items tl n, kbOK b := by
  intro items
  induction items with
  | nil =>
    intro tl n _ htl b hb
    rcases List.mem_cons.1 hb with hb | hb
    · subst hb
      exact htl
    · cases hb
  | cons it rest ih =>
    intro tl n hok htl b hb
    obtain ⟨c0, t0⟩ := it
    rcases List.mem_cons.1 hb with hb | hb
    · subst hb
      exact hok (c0, t0) (List.mem_cons_self _ _)
    rcases List.mem_cons.1 hb with hb | hb
    · subst hb
      trivial
    · exact ih tl (n + 1) (fun p hp => hok p (List.mem_cons_of_mem _ hp))
        htl b hb

theorem blocksPI_keys :
    ∀ (items : List (Str × Str)) (tl : Str) (n : Nat) (j : Nat),
      KBlock.pkey j ∈ blocksPI items tl n → n ≤ j ∧ j < n + items.length
  := by
  intro items
  induction items with
  | nil =>
    intro tl n j hj
    rcases List.mem_cons.1 hj with hj | hj
    · cases hj
    · cases hj
  | cons it rest ih =>
    intro tl n j hj
    obtain ⟨c0, t0⟩ := it
    rcases List.mem_cons.1 hj with hj | hj
    · cases hj
    rcases List.mem_cons.1 hj with hj | hj
    · injection hj with hj
      simp only [List.length_cons]
      omega
    · have := ih tl (n + 1) j hj
      simp only [List.length_cons]
      omega

theorem blocksPI_present :
    ∀ (items : List (Str × Str)) (tl : Str) (n : Nat) (i : Nat),
      i < items.length → KBlock.pkey (n + i) ∈ blocksPI items tl n := by
  intro items
  induction items with
  | nil =>
    intro tl n i hi
    simp at hi
  | cons it rest ih =>
    intro tl n i hi
    obtain ⟨c0, t0⟩ := it
    cases i with
    | zero =>
      exact List.mem_cons_of_mem _ (List.mem_cons_self _ _)
    | succ i2 =>
      have := ih tl (n + 1) i2 (by simp only [List.length_cons] at hi; omega)
      have he : n + (i2 + 1) = n + 1 + i2 := by omega
      rw [he]
      exact List.mem_cons_of_mem _ (List.mem_cons_of_mem _ this)

theorem blocksPI_plains :
    ∀ (items : List (Str × Str)) (tl : Str) (n : Nat) (p : Str),
      KBlock.plain p ∈ blocksPI items tl n →
      p = tl ∨ ∃ it ∈ items, p = it.1 := by
  intro items
  induction items with
  | nil =>
    intro tl n p hp
    rcases List.mem_cons.1 hp with hp | hp
    · injection hp with hp
      exact Or.inl hp
    · cases hp
  | cons it rest ih =>
    intro tl n p hp
    obtain ⟨c0, t0⟩ := it
    rcases List.mem_cons.1 hp with hp | hp
    · injection hp with hp
      exact Or.inr ⟨(c0, t0), List.mem_cons_self _ _, hp⟩
    rcases List.mem_cons.1 hp with hp | hp
    · cases hp
    · rcases ih tl (n + 1) p hp with h | ⟨it2, hit2, hp2⟩
      · exact Or.inl h
      · exact Or.inr ⟨it2, List.mem_cons_of_mem _ hit2, hp2⟩

end Inglish

namespace Inglish

theorem wordMap_keys_plain : ∀ p ∈ wordMap, '_' ∉ p.1 := by decide

theorem wordMapVals_ok : ∀ p ∈ wordMap,
    '_' ∉ p.2 ∧ ∀ c ∈ p.2, isDigitCh c = false := by decide

theorem mem_dropWhile_of_not {c : Char} {P : Char → Bool} :
    ∀ {s : Str}, c ∈ s → P c = false → c ∈ s.dropWhile P := by
  intro s
  induction s with
  | nil => intro h _; cases h
  | cons a rest ih =>
    intro h hP
    rw [List.dropWhile_cons]
    by_cases ha : P a = true
    · rw [if_pos ha]
      rcases List.mem_cons.1 h with h | h
      · rw [h] at hP
        rw [hP] at ha
        cases ha
      · exact ih h hP
    · rw [if_neg ha]
      exact h

theorem mem_cleanWord {w : Str} (h : '_' ∈ w) : '_' ∈ cleanWord w := by
  have h1 : '_' ∈ lowerStr w := by
    unfold lowerStr
    have he : Char.toLower '_' = '_' := by decide
    rw [← he]
    exact List.mem_map_of_mem _ h
  have hnp : extractorPunct.contains '_' = false := by decide
  unfold cleanWord stripChars
  rw [List.mem_reverse]
  apply mem_dropWhile_of_not _ hnp
  rw [List.mem_reverse]
  exact mem_dropWhile_of_not h1 hnp

theorem substWord_underscore (keys : List Str) {w : Str} (h : '_' ∈ w) :
    substWord keys w = some w := by
  unfold substWord
  by_cases hk : keys.any (fun k => k == w)
  · rw [if_pos hk]
  · rw [if_neg hk]
    cases hl : lookupAssoc wordMap (cleanWord w) with
    | none => rfl
    | some m =>
      exfalso
      unfold lookupAssoc at hl
      cases hf : wordMap.find? (fun p => p.1 == cleanWord w) with
      | none =>
        rw [hf] at hl
        cases hl
      | some p =>
        have hp := List.find?_some hf
        have hpm := List.mem_of_find?_eq_some hf
        rw [beq_iff_eq] at hp
        have h2 := wordMap_keys_plain p hpm
        rw [hp] at h2
        exact h2 (mem_cleanWord h)

theorem dropWhile_nonspace_head :
    ∀ (l : Str) (h : Char),
      (l.dropWhile (fun d => !pyIsSpace d)).head? = some h →
      pyIsSpace h = true := by
  intro l
  induction l with
  | nil => intro h hh; cases hh
  | cons c rest ih =>
    intro h hh
    rw [List.dropWhile_cons] at hh
    by_cases hc : pyIsSpace c
    · rw [if_neg (by rw [hc]; decide)] at hh
      injection hh with hh
      rw [← hh]
      exact hc
    · rw [if_pos (by simp only [Bool.not_eq_true] at hc; rw [hc]; decide)]
        at hh
      exact ih h hh

theorem keyFree_of_space {c : Char} (h : pyIsSpace c = true) : keyFree c := by
  simp only [pyIsSpace, Bool.or_eq_true, beq_iff_eq] at h
  rcases h with ((((h | h) | h) | h) | h) | h <;> subst h <;>
    exact ⟨by decide, by decide, by decide⟩

theorem pkey_render_underscore {bs : List KBlock} {j : Nat}
    (h : KBlock.pkey j ∈ bs) : '_' ∈ renderK bs := by
  apply renderKB_mem bs (KBlock.pkey j) '_' h
  show '_' ∈ protectKey j
  rw [protectKey_cons]
  exact List.mem_cons_self _ _

end Inglish

namespace Inglish

/-- The word-substitution stage (split, substitute, rejoin) maps a
well-formed block render to a well-formed block render with exactly the
same placeholder keys present. -/
theorem pySplit_join_blocks (keys : List Str) :
    ∀ (fuel : Nat) (bs : List KBlock) (s : Str),
      s.length ≤ fuel → s = renderK bs → (∀ b ∈ bs, kbOK b) →
      ∃ bs2, joinSp ((pySplitGo fuel s).filterMap (substWord keys)) =
          renderK bs2 ∧ (∀ b ∈ bs2, kbOK b) ∧
        (∀ j, KBlock.pkey j ∈ bs → KBlock.pkey j ∈ bs2) ∧
        (∀ j, KBlock.pkey j ∈ bs2 → KBlock.pkey j ∈ bs) := by
  intro fuel
  induction fuel with
  | zero =>
    intro bs s hlen hs hok
    have hse : s = [] := List.length_eq_zero.1 (Nat.le_zero.1 hlen)
    subst hse
    refine ⟨[], rfl, by simp, ?_, ?_⟩
    · intro j hj
      exfalso
      have hu := pkey_render_underscore hj
      rw [← hs] at hu
      cases hu
    · intro j hj
      cases hj
  | succ fuel ih =>
    intro bs s hlen hs hok
    cases s with
    | nil =>
      refine ⟨[], rfl, by simp, ?_, ?_⟩
      · intro j hj
        exfalso
        have hu := pkey_render_underscore hj
        rw [← hs] at hu
        cases hu
      · intro j hj
        cases hj
    | cons c rest =>
      by_cases hc : pyIsSpace c
      · obtain ⟨bsx, bsy, hbx, hby, hokx, hoky, hmem, hmem2⟩ :=
          renderK_split bs [c] rest hs.symm hok
            (Or.inl ⟨c, rfl, keyFree_of_space hc⟩)
        have hred : pySplitGo (fuel + 1) (c :: rest) =
            pySplitGo fuel rest := by
          show (if pyIsSpace c = true then pySplitGo fuel rest else
            (c :: rest.takeWhile (fun d => !pyIsSpace d)) ::
            pySplitGo fuel (rest.dropWhile (fun d => !pyIsSpace d))) = _
          rw [if_pos hc]
        rw [hred]
        obtain ⟨bs2, h1, h2, h3, h4⟩ := ih bsy rest
          (by simp only [List.length_cons] at hlen; omega) hby hoky
        refine ⟨bs2, h1, h2, ?_, ?_⟩
        · intro j hj
          rcases hmem j hj with h | h
          · exfalso
            have hu := pkey_render_underscore h
            rw [← hbx] at hu
            rcases List.mem_cons.1 hu with hu | hu
            · rw [← hu] at hc
              exact absurd hc (by decide)
            · cases hu
          · exact h3 j h
        · intro j hj
          exact hmem2 j (Or.inr (h4 j hj))
      · have hred : pySplitGo (fuel + 1) (c :: rest) =
            (c :: rest.takeWhile (fun d => !pyIsSpace d)) ::
            pySplitGo fuel (rest.dropWhile (fun d => !pyIsSpace d)) := by
          show (if pyIsSpace c = true then pySplitGo fuel rest else
            (c :: rest.takeWhile (fun d => !pyIsSpace d)) ::
            pySplitGo fuel (rest.dropWhile (fun d => !pyIsSpace d))) = _
          rw [if_neg hc]
        rw [hred]
        have hsdec : c :: rest = (c :: rest.takeWhile (fun d => !pyIsSpace d))
            ++ rest.dropWhile (fun d => !pyIsSpace d) := by
          rw [List.cons_append, List.takeWhile_append_dropWhile]
        have hcut : (∃ ch, (c :: rest.takeWhile
              (fun d => !pyIsSpace d)).getLast? = some ch ∧ keyFree ch) ∨
            (∃ ch, (rest.dropWhile (fun d => !pyIsSpace d)).head? =
              some ch ∧ keyFree ch) ∨
            (c :: rest.takeWhile (fun d => !pyIsSpace d)) = [] ∨
            rest.dropWhile (fun d => !pyIsSpace d) = [] := by
          cases hr2c : rest.dropWhile (fun d => !pyIsSpace d) with
          | nil => exact Or.inr (Or.inr (Or.inr rfl))
          | cons h0 t0 =>
            refine Or.inr (Or.inl ⟨h0, rfl, ?_⟩)
            exact keyFree_of_space (dropWhile_nonspace_head rest h0
              (by rw [hr2c]; rfl))
        obtain ⟨bsw, bsr, hbw, hbr, hokw, hokr, hmemw, hmemw2⟩ :=
          renderK_split bs (c :: rest.takeWhile (fun d => !pyIsSpace d))
            (rest.dropWhile (fun d => !pyIsSpace d))
            (by rw [← hsdec]; exact hs.symm) hok hcut
        have hlr2 : (rest.dropWhile (fun d => !pyIsSpace d)).length ≤ fuel
            := by
          have := (List.dropWhile_sublist
            (fun d => !pyIsSpace d) (l := rest)).length_le
          simp only [List.length_cons] at hlen
          omega
        obtain ⟨bs2r, h1r, h2r, h3r, h4r⟩ := ih bsr
          (rest.dropWhile (fun d => !pyIsSpace d)) hlr2 hbr hokr
        have hasm : ∀ (bstok : List KBlock), (∀ b ∈ bstok, kbOK b) →
            ∃ bs2, joinSp (renderK bstok ::
                (pySplitGo fuel (rest.dropWhile
                  (fun d => !pyIsSpace d))).filterMap (substWord keys)) =
              renderK bs2 ∧ (∀ b ∈ bs2, kbOK b) ∧
              (∀ j, KBlock.pkey j ∈ bstok ∨ KBlock.pkey j ∈ bs2r →
                KBlock.pkey j ∈ bs2) ∧
              (∀ j, KBlock.pkey j ∈ bs2 →
                KBlock.pkey j ∈ bstok ∨ KBlock.pkey j ∈ bs2r) := by
          intro bstok hokt
          cases hout : (pySplitGo fuel (rest.dropWhile
              (fun d => !pyIsSpace d))).filterMap (substWord keys) with
          | nil =>
            refine ⟨bstok, rfl, hokt, ?_, fun j hj => Or.inl hj⟩
            intro j hj
            rcases hj with hj | hj
            · exact hj
            · exfalso
              have hu := pkey_render_underscore hj
              rw [← h1r, hout] at hu
              cases hu
          | cons o1 os =>
            refine ⟨bstok ++ KBlock.plain [' '] :: bs2r, ?_, ?_, ?_, ?_⟩
            · show renderK bstok ++ ' ' :: joinSp (o1 :: os) = _
              rw [renderK_append]
              show _ = renderK bstok ++ ([' '] ++ renderK bs2r)
              rw [← h1r, hout]
              rfl
            · intro b hb
              rcases List.mem_append.1 hb with hb | hb
              · exact hokt b hb
              rcases List.mem_cons.1 hb with hb | hb
              · subst hb
                exact ⟨by decide, by decide⟩
              · exact h2r b hb
            · intro j hj
              rcases hj with hj | hj
              · exact List.mem_append.2 (Or.inl hj)
              · exact List.mem_append.2 (Or.inr (List.mem_cons_of_mem _ hj))
            · intro j hj
              rcases List.mem_append.1 hj with hj | hj
              · exact Or.inl hj
              · rcases List.mem_cons.1 hj with hj | hj
                · cases hj
                · exact Or.inr hj
        by_cases hu : '_' ∈ (c :: rest.takeWhile (fun d => !pyIsSpace d))
        · have hsub := substWord_underscore keys hu
          rw [List.filterMap_cons, hsub]
          rw [hbw] at hsub ⊢
          obtain ⟨bs2, ha1, ha2, ha3, ha4⟩ := hasm bsw hokw
          refine ⟨bs2, ha1, ha2, ?_, ?_⟩
          · intro j hj
            rcases hmemw j hj with h | h
            · exact ha3 j (Or.inl h)
            · exact ha3 j (Or.inr (h3r j h))
          · intro j hj
            rcases ha4 j hj with h | h
            · exact hmemw2 j (Or.inl h)
            · exact hmemw2 j (Or.inr (h4r j h))
        · cases hsw : substWord keys
              (c :: rest.takeWhile (fun d => !pyIsSpace d)) with
          | none =>
            rw [List.filterMap_cons, hsw]
            refine ⟨bs2r, h1r, h2r, ?_, ?_⟩
            · intro j hj
              rcases hmemw j hj with h | h
              · exfalso
                have hund := pkey_render_underscore h
                rw [← hbw] at hund
                exact hu hund
              · exact h3r j h
            · intro j hj
              exact hmemw2 j (Or.inr (h4r j hj))
          | some o =>
            rw [List.filterMap_cons, hsw]
            rcases substWord_cases hsw with ho | ⟨p, hp, hpv⟩
            · rw [ho, hbw] at hsw ⊢
              obtain ⟨bs2, ha1, ha2, ha3, ha4⟩ := hasm bsw hokw
              refine ⟨bs2, ha1, ha2, ?_, ?_⟩
              · intro j hj
                rcases hmemw j hj with h | h
                · exact ha3 j (Or.inl h)
                · exact ha3 j (Or.inr (h3r j h))
              · intro j hj
                rcases ha4 j hj with h | h
                · exact hmemw2 j (Or.inl h)
                · exact hmemw2 j (Or.inr (h4r j h))
            · have hoo : o = renderK [KBlock.plain o] :=
                (renderK_single (KBlock.plain o)).symm
              rw [hoo]
              have hoOK : ∀ b ∈ [KBlock.plain o], kbOK b := by
                intro b hb
                rcases List.mem_cons.1 hb with hb | hb
                · subst hb
                  have := wordMapVals_ok p hp
                  rw [hpv] at this
                  exact this
                · cases hb
              obtain ⟨bs2, ha1, ha2, ha3, ha4⟩ := hasm [KBlock.plain o] hoOK
              refine ⟨bs2, ha1, ha2, ?_, ?_⟩
              · intro j hj
                rcases hmemw j hj with h | h
                · exfalso
                  have hund := pkey_render_underscore h
                  rw [← hbw] at hund
                  exact hu hund
                · exact ha3 j (Or.inr (h3r j h))
              · intro j hj
                rcases ha4 j hj with h | h
                · rcases List.mem_cons.1 h with h | h
                  · cases h
                  · cases h
                · exact hmemw2 j (Or.inr (h4r j h))

end Inglish

namespace Inglish

theorem sovVerbs_blocks_ok : ∀ v ∈ sovVerbs,
    v ≠ [] ∧ '_' ∉ v ∧ 'P' ∉ v ∧ ∀ c ∈ v, isDigitCh c = false := by
  decide

theorem keyFree_of_punct4 {c : Char} (h : punct4 c = true) : keyFree c := by
  simp only [punct4, Bool.or_eq_true, beq_iff_eq] at h
  rcases h with ((h | h) | h) | h <;> subst h <;>
    exact ⟨by decide, by decide, by decide⟩

theorem no_pkey_of_space {bs : List KBlock} {w : Str}
    (hw : w = renderK bs) (hsp : ∀ c ∈ w, pyIsSpace c = true) :
    ∀ j, KBlock.pkey j ∉ bs := by
  intro j hj
  have hu := pkey_render_underscore hj
  rw [← hw] at hu
  have h2 := hsp '_' hu
  exact absurd h2 (by decide)

theorem no_pkey_of_no_us {bs : List KBlock} {w : Str}
    (hw : w = renderK bs) (hnu : '_' ∉ w) : ∀ j, KBlock.pkey j ∉ bs := by
  intro j hj
  have hu := pkey_render_underscore hj
  rw [← hw] at hu
  exact hnu hu

/-- The SOV reorder step maps a well-formed block render to a well-formed
block render with the same placeholder keys present. -/
theorem sovStep_blocks (bs : List KBlock) (hok : ∀ b ∈ bs, kbOK b) :
    ∃ bs2, sovStep (renderK bs) = renderK bs2 ∧ (∀ b ∈ bs2, kbOK b) ∧
      (∀ j, KBlock.pkey j ∈ bs → KBlock.pkey j ∈ bs2) ∧
      (∀ j, KBlock.pkey j ∈ bs2 → KBlock.pkey j ∈ bs) := by
  cases hf : sovVerbs.findSome? (fun v => (sovMatch v (renderK bs)).map
      (fun r => (v, r))) with
  | none =>
    refine ⟨bs, ?_, hok, fun j h => h, fun j h => h⟩
    unfold sovStep
    rw [hf]
  | some b =>
    obtain ⟨l1, a, l2, hsp2, ha, -⟩ := findSome_split _ _ _ hf
    have hav : a ∈ sovVerbs := by
      rw [hsp2]
      exact List.mem_append.2 (Or.inr (List.mem_cons_self _ _))
    have haf := sovVerbs_blocks_ok a hav
    cases hma : sovMatch a (renderK bs) with
    | none =>
      rw [hma] at ha
      cases ha
    | some r =>
      rw [hma] at ha
      simp only [Option.map_some'] at ha
      injection ha with ha2
      subst ha2
      obtain ⟨g1, g2, P⟩ := r
      have hstep : sovStep (renderK bs) = g1 ++ ' ' :: g2 ++ ' ' :: a ++ P
          := by
        unfold sovStep
        rw [hf]
      obtain ⟨hg1ne, hg2ne, ws1, ws2, rem, hws1, hws1ne, hws2, hws2ne,
        hP, hrem, hdec⟩ := sovMatch_sound hma
      -- split 1: g1 | rest
      obtain ⟨bsg1, bsY1, e1a, e1b, ok1a, ok1b, m1a, m1b⟩ :=
        renderK_split bs g1 (ws1 ++ a ++ ws2 ++ g2 ++ P ++ rem)
          (by rw [hdec]; simp [List.append_assoc]) hok (by
            cases hws1c : ws1 with
            | nil => exact absurd hws1c hws1ne
            | cons w0 ws1t =>
              refine Or.inr (Or.inl ⟨w0, rfl, keyFree_of_space ?_⟩)
              apply hws1
              rw [hws1c]
              exact List.mem_cons_self _ _)
      -- split 2: ws1 | rest
      obtain ⟨bsws1, bsY2, e2a, e2b, ok2a, ok2b, m2a, m2b⟩ :=
        renderK_split bsY1 ws1 (a ++ ws2 ++ g2 ++ P ++ rem)
          (by rw [← e1b]; simp [List.append_assoc]) ok1b (by
            cases hws1c : ws1 with
            | nil => exact absurd hws1c hws1ne
            | cons w0 ws1t =>
              left
              rw [List.getLast?_eq_getLast (w0 :: ws1t)
                (List.cons_ne_nil _ _)]
              refine ⟨_, rfl, keyFree_of_space ?_⟩
              apply hws1
              rw [hws1c]
              exact List.getLast_mem _)
      -- split 3: a | rest
      obtain ⟨bsa, bsY3, e3a, e3b, ok3a, ok3b, m3a, m3b⟩ :=
        renderK_split bsY2 a (ws2 ++ g2 ++ P ++ rem)
          (by rw [← e2b]; simp [List.append_assoc]) ok2b (by
            cases hws2c : ws2 with
            | nil => exact absurd hws2c hws2ne
            | cons w0 ws2t =>
              refine Or.inr (Or.inl ⟨w0, rfl, keyFree_of_space ?_⟩)
              apply hws2
              rw [hws2c]
              exact List.mem_cons_self _ _)
      -- split 4: ws2 | rest
      obtain ⟨bsws2, bsY4, e4a, e4b, ok4a, ok4b, m4a, m4b⟩ :=
        renderK_split bsY3 ws2 (g2 ++ P ++ rem)
          (by rw [← e3b]; simp [List.append_assoc]) ok3b (by
            cases hws2c : ws2 with
            | nil => exact absurd hws2c hws2ne
            | cons w0 ws2t =>
              left
              rw [List.getLast?_eq_getLast (w0 :: ws2t)
                (List.cons_ne_nil _ _)]
              refine ⟨_, rfl, keyFree_of_space ?_⟩
              apply hws2
              rw [hws2c]
              exact List.getLast_mem _)
      -- split 5: g2 | P ++ rem
      obtain ⟨bsg2, bsPr, e5a, e5b, ok5a, ok5b, m5a, m5b⟩ :=
        renderK_split bsY4 g2 (P ++ rem)
          (by rw [← e4b, List.append_assoc]) ok4b (by
            cases hPc : P with
            | cons p0 Pt =>
              refine Or.inr (Or.inl ⟨p0, rfl, keyFree_of_punct4 ?_⟩)
              apply hP
              rw [hPc]
              exact List.mem_cons_self _ _
            | nil =>
              rcases hrem with h | h
              · subst h
                exact Or.inr (Or.inr (Or.inr rfl))
              · subst h
                exact Or.inr (Or.inl ⟨'\n', rfl,
                  ⟨by decide, by decide, by decide⟩⟩))
      -- assemble
      have hnows1 := no_pkey_of_space e2a hws1
      have hnows2 := no_pkey_of_space e4a hws2
      have hnoa := no_pkey_of_no_us e3a haf.2.1
      have hnoPr : ∀ j, KBlock.pkey j ∉ bsPr := by
        apply no_pkey_of_no_us e5b
        intro hm
        rcases List.mem_append.1 hm with hm | hm
        · have := keyFree_of_punct4 (hP '_' hm)
          exact this.1 rfl
        · rcases hrem with h | h
          · subst h
            cases hm
          · subst h
            rcases List.mem_cons.1 hm with hm | hm
            · exact absurd hm (by decide)
            · cases hm
      refine ⟨bsg1 ++ KBlock.plain [' '] ::
        (bsg2 ++ [KBlock.plain (' ' :: (a ++ P))]), ?_, ?_, ?_, ?_⟩
      · rw [hstep, renderK_append]
        rw [show renderK (KBlock.plain [' '] :: (bsg2 ++
          [KBlock.plain (' ' :: (a ++ P))])) = [' '] ++
          renderK (bsg2 ++ [KBlock.plain (' ' :: (a ++ P))]) from rfl]
        rw [renderK_append, renderK_single]
        rw [← e1a, ← e5a]
        show _ = g1 ++ ([' '] ++ (g2 ++ renderKB (KBlock.plain
          (' ' :: (a ++ P)))))
        simp [List.append_assoc, List.cons_append, List.singleton_append,
          renderKB]
      · intro b2 hb
        rcases List.mem_append.1 hb with hb | hb
        · exact ok1a b2 hb
        rcases List.mem_cons.1 hb with hb | hb
        · subst hb
          exact ⟨by decide, by decide⟩
        rcases List.mem_append.1 hb with hb | hb
        · exact ok5a b2 hb
        rcases List.mem_cons.1 hb with hb | hb
        · subst hb
          constructor
          · intro hm
            rcases List.mem_cons.1 hm with hm | hm
            · exact absurd hm.symm (by decide)
            rcases List.mem_append.1 hm with hm | hm
            · exact haf.2.1 hm
            · have := keyFree_of_punct4 (hP '_' hm)
              exact this.1 rfl
          · intro ch hm
            rcases List.mem_cons.1 hm with hm | hm
            · subst hm
              decide
            rcases List.mem_append.1 hm with hm | hm
            · exact haf.2.2.2 ch hm
            · have := keyFree_of_punct4 (hP ch hm)
              exact this.2.2
        · cases hb
      · intro j hj
        rcases m1a j hj with h | h
        · exact List.mem_append.2 (Or.inl h)
        rcases m2a j h with h2 | h2
        · exact absurd h2 (hnows1 j)
        rcases m3a j h2 with h3 | h3
        · exact absurd h3 (hnoa j)
        rcases m4a j h3 with h4 | h4
        · exact absurd h4 (hnows2 j)
        rcases m5a j h4 with h5 | h5
        · exact List.mem_append.2 (Or.inr (List.mem_cons_of_mem _
            (List.mem_append.2 (Or.inl h5))))
        · exact absurd h5 (hnoPr j)
      · intro j hj
        rcases List.mem_append.1 hj with hj | hj
        · exact m1b j (Or.inl hj)
        rcases List.mem_cons.1 hj with hj | hj
        · cases hj
        rcases List.mem_append.1 hj with hj | hj
        · exact m1b j (Or.inr (m2b j (Or.inr (m3b j (Or.inr (m4b j
            (Or.inr (m5b j (Or.inl hj)))))))))
        rcases List.mem_cons.1 hj with hj | hj
        · cases hj
        · cases hj

end Inglish

namespace Inglish

theorem pkey_mem_map {i : Nat} {rep : Str} {j : Nat} :
    ∀ {bs : List KBlock},
      (KBlock.pkey j ∈ bs.map (replKB i rep) ↔
        j ≠ i ∧ KBlock.pkey j ∈ bs) := by
  intro bs
  induction bs with
  | nil => simp
  | cons b0 bs2 ih =>
    rw [List.map_cons]
    constructor
    · intro h
      rcases List.mem_cons.1 h with h | h
      · cases b0 with
        | plain p => cases h
        | pkey l =>
          by_cases hl : l = i
          · rw [show replKB i rep (KBlock.pkey l) =
              (if l = i then KBlock.plain rep else KBlock.pkey l)
              from rfl, if_pos hl] at h
            cases h
          · rw [show replKB i rep (KBlock.pkey l) =
              (if l = i then KBlock.plain rep else KBlock.pkey l)
              from rfl, if_neg hl] at h
            injection h with h
            subst h
            exact ⟨hl, List.mem_cons_self _ _⟩
      · obtain ⟨h1, h2⟩ := ih.1 h
        exact ⟨h1, List.mem_cons_of_mem _ h2⟩
    · rintro ⟨hne, hm⟩
      rcases List.mem_cons.1 hm with h | h
      · rw [← h]
        rw [show replKB i rep (KBlock.pkey j) =
          (if j = i then KBlock.plain rep else KBlock.pkey j) from rfl,
          if_neg hne]
        exact List.mem_cons_self _ _
      · exact List.mem_cons_of_mem _ (ih.2 ⟨hne, h⟩)

end Inglish

namespace Inglish

/-- Step 6: restoring the protected pairs in mint order turns every key
block into its bracketed term, leaving every plain block in place. -/
theorem restore_fold :
    ∀ (items : List (Str × Str)) (n : Nat) (bs : List KBlock),
      (∀ b ∈ bs, kbOK b) →
      (∀ l, KBlock.pkey l ∈ bs → n ≤ l ∧ l < n + items.length) →
      (∀ i, i < items.length → KBlock.pkey (n + i) ∈ bs) →
      (∀ p ∈ items, '_' ∉ p.2 ∧ ∀ c ∈ p.2, isDigitCh c = false) →
      ∃ bs2, (pairsPI items n).foldl
          (fun r kt => replaceAll r kt.1 kt.2) (renderK bs) = renderK bs2 ∧
        (∀ d, KBlock.plain d ∈ bs → KBlock.plain d ∈ bs2) ∧
        (∀ p ∈ items, KBlock.plain ('[' :: (p.2 ++ [']'])) ∈ bs2) := by
  intro items
  induction items with
  | nil =>
    intro n bs hok hrange hpres hterm
    refine ⟨bs, rfl, fun d h => h, ?_⟩
    intro p hp
    cases hp
  | cons it rest ih =>
    intro n bs hok hrange hpres hterm
    obtain ⟨c0, t0⟩ := it
    have hterm0 := hterm (c0, t0) (List.mem_cons_self _ _)
    have hstep : replaceAll (renderK bs) (protectKey n)
        ('[' :: (t0 ++ [']'])) =
        renderK (bs.map (replKB n ('[' :: (t0 ++ [']'])))) :=
      replaceAll_renderK n ('[' :: (t0 ++ [']'])) (renderK bs).length bs
        (renderK bs) le_rfl rfl hok
    have hokm : ∀ b ∈ bs.map (replKB n ('[' :: (t0 ++ [']']))), kbOK b := by
      intro b hb
      rcases List.mem_map.1 hb with ⟨b0, hb0, heq⟩
      cases b0 with
      | plain p =>
        rw [← heq]
        exact hok (KBlock.plain p) hb0
      | pkey l =>
        by_cases hl : l = n
        · rw [show replKB n ('[' :: (t0 ++ [']'])) (KBlock.pkey l) =
            (if l = n then KBlock.plain ('[' :: (t0 ++ [']']))
              else KBlock.pkey l) from rfl, if_pos hl] at heq
          rw [← heq]
          constructor
          · intro hm
            rcases List.mem_cons.1 hm with hm | hm
            · exact absurd hm.symm (by decide)
            rcases List.mem_append.1 hm with hm | hm
            · exact hterm0.1 hm
            · rcases List.mem_cons.1 hm with hm | hm
              · exact absurd hm.symm (by decide)
              · cases hm
          · intro ch hm
            rcases List.mem_cons.1 hm with hm | hm
            · subst hm
              decide
            rcases List.mem_append.1 hm with hm | hm
            · exact hterm0.2 ch hm
            · rcases List.mem_cons.1 hm with hm | hm
              · subst hm
                decide
              · cases hm
        · rw [show replKB n ('[' :: (t0 ++ [']'])) (KBlock.pkey l) =
            (if l = n then KBlock.plain ('[' :: (t0 ++ [']']))
              else KBlock.pkey l) from rfl, if_neg hl] at heq
          rw [← heq]
          trivial
    have hrange2 : ∀ l, KBlock.pkey l ∈
        bs.map (replKB n ('[' :: (t0 ++ [']']))) →
        n + 1 ≤ l ∧ l < n + 1 + rest.length := by
      intro l hl
      obtain ⟨hne, hmem⟩ := pkey_mem_map.1 hl
      have := hrange l hmem
      simp only [List.length_cons] at this
      omega
    have hpres2 : ∀ i, i < rest.length → KBlock.pkey (n + 1 + i) ∈
        bs.map (replKB n ('[' :: (t0 ++ [']']))) := by
      intro i hi
      apply pkey_mem_map.2
      refine ⟨by omega, ?_⟩
      have := hpres (i + 1) (by simp only [List.length_cons]; omega)
      have he : n + (i + 1) = n + 1 + i := by omega
      rw [he] at this
      exact this
    obtain ⟨bs2, h1, h2, h3⟩ := ih (n + 1)
      (bs.map (replKB n ('[' :: (t0 ++ [']'])))) hokm hrange2 hpres2
      (fun p hp => hterm p (List.mem_cons_of_mem _ hp))
    refine ⟨bs2, ?_, ?_, ?_⟩
    · rw [show pairsPI ((c0, t0) :: rest) n =
        (protectKey n, '[' :: (t0 ++ [']'])) :: pairsPI rest (n + 1)
        from rfl]
      rw [List.foldl_cons]
      dsimp only
      rw [hstep]
      exact h1
    · intro d hd
      apply h2
      exact List.mem_map.2 ⟨KBlock.plain d, hd, rfl⟩
    · intro p hp
      rcases List.mem_cons.1 hp with hp | hp
      · subst hp
        apply h2
        have hkn : KBlock.pkey n ∈ bs := by
          have := hpres 0 (by simp only [List.length_cons]; omega)
          rw [Nat.add_zero] at this
          exact this
        apply List.mem_map.2
        refine ⟨KBlock.pkey n, hkn, ?_⟩
        rw [show replKB n ('[' :: (t0 ++ [']'])) (KBlock.pkey n) =
          (if n = n then KBlock.plain ('[' :: (t0 ++ [']']))
            else KBlock.pkey n) from rfl, if_pos rfl]
      · exact h3 p hp

end Inglish

namespace Inglish

theorem collapseWsGo_fuel :
    ∀ (f1 : Nat) (s : Str) (f2 : Nat), s.length ≤ f1 → s.length ≤ f2 →
      collapseWsGo f1 s = collapseWsGo f2 s := by
  intro f1
  induction f1 with
  | zero =>
    intro s f2 h1 _
    have hs : s = [] := List.length_eq_zero.1 (Nat.le_zero.1 h1)
    subst hs
    cases f2 <;> rfl
  | succ f1 ih =>
    intro s f2 h1 h2
    cases s with
    | nil => cases f2 <;> rfl
    | cons c rest =>
      cases f2 with
      | zero => simp at h2
      | succ f2 =>
        simp only [List.length_cons] at h1 h2
        show (if pyIsSpace c = true then ' ' :: collapseWsGo f1
            ((c :: rest).dropWhile pyIsSpace) else
            c :: collapseWsGo f1 rest) =
          (if pyIsSpace c = true then ' ' :: collapseWsGo f2
            ((c :: rest).dropWhile pyIsSpace) else
            c :: collapseWsGo f2 rest)
        by_cases hc : pyIsSpace c
        · rw [if_pos hc, if_pos hc]
          have hd : (c :: rest).dropWhile pyIsSpace =
              rest.dropWhile pyIsSpace := by
            rw [List.dropWhile_cons, if_pos hc]
          rw [hd]
          have hl := (List.dropWhile_sublist pyIsSpace
            (l := rest)).length_le
          rw [ih _ f2 (by omega) (by omega)]
        · rw [if_neg hc, if_neg hc]
          rw [ih rest f2 (by omega) (by omega)]

theorem collapseWs_cons_ns {c : Char} (rest : Str)
    (h : pyIsSpace c = false) :
    collapseWs (c :: rest) = c :: collapseWs rest := by
  show (if pyIsSpace c = true then ' ' :: collapseWsGo rest.length
      ((c :: rest).dropWhile pyIsSpace) else
      c :: collapseWsGo rest.length rest) = _
  rw [if_neg (by rw [h]; exact Bool.false_ne_true)]
  rfl

theorem collapseWs_cons_sp {c : Char} (rest : Str)
    (h : pyIsSpace c = true) :
    collapseWs (c :: rest) =
      ' ' :: collapseWs ((c :: rest).dropWhile pyIsSpace) := by
  show (if pyIsSpace c = true then ' ' :: collapseWsGo rest.length
      ((c :: rest).dropWhile pyIsSpace) else
      c :: collapseWsGo rest.length rest) = _
  rw [if_pos h]
  have hd : (c :: rest).dropWhile pyIsSpace = rest.dropWhile pyIsSpace := by
    rw [List.dropWhile_cons, if_pos h]
  rw [hd]
  have hl := (List.dropWhile_sublist pyIsSpace (l := rest)).length_le
  rw [collapseWsGo_fuel rest.length (rest.dropWhile pyIsSpace)
    (rest.dropWhile pyIsSpace).length (by omega) le_rfl]
  rfl

/-- Whitespace collapse distributes over concatenation at any boundary
adjacent to a non-space character. -/
theorem collapseWs_append :
    ∀ (bnd : Nat) (x y : Str), x.length ≤ bnd →
      (y = [] ∨ (∃ c t, y = c :: t ∧ pyIsSpace c = false) ∨
       (∃ c, x.getLast? = some c ∧ pyIsSpace c = false)) →
      collapseWs (x ++ y) = collapseWs x ++ collapseWs y := by
  intro bnd
  induction bnd with
  | zero =>
    intro x y h1 _
    have hx : x = [] := List.length_eq_zero.1 (Nat.le_zero.1 h1)
    subst hx
    rw [List.nil_append]
    rfl
  | succ bnd ih =>
    intro x y hlen hcond
    by_cases hy0 : y = []
    · subst hy0
      rw [List.append_nil, show collapseWs ([] : Str) = [] from rfl,
        List.append_nil]
    cases x with
    | nil =>
      rw [List.nil_append]
      rfl
    | cons c x2 =>
      simp only [List.length_cons] at hlen
      by_cases hc : pyIsSpace c
      · -- space head
        rw [List.cons_append, collapseWs_cons_sp (x2 ++ y) hc,
          collapseWs_cons_sp x2 hc]
        have hd1 : (c :: (x2 ++ y)).dropWhile pyIsSpace =
            (x2 ++ y).dropWhile pyIsSpace := by
          rw [List.dropWhile_cons, if_pos hc]
        have hd2 : (c :: x2).dropWhile pyIsSpace =
            x2.dropWhile pyIsSpace := by
          rw [List.dropWhile_cons, if_pos hc]
        rw [hd1, hd2, List.dropWhile_append]
        cases hdx : x2.dropWhile pyIsSpace with
        | nil =>
          rw [show (([] : Str).isEmpty) = true from rfl, if_pos rfl]
          rcases hcond with h | ⟨d, t, hy, hd⟩ | ⟨e, hl, he⟩
          · exact absurd h hy0
          · subst hy
            have hdy : (d :: t).dropWhile pyIsSpace = d :: t := by
              rw [List.dropWhile_cons, if_neg (by rw [hd]; exact
                Bool.false_ne_true)]
            rw [hdy]
            show _ = (' ' :: collapseWs ([] : Str)) ++ _
            rfl
          · exfalso
            have hall := List.dropWhile_eq_nil_iff.1 hdx
            cases hx2 : x2 with
            | nil =>
              subst hx2
              have : e = c := by
                rw [show ([c] : Str).getLast? = some c from rfl] at hl
                injection hl with hl
                exact hl.symm
              rw [this] at he
              rw [hc] at he
              cases he
            | cons a x3 =>
              subst hx2
              have hec : e ∈ a :: x3 := by
                rw [List.getLast?_cons_cons] at hl
                have := List.getLast?_eq_getLast (a :: x3)
                  (List.cons_ne_nil _ _)
                rw [this] at hl
                injection hl with hl
                rw [← hl]
                exact List.getLast_mem _
              have := hall e hec
              rw [this] at he
              cases he
        | cons d2 dx =>
          rw [show ((d2 :: dx).isEmpty) = false from rfl,
            if_neg Bool.false_ne_true]
          have hlx : (d2 :: dx).length ≤ bnd := by
            have h2 := (List.dropWhile_sublist pyIsSpace
              (l := x2)).length_le
            rw [hdx] at h2
            omega
          have hcond2 : y = [] ∨ (∃ c2 t2, y = c2 :: t2 ∧
              pyIsSpace c2 = false) ∨ (∃ c2, (d2 :: dx).getLast? =
              some c2 ∧ pyIsSpace c2 = false) := by
            rcases hcond with h | h | ⟨e, hl, he⟩
            · exact Or.inl h
            · exact Or.inr (Or.inl h)
            · refine Or.inr (Or.inr ⟨e, ?_, he⟩)
              have hx2ne : x2 ≠ [] := by
                intro h0
                subst h0
                cases hdx
              cases hx2c : x2 with
              | nil => exact absurd hx2c hx2ne
              | cons a x3 =>
                subst hx2c
                rw [List.getLast?_cons_cons] at hl
                have hsplit := List.takeWhile_append_dropWhile
                  (p := pyIsSpace) (l := a :: x3)
                rw [← hsplit] at hl
                rw [List.getLast?_append_of_ne_nil _
                  (by rw [hdx]; exact List.cons_ne_nil _ _)] at hl
                rw [hdx] at hl
                exact hl
          rw [ih (d2 :: dx) y hlx hcond2]
          rw [List.cons_append]
      · -- non-space head
        rw [List.cons_append, collapseWs_cons_ns (x2 ++ y)
            (Bool.eq_false_iff.2 hc),
          collapseWs_cons_ns x2 (Bool.eq_false_iff.2 hc)]
        cases hx2 : x2 with
        | nil =>
          subst hx2
          rw [List.nil_append]
          show c :: collapseWs y = (c :: collapseWs ([] : Str)) ++ _
          rfl
        | cons a x3 =>
          subst hx2
          have hcond2 : y = [] ∨ (∃ c2 t2, y = c2 :: t2 ∧
              pyIsSpace c2 = false) ∨ (∃ c2, (a :: x3).getLast? =
              some c2 ∧ pyIsSpace c2 = false) := by
            rcases hcond with h | h | ⟨e, hl, he⟩
            · exact Or.inl h
            · exact Or.inr (Or.inl h)
            · rw [List.getLast?_cons_cons] at hl
              exact Or.inr (Or.inr ⟨e, hl, he⟩)
          rw [ih (a :: x3) y (by omega) hcond2]
          rw [List.cons_append]

end Inglish

namespace Inglish

theorem kb_occursIn {d : Str} {bs : List KBlock}
    (h : KBlock.plain d ∈ bs) : occursIn d (renderK bs) := by
  obtain ⟨l1, l2, hsplit⟩ := List.append_of_mem h
  subst hsplit
  rw [renderK_append]
  refine ⟨renderK l1, renderK l2, ?_⟩
  show _ ++ (d ++ renderK l2) = _
  rw [List.append_assoc]

theorem occursIn_dropWhile {m s : Str} {P : Char → Bool} {c0 : Char}
    {t0 : Str} (hm : m = c0 :: t0) (hc : P c0 = false)
    (h : occursIn m s) : occursIn m (s.dropWhile P) := by
  obtain ⟨a, b, hab⟩ := h
  subst hab
  rw [List.append_assoc, List.dropWhile_append]
  by_cases he : (a.dropWhile P).isEmpty
  · rw [if_pos he]
    rw [hm, List.cons_append, List.dropWhile_cons,
      if_neg (by rw [hc]; exact Bool.false_ne_true)]
    exact ⟨[], b, rfl⟩
  · rw [if_neg he]
    exact ⟨a.dropWhile P, b, (List.append_assoc _ _ _).symm⟩

theorem occursIn_reverse {m s : Str} (h : occursIn m s) :
    occursIn m.reverse s.reverse := by
  obtain ⟨a, b, hab⟩ := h
  subst hab
  refine ⟨b.reverse, a.reverse, ?_⟩
  simp [List.reverse_append, List.append_assoc]

theorem pyStrip_occurs {m s : Str} {c0 cl : Char} {t0 : Str}
    (hm : m = c0 :: t0) (hc0 : pyIsSpace c0 = false)
    (hcl : m.getLast? = some cl) (hcls : pyIsSpace cl = false)
    (h : occursIn m s) : occursIn m (pyStrip s) := by
  unfold pyStrip
  have h1 := occursIn_dropWhile hm hc0 h
  have h2 := occursIn_reverse h1
  have hmr : ∃ t1, m.reverse = cl :: t1 := by
    cases hr : m.reverse with
    | nil =>
      exfalso
      have : m = [] := by
        have := congrArg List.reverse hr
        rwa [List.reverse_reverse] at this
      rw [hm] at this
      cases this
    | cons d t1 =>
      have hh : m.reverse.head? = some cl := by
        rw [List.head?_reverse]
        exact hcl
      rw [hr] at hh
      injection hh with hh
      exact ⟨t1, by rw [hh]⟩
  obtain ⟨t1, hmr⟩ := hmr
  have h3 := occursIn_dropWhile hmr hcls h2
  have h4 := occursIn_reverse h3
  rw [List.reverse_reverse] at h4
  exact h4

theorem blocksPI_no_lb :
    ∀ (items : List (Str × Str)) (tl : Str) (n : Nat),
      (∀ p ∈ items, '[' ∉ p.1) → '[' ∉ tl →
      '[' ∉ renderK (blocksPI items tl n) := by
  intro items
  induction items with
  | nil =>
    intro tl n _ htl hm
    rw [show blocksPI [] tl n = [KBlock.plain tl] from rfl,
      renderK_single] at hm
    exact htl hm
  | cons it rest ih =>
    intro tl n hok htl hm
    obtain ⟨c0, t0⟩ := it
    have hr : renderK (blocksPI ((c0, t0) :: rest) tl n) =
        c0 ++ (protectKey n ++ renderK (blocksPI rest tl (n + 1))) := rfl
    rw [hr] at hm
    rcases List.mem_append.1 hm with h | h
    · exact hok (c0, t0) (List.mem_cons_self _ _) h
    rcases List.mem_append.1 h with h | h
    · rcases protectKey_chars h with h | h | h
      · exact absurd h (by decide)
      · exact absurd h (by decide)
      · exact absurd h (by decide)
    · exact ih tl (n + 1) (fun p hp => hok p (List.mem_cons_of_mem _ hp))
        htl h

/-- No `'['` reaches the substituted text when none is in the protect
output. -/
theorem subst_join_no_lb (keys : List Str) {s : Str} (hs : '[' ∉ s) :
    '[' ∉ joinSp ((pySplit s).filterMap (substWord keys)) := by
  intro hc
  rcases joinSp_chars _ '[' hc with h | ⟨w, hw, hcw⟩
  · exact absurd h (by decide)
  · rcases List.mem_filterMap.1 hw with ⟨t, ht, hts⟩
    rcases substWord_cases hts with h | ⟨p, hp, hpv⟩
    · rw [h] at hcw
      exact hs (pySplitGo_chars _ _ _ ht '[' hcw)
    · rw [← hpv] at hcw
      exact (wordMapVals_clean p hp).2 hcw

end Inglish

namespace Inglish

/-- C1 (corrected): for a guarded input built from bracket-free segments
(free of underscores and digits) alternating with nonempty bracketed
terms (free of `']'`, underscores and digits, and already in canonical
whitespace form), and containing no case-insensitive "has" (so the
possession pre-rule does not rewrite the sentence), every bracketed term
appears verbatim, brackets included, in the translated output. -/
theorem claim_C1 (items : List (Str × Str)) (tl : Str)
    (hseg : ∀ p ∈ items, '[' ∉ p.1 ∧ '_' ∉ p.1 ∧
      ∀ c ∈ p.1, isDigitCh c = false)
    (htl : '[' ∉ tl ∧ '_' ∉ tl ∧ ∀ c ∈ tl, isDigitCh c = false)
    (hterm : ∀ p ∈ items, p.2 ≠ [] ∧ ']' ∉ p.2 ∧ '_' ∉ p.2 ∧
      (∀ c ∈ p.2, isDigitCh c = false) ∧
      collapseWs ('[' :: (p.2 ++ [']'])) = '[' :: (p.2 ++ [']']))
    (hhas : occursB (str "has") (lowerStr (itemsRender items tl)) = false) :
    ∀ p ∈ items,
      occursIn ('[' :: (p.2 ++ [']'])) (translate (itemsRender items tl))
    := by
  intro p hp
  have hnocc : ¬ occursIn (str "has") (lowerStr (itemsRender items tl))
      := by
    intro h
    have h2 := (occursB_iff (str "has") (lowerStr (itemsRender items
      tl))).2 h
    rw [hhas] at h2
    cases h2
  have hr1 : preRule (itemsRender items tl) = itemsRender items tl :=
    preRule_id hnocc
  have hprot : protectTerms (itemsRender items tl) =
      (renderK (blocksPI items tl 0), pairsPI items 0) :=
    protectGo_items items tl 0 (itemsRender items tl).length le_rfl
      (fun q hq => ⟨(hseg q hq).1, (hterm q hq).1, (hterm q hq).2.1⟩)
      htl.1
  have hok0 : ∀ b ∈ blocksPI items tl 0, kbOK b :=
    blocksPI_ok items tl 0
      (fun q hq => ⟨(hseg q hq).2.1, (hseg q hq).2.2⟩)
      ⟨htl.2.1, htl.2.2⟩
  obtain ⟨bs3, e3, ok3, m3a, m3b⟩ := pySplit_join_blocks
    ((pairsPI items 0).map Prod.fst)
    (renderK (blocksPI items tl 0)).length
    (blocksPI items tl 0) (renderK (blocksPI items tl 0)) le_rfl rfl hok0
  have e3b : joinSp ((pySplit (renderK (blocksPI items
      tl 0))).filterMap (substWord ((pairsPI items 0).map Prod.fst))) =
      renderK bs3 := e3
  have hlb3 : '[' ∉ joinSp ((pySplit (renderK (blocksPI items
      tl 0))).filterMap (substWord ((pairsPI items 0).map Prod.fst))) :=
    subst_join_no_lb _ (blocksPI_no_lb items tl 0
      (fun q hq => (hseg q hq).1) htl.1)
  rw [e3b] at hlb3
  have hp1 : postRule (str " of ") (str " ka ") (renderK bs3) =
      renderK bs3 := postRuleGo_id _ _ _ _ hlb3
  have hp2 : postRule (str " in ") (str " mein ") (renderK bs3) =
      renderK bs3 := postRuleGo_id _ _ _ _ hlb3
  obtain ⟨bs5, e5, ok5, m5a, m5b⟩ := sovStep_blocks bs3 ok3
  have hrange : ∀ l, KBlock.pkey l ∈ bs5 → 0 ≤ l ∧ l < 0 + items.length
      := by
    intro l hl
    have := blocksPI_keys items tl 0 l (m3b l (m5b l hl))
    omega
  have hpres : ∀ i, i < items.length → KBlock.pkey (0 + i) ∈ bs5 := by
    intro i hi
    apply m5a
    apply m3a
    have := blocksPI_present items tl 0 i hi
    rw [Nat.zero_add] at this ⊢
    exact this
  obtain ⟨bsF, eF, persF, termsF⟩ := restore_fold items 0 bs5 ok5 hrange
    hpres (fun q hq => ⟨(hterm q hq).2.2.1, (hterm q hq).2.2.2.1⟩)
  rw [translate_eq, hr1, hprot]
  dsimp only
  rw [e3b, hp1, hp2, e5, eF]
  have hocc : occursIn ('[' :: (p.2 ++ [']'])) (renderK bsF) :=
    kb_occursIn (termsF p hp)
  obtain ⟨a, b, hab⟩ := hocc
  have hab2 : renderK bsF = a ++ (('[' :: (p.2 ++ [']'])) ++ b) := by
    rw [hab, List.append_assoc]
  have hgl : ('[' :: (p.2 ++ [']'])).getLast? = some ']' :=
    List.getLast?_concat ('[' :: p.2)
  have hc1 : collapseWs (a ++ (('[' :: (p.2 ++ [']'])) ++ b)) =
      collapseWs a ++ collapseWs (('[' :: (p.2 ++ [']'])) ++ b) :=
    collapseWs_append a.length a _ le_rfl
      (Or.inr (Or.inl ⟨'[', (p.2 ++ [']']) ++ b, rfl, by decide⟩))
  have hc2 : collapseWs (('[' :: (p.2 ++ [']'])) ++ b) =
      collapseWs ('[' :: (p.2 ++ [']'])) ++ collapseWs b :=
    collapseWs_append ('[' :: (p.2 ++ [']'])).length _ b le_rfl
      (Or.inr (Or.inr ⟨']', hgl, by decide⟩))
  have hct := (hterm p hp).2.2.2.2
  have hcw : collapseWs (renderK bsF) =
      collapseWs a ++ (('[' :: (p.2 ++ [']'])) ++ collapseWs b) := by
    rw [hab2, hc1, hc2, hct]
  have hocc2 : occursIn ('[' :: (p.2 ++ [']']))
      (collapseWs (renderK bsF)) := by
    refine ⟨collapseWs a, collapseWs b, ?_⟩
    rw [hcw, List.append_assoc]
  exact pyStrip_occurs rfl (by decide) hgl (by decide) hocc2

end Inglish

namespace Inglish

/-- The unqualified claim fails on two independent grounds: the final
whitespace normalisation collapses the doubled space inside the term
"a  b" so the term is no longer a substring of the output, and clean
text spelling a key fragment ("P0") between placeholders lets the first
restore replacement match across placeholder boundaries, destroying the
terms "b" and "c" entirely. -/
theorem counterexample_C1 :
    (translate (str "[a  b]") = str "[a b]" ∧
     occursB (str "a  b") (translate (str "[a  b]")) = false) ∧
    (translate (str "[a][b]P0[c]") = str "[a]__P1[a]P2__" ∧
     occursB (str "b") (translate (str "[a][b]P0[c]")) = false) := by
  exact ⟨⟨by decide, by decide⟩, ⟨by decide, by decide⟩⟩

/-- On "use the [stack]" the bracketed term "stack" survives verbatim:
the translation is "upyog karo [stack]". -/
theorem witness_C1 :
    occursIn ('[' :: (str "stack" ++ [']']))
      (translate (itemsRender [(str "use the ", str "stack")] [])) :=
  claim_C1 [(str "use the ", str "stack")] [] (by decide) (by decide)
    (by decide) (by decide) (str "use the ", str "stack") (by decide)

end Inglish
